import Mathlib

/-!
# Verification of the map-coloring CSP engine

Shallow embedding of the constraint-satisfaction core of the repository:
the CSP model (`csp/model.py`), the ordering heuristics
(`solver/heuristics.py`), the inference strategies (`solver/inference.py`)
and the backtracking solver (`solver/backtracking.py`).

Python dictionaries are modelled as insertion-ordered association lists
with unique keys (`Dict`); Python's unbounded recursion is modelled with
an explicit fuel parameter whose sufficiency is proved below, so that all
definitions are executable and kernel-reducible.
-/

set_option autoImplicit false

namespace MapColoring

/-- A Python `dict` keyed by strings: insertion-ordered association list.
The solver only ever builds lists with pairwise distinct keys (as a real
`dict` has); where a statement needs that fact it is an explicit hypothesis. -/
abbrev Dict (β : Type) := List (String × β)

/-- `d[k]` as an option (a real `dict` raises `KeyError` when absent). -/
def dlookup {β : Type} : Dict β → String → Option β
  | [], _ => none
  | (k, v) :: rest, key => if k = key then some v else dlookup rest key

/-- `k in d`. -/
def dcontains {β : Type} (d : Dict β) (key : String) : Bool :=
  (dlookup d key).isSome

/-- `d[k] = v`: update the value in place if the key exists (keeping its
position, as CPython dicts do), otherwise append the new entry. -/
def dinsert {β : Type} : Dict β → String → β → Dict β
  | [], key, val => [(key, val)]
  | (k, v) :: rest, key, val =>
    if k = key then (k, val) :: rest else (k, v) :: dinsert rest key val

/-- `del d[k]`. -/
def derase {β : Type} : Dict β → String → Dict β
  | [], _ => []
  | (k, v) :: rest, key => if k = key then rest else (k, v) :: derase rest key

/-- The keys of a dict, in order. -/
def keysOf {β : Type} (d : Dict β) : List String := d.map Prod.fst

/-- The keys are pairwise distinct (always true of a real `dict`). -/
def KeysNodup {β : Type} (d : Dict β) : Prop := (keysOf d).Nodup

/-- An assignment: `Dict` from variable to chosen color. -/
abbrev Assignment := Dict String

/-- A domains mapping: `Dict` from variable to its list of candidate colors. -/
abbrev Domains := Dict (List String)

/-- `domains[v]`, defaulting to `[]` where the source would raise `KeyError`
(every theorem below assumes the keys cover the variables it touches, which
makes the default unreachable). -/
def dget (d : Domains) (key : String) : List String := (dlookup d key).getD []

/-- `domains[v] = colors` (update-or-append, as `dinsert`). -/
def dset (d : Domains) (key : String) (val : List String) : Domains :=
  dinsert d key val

/-- `d.update(other)`: for each entry of `other` in order, set it in `d`. -/
def dupdate (d other : Domains) : Domains :=
  other.foldl (fun acc p => dset acc p.1 p.2) d

/-- Sum of the lengths of all domains (`sum(len(d) for d in domains.values())`). -/
def totalSize (d : Domains) : Nat := (d.map (fun p => p.2.length)).sum

/-- `CSPModel` from `csp/model.py`: variables, per-variable domains and the
list of adjacency pairs. The derived `networkx` graph is modelled by the
`neighborsOf` function below. -/
structure CSPModel where
  /-- The source's `variables` field (`variables` is reserved in Lean 4). -/
  vars : List String
  domains : Domains
  constraints : List (String × String)
  name : String := "Unnamed Map"

/-- Append an element to a list unless it is already present: one step of
adjacency construction (`networkx` ignores repeated edges). -/
def pushNew (l : List String) (x : String) : List String :=
  if x ∈ l then l else l ++ [x]

/-- `CSPModel.get_neighbors`: adjacency derived from the constraint list,
in edge-insertion order, without duplicates (as the `networkx` graph has). -/
def neighborsOf (csp : CSPModel) (v : String) : List String :=
  csp.constraints.foldl
    (fun acc p =>
      if p.1 = v then pushNew acc p.2
      else if p.2 = v then pushNew acc p.1
      else acc) []

/-- `CSPModel.is_consistent`: no already-assigned neighbor holds `value`. -/
def isConsistent (csp : CSPModel) (variable0 : String) (value : String)
    (assignment : Assignment) : Bool :=
  (neighborsOf csp variable0).all
    (fun nb => !(dlookup assignment nb == some value))

/-- `CSPModel.is_complete`: the assignment's size equals the variable count. -/
def isComplete (csp : CSPModel) (assignment : Assignment) : Bool :=
  assignment.length == csp.vars.length

/-- `CSPModel.is_valid_solution`: complete and no constrained pair shares a
value. Looking up an unassigned endpoint gives `none` (the source would
raise `KeyError` there; unreachable for complete assignments over models
whose constraint endpoints are variables). -/
def isValidSolution (csp : CSPModel) (assignment : Assignment) : Bool :=
  isComplete csp assignment &&
    csp.constraints.all
      (fun p => !(dlookup assignment p.1 == dlookup assignment p.2))

/-- `CSPModel.copy_domains`: a deep copy of the domains dict. On values the
copy is equal to the original; the point of the copy in the source (fresh
list objects) is captured by the solver threading this value, never the
model's own field. -/
def copyDomains (csp : CSPModel) : Domains :=
  csp.domains.map (fun p => (p.1, p.2))

/-- The data-model invariants of §3 of the specification: variable names
are unique, constraints are between distinct variables, and every variable
has a domain entry with no stray duplicate keys. -/
def WellFormed (csp : CSPModel) : Prop :=
  csp.vars.Nodup ∧
  (∀ p ∈ csp.constraints, p.1 ∈ csp.vars ∧ p.2 ∈ csp.vars ∧ p.1 ≠ p.2) ∧
  (∀ v ∈ csp.vars, dcontains csp.domains v) ∧
  KeysNodup csp.domains

instance (csp : CSPModel) : Decidable (WellFormed csp) := by
  unfold WellFormed KeysNodup
  infer_instance

/-! ## Ordering heuristics (`solver/heuristics.py`) -/

/-- One iteration of the `mrv` loop: skip assigned variables; an
unassigned variable enters the accumulator iff its domain is strictly
smaller than the best so far (the accumulator `none` plays the role of the
initial `min_values = inf`, which any domain size beats). -/
def mrvStep (assignment : Assignment) (domains : Domains)
    (acc : Option (String × Nat)) (var : String) : Option (String × Nat) :=
  if dcontains assignment var then acc
  else
    match acc with
    | none => some (var, (dget domains var).length)
    | some (best, m) =>
      if (dget domains var).length < m then some (var, (dget domains var).length)
      else some (best, m)

/-- `mrv`: the first unassigned variable with strictly smallest current
domain, in declaration order. -/
def mrv (csp : CSPModel) (assignment : Assignment) (domains : Domains) :
    Option String :=
  (csp.vars.foldl (mrvStep assignment domains) none).map Prod.fst

/-- Number of unassigned neighbors of `var` (the degree used by the
degree heuristic and the MRV tie-break). -/
def unassignedDegree (csp : CSPModel) (assignment : Assignment) (var : String) : Nat :=
  (neighborsOf csp var).countP (fun nb => !dcontains assignment nb)

/-- One iteration of the `degree_heuristic` loop (initial `max_degree = -1`
means the first unassigned variable always enters the accumulator). -/
def degreeStep (csp : CSPModel) (assignment : Assignment)
    (acc : Option (String × Nat)) (var : String) : Option (String × Nat) :=
  if dcontains assignment var then acc
  else
    match acc with
    | none => some (var, unassignedDegree csp assignment var)
    | some (best, m) =>
      if m < unassignedDegree csp assignment var then
        some (var, unassignedDegree csp assignment var)
      else some (best, m)

/-- `degree_heuristic`: first unassigned variable with strictly largest
number of unassigned neighbors. -/
def degreeHeuristic (csp : CSPModel) (assignment : Assignment)
    (_domains : Domains) : Option String :=
  (csp.vars.foldl (degreeStep csp assignment) none).map Prod.fst

/-- One iteration of the candidate-collection loop of
`mrv_with_degree_tiebreaker`. -/
def candStep (assignment : Assignment) (domains : Domains)
    (acc : Option (Nat × List String)) (var : String) :
    Option (Nat × List String) :=
  if dcontains assignment var then acc
  else
    match acc with
    | none => some ((dget domains var).length, [var])
    | some (m, cands) =>
      if (dget domains var).length < m then
        some ((dget domains var).length, [var])
      else if (dget domains var).length = m then some (m, cands ++ [var])
      else some (m, cands)

/-- The candidate list built by `mrv_with_degree_tiebreaker`: all unassigned
variables whose domain size equals the running minimum, in declaration order. -/
def mrvCandidates (csp : CSPModel) (assignment : Assignment) (domains : Domains) :
    Option (Nat × List String) :=
  csp.vars.foldl (candStep assignment domains) none

/-- One iteration of the degree tie-break loop (the source initializes
`best_var = candidates[0]` but the first candidate's degree, being at least
0 > -1, always replaces it, so the `none` start is equivalent). -/
def tieStep (csp : CSPModel) (assignment : Assignment)
    (acc : Option (String × Nat)) (var : String) : Option (String × Nat) :=
  match acc with
  | none => some (var, unassignedDegree csp assignment var)
  | some (best, m) =>
    if m < unassignedDegree csp assignment var then
      some (var, unassignedDegree csp assignment var)
    else some (best, m)

/-- `mrv_with_degree_tiebreaker`: the MRV candidate set, tie-broken by the
degree heuristic (`candidates[0]` on an empty candidate list would raise in
the source; that case is the `none` here). -/
def mrvWithDegreeTiebreaker (csp : CSPModel) (assignment : Assignment)
    (domains : Domains) : Option String :=
  match mrvCandidates csp assignment domains with
  | none => none
  | some (_, cands) =>
    if cands.length = 1 then cands.head?
    else (cands.foldl (tieStep csp assignment) none).map Prod.fst

/-- Stable insertion of a scored value into a score-sorted list: the new
element goes before the first strictly-or-equally larger score it meets,
so earlier elements with equal score stay first. -/
def insertByScore (x : String × Nat) : List (String × Nat) → List (String × Nat)
  | [] => [x]
  | y :: ys => if x.2 ≤ y.2 then x :: y :: ys else y :: insertByScore x ys

/-- Stable sort by ascending score, modelling Python's stable `list.sort`. -/
def sortByScore : List (String × Nat) → List (String × Nat)
  | [] => []
  | x :: xs => insertByScore x (sortByScore xs)

/-- The test `neighbor not in assignment and value in domains[neighbor]`
shared by forward checking (where it guards a removal) and `lcv` (where it
is counted as an elimination). -/
def fcHits (value : String) (assignment : Assignment) (domains : Domains)
    (nb : String) : Bool :=
  !dcontains assignment nb && decide (value ∈ dget domains nb)

/-- `lcv`: score each value of `var`'s current domain by how many unassigned
neighbors still hold it, sort ascending (stably), and return the values. -/
def lcv (csp : CSPModel) (var : String) (assignment : Assignment)
    (domains : Domains) : List String :=
  (sortByScore
    ((dget domains var).map
      (fun value =>
        (value,
          (neighborsOf csp var).countP (fcHits value assignment domains))))).map
    Prod.fst

/-- `no_order`: the domain values in their current order. -/
def noOrder (_csp : CSPModel) (var : String) (_assignment : Assignment)
    (domains : Domains) : List String :=
  dget domains var

/-! ## Inference strategies (`solver/inference.py`) -/

/-- The neighbor loop of `ForwardChecking.infer`: remove `value` from each
not-yet-assigned neighbor's domain, counting removals; on a wipeout return
`none` (the source's `False`) at once, leaving later neighbors unprocessed. -/
def fcGo (value : String) (assignment : Assignment) :
    List String → Nat → Domains → Option Nat × Domains
  | [], pruned, domains => (some pruned, domains)
  | nb :: rest, pruned, domains =>
    if fcHits value assignment domains nb then
      if ((dget domains nb).erase value).length = 0 then
        (none, dset domains nb ((dget domains nb).erase value))
      else
        fcGo value assignment rest (pruned + 1)
          (dset domains nb ((dget domains nb).erase value))
    else fcGo value assignment rest pruned domains

/-- `ForwardChecking.infer`. -/
def fcInfer (csp : CSPModel) (variable0 value : String) (assignment : Assignment)
    (domains : Domains) : Option Nat × Domains :=
  fcGo value assignment (neighborsOf csp variable0) 0 domains

/-- `AC3.get_all_arcs`: both directions of every constraint, in order. -/
def getAllArcs (csp : CSPModel) : List (String × String) :=
  csp.constraints.foldl (fun acc p => acc ++ [(p.1, p.2), (p.2, p.1)]) []

/-- The values of `Xi`'s domain with no support in `Xj`'s domain (the
source's `values_to_remove`, in domain order). -/
def reviseRemovals (domains : Domains) (xi xj : String) : List String :=
  (dget domains xi).filter (fun x => !(dget domains xj).any (fun y => y != x))

/-- `AC3.revise`: drop every unsupported value from `Xi`'s domain (each via
`list.remove`, i.e. first-occurrence erase) and report whether anything was
removed. When nothing is removed the source leaves the dict untouched. -/
def revise (domains : Domains) (xi xj : String) : Bool × Domains :=
  if (reviseRemovals domains xi xj).isEmpty then (false, domains)
  else
    (true, dset domains xi
      ((reviseRemovals domains xi xj).foldl (fun l x => l.erase x)
        (dget domains xi)))

/-- The queue-draining loop of `AC3.enforce`, with explicit fuel standing in
for the source's unbounded `while queue:` loop (`enforceFuel` below is proved
sufficient, so the `none` out-of-fuel marker is unreachable). -/
def enforceF (csp : CSPModel) (assignment : Assignment) :
    Nat → List (String × String) → Domains → Option (Bool × Domains)
  | 0, _, _ => none
  | _ + 1, [], domains => some (true, domains)
  | fuel + 1, (xi, xj) :: rest, domains =>
    if !assignment.isEmpty && dcontains assignment xi then
      enforceF csp assignment fuel rest domains
    else
      match revise domains xi xj with
      | (false, domains1) => enforceF csp assignment fuel rest domains1
      | (true, domains1) =>
        if (dget domains1 xi).length = 0 then some (false, domains1)
        else
          enforceF csp assignment fuel
            (rest ++ ((neighborsOf csp xi).filter (fun xk => xk != xj)).map
              (fun xk => (xk, xi)))
            domains1

/-- Fuel sufficient for `enforceF` (proved below): every step either shortens
the queue or strictly shrinks the total domain size, and a shrinking step
enqueues at most one arc per constraint. -/
def enforceFuel (csp : CSPModel) (queue : List (String × String))
    (domains : Domains) : Nat :=
  queue.length + totalSize domains * (1 + csp.constraints.length) + 1

/-- `AC3.enforce`: drain the all-arcs queue. -/
def enforce (csp : CSPModel) (domains : Domains) (assignment : Assignment) :
    Bool × Domains :=
  (enforceF csp assignment (enforceFuel csp (getAllArcs csp) domains)
      (getAllArcs csp) domains).getD (false, domains)

/-- The forward-checking pass at the start of `AC3.infer`; `false` reports a
wipeout, with the removals made so far left in the returned domains. -/
def ac3FcGo (value : String) (assignment : Assignment) :
    List String → Domains → Bool × Domains
  | [], domains => (true, domains)
  | nb :: rest, domains =>
    if fcHits value assignment domains nb then
      if ((dget domains nb).erase value).length = 0 then
        (false, dset domains nb ((dget domains nb).erase value))
      else
        ac3FcGo value assignment rest
          (dset domains nb ((dget domains nb).erase value))
    else ac3FcGo value assignment rest domains

/-- `AC3.infer`: forward-checking pass, then full `enforce`; the pruned
count is the drop in total domain size across the combined operation. -/
def ac3Infer (csp : CSPModel) (variable0 value : String) (assignment : Assignment)
    (domains : Domains) : Option Int × Domains :=
  let initialSizes : Int := totalSize domains
  match ac3FcGo value assignment (neighborsOf csp variable0) domains with
  | (false, domains1) => (none, domains1)
  | (true, domains1) =>
    match enforce csp domains1 assignment with
    | (false, domains2) => (none, domains2)
    | (true, domains2) => (some (initialSizes - totalSize domains2), domains2)

/-! ## Backtracking solver (`solver/backtracking.py`) -/

/-- `SolverStats`. Counters are Python ints, so modelled in `Int`; the
wall-clock `time_elapsed` field is not modelled (real time). -/
structure SolverStats where
  nodesExplored : Int := 0
  backtracks : Int := 0
  inferenceCalls : Int := 0
  prunedValues : Int := 0
  solutionFound : Bool := false
deriving DecidableEq

/-- The built-in variable-selection strategies (§9 of the specification
models the pluggable callables as this closed set; `declarationOrder` is
the solver's default when none is configured). -/
inductive SelectHeuristic where
  | declarationOrder
  | mrv
  | degree
  | mrvDegree
deriving DecidableEq

/-- The built-in value-ordering strategies (`domainOrder` is the default). -/
inductive ValueHeuristic where
  | domainOrder
  | lcv
deriving DecidableEq

/-- The built-in inference strategies (`noInference` is the default). -/
inductive InferenceStrategy where
  | noInference
  | forwardChecking
  | ac3
deriving DecidableEq

/-- The constructor arguments of `BacktrackingSolver`. -/
structure SolverConfig where
  select : SelectHeuristic := .declarationOrder
  order : ValueHeuristic := .domainOrder
  infer : InferenceStrategy := .noInference
  maxNodes : Int := 100000
deriving DecidableEq

/-- `BacktrackingSolver._select_variable` together with the configured
heuristic: `none` corresponds to the source falling through with no
unassigned variable (the default returns `None`, the heuristics return
`None` or raise), which cannot happen on a well-formed model mid-search. -/
def selectVariable (cfg : SolverConfig) (csp : CSPModel) (assignment : Assignment)
    (domains : Domains) : Option String :=
  match cfg.select with
  | .declarationOrder => csp.vars.find? (fun v => !dcontains assignment v)
  | .mrv => mrv csp assignment domains
  | .degree => degreeHeuristic csp assignment domains
  | .mrvDegree => mrvWithDegreeTiebreaker csp assignment domains

/-- `BacktrackingSolver._order_values` together with the configured
heuristic (the default returns `domains[variable].copy()`). -/
def orderValues (cfg : SolverConfig) (csp : CSPModel) (var : String)
    (assignment : Assignment) (domains : Domains) : List String :=
  match cfg.order with
  | .domainOrder => dget domains var
  | .lcv => lcv csp var assignment domains

/-- The inference block of `_backtrack`: call the configured strategy (if
any), count the call, and either flag failure or add the pruned count. -/
def applyInference (strat : InferenceStrategy) (csp : CSPModel)
    (var value : String) (assignment : Assignment) (domains : Domains)
    (stats : SolverStats) : Bool × Domains × SolverStats :=
  match strat with
  | .noInference => (true, domains, stats)
  | .forwardChecking =>
    match fcInfer csp var value assignment domains with
    | (res, domains1) =>
      let stats1 := { stats with inferenceCalls := stats.inferenceCalls + 1 }
      match res with
      | none => (false, domains1, stats1)
      | some k =>
        (true, domains1, { stats1 with prunedValues := stats1.prunedValues + k })
  | .ac3 =>
    match ac3Infer csp var value assignment domains with
    | (res, domains1) =>
      let stats1 := { stats with inferenceCalls := stats.inferenceCalls + 1 }
      match res with
      | none => (false, domains1, stats1)
      | some k =>
        (true, domains1, { stats1 with prunedValues := stats1.prunedValues + k })

/-- The candidate-value loop of `_backtrack`, generic in the recursive call
`bt`. Each iteration assigns, snapshots the domains, applies inference,
recurses on success of inference, and on failure undoes the assignment,
restores the snapshot (`domains.update(saved_domains)`) and counts a
backtrack. A `none` from `bt` (out of fuel) is propagated. -/
def tryValuesGo (csp : CSPModel) (strat : InferenceStrategy)
    (bt : Assignment → Domains → SolverStats →
      Option (Option Assignment × Domains × SolverStats))
    (var : String) :
    List String → Assignment → Domains → SolverStats →
      Option (Option Assignment × Domains × SolverStats)
  | [], _, domains, stats => some (none, domains, stats)
  | value :: rest, assignment, domains, stats =>
    if isConsistent csp var value assignment then
      let assignment1 := dinsert assignment var value
      let saved := domains.map (fun p => (p.1, p.2))
      match applyInference strat csp var value assignment1 domains stats with
      | (inferenceOk, domains1, stats1) =>
        if inferenceOk then
          match bt assignment1 domains1 stats1 with
          | none => none
          | some (some sol, domains2, stats2) => some (some sol, domains2, stats2)
          | some (none, domains2, stats2) =>
            tryValuesGo csp strat bt var rest (derase assignment1 var)
              (dupdate domains2 saved)
              { stats2 with backtracks := stats2.backtracks + 1 }
        else
          tryValuesGo csp strat bt var rest (derase assignment1 var)
            (dupdate domains1 saved)
            { stats1 with backtracks := stats1.backtracks + 1 }
    else tryValuesGo csp strat bt var rest assignment domains stats

/-- `BacktrackingSolver._backtrack`, with fuel standing in for Python's
unbounded call stack: `none` means the fuel ran out, and
`backtrackF_depth_sufficient` below proves fuel `unassignedCount + 1`
always suffices (every recursive call strictly grows the assignment). -/
def backtrackF (cfg : SolverConfig) (csp : CSPModel) :
    Nat → Assignment → Domains → SolverStats →
      Option (Option Assignment × Domains × SolverStats)
  | 0, _, _, _ => none
  | fuel + 1, assignment, domains, stats =>
    if stats.nodesExplored ≥ cfg.maxNodes then some (none, domains, stats)
    else if isComplete csp assignment then some (some assignment, domains, stats)
    else
      let stats1 := { stats with nodesExplored := stats.nodesExplored + 1 }
      match selectVariable cfg csp assignment domains with
      | none => some (none, domains, stats1)
      | some var =>
        tryValuesGo csp cfg.infer (backtrackF cfg csp fuel) var
          (orderValues cfg csp var assignment domains) assignment domains stats1

/-- Number of not-yet-assigned variables: bounds the recursion depth. -/
def unassignedCount (csp : CSPModel) (assignment : Assignment) : Nat :=
  (csp.vars.filter (fun v => !dcontains assignment v)).length

/-- `_backtrack` run with provably sufficient fuel (the `getD` default is
unreachable by `backtrackF_depth_sufficient`). -/
def backtrackRun (cfg : SolverConfig) (csp : CSPModel) (assignment : Assignment)
    (domains : Domains) (stats : SolverStats) :
    Option Assignment × Domains × SolverStats :=
  (backtrackF cfg csp (unassignedCount csp assignment + 1) assignment domains
      stats).getD (none, domains, stats)

/-- What a `solve` call leaves behind: its return value, the solver's stats
field, the model's domains as observable after the call, and the final
state of the solver's private working copy of the domains. -/
structure SolveOutcome where
  result : Option Assignment
  stats : SolverStats
  modelDomains : Domains
  finalDomains : Domains
deriving DecidableEq

/-- `BacktrackingSolver.solve`: reset the stats (the `_prevStats` argument
models the instance's stats field from before the call, discarded by the
reset), take a private copy of the model's domains, search from the empty
assignment, and record whether a solution was found. The model itself is
never written, so its domains after the call are its `domains` field. -/
def solve (cfg : SolverConfig) (csp : CSPModel) (_prevStats : SolverStats) :
    SolveOutcome :=
  let stats0 : SolverStats := {}
  let domains := copyDomains csp
  match backtrackRun cfg csp [] domains stats0 with
  | (result, domainsOut, stats1) =>
    { result := result
      stats := { stats1 with solutionFound := result.isSome }
      modelDomains := csp.domains
      finalDomains := domainsOut }

/-- The largest initial domain size: bounds every candidate-value list. -/
def maxDomainSize (csp : CSPModel) : Nat :=
  csp.domains.foldl (fun m p => max m p.2.length) 0

/-- `nodeBound csp k`: an upper bound on the nodes explored by a search
with `k` unassigned variables (`1 + branching * bound for k - 1`; one node
even at zero unassigned variables, covering a visit that only runs the
selection fallthrough). -/
def nodeBound (csp : CSPModel) : Nat → Nat
  | 0 => 1
  | k + 1 => 1 + maxDomainSize csp * nodeBound csp k

/-- A satisfying assignment in the CSP sense: every variable gets a value
from its own (initial) domain, and constrained pairs get different values. -/
def IsSolution (csp : CSPModel) (sol : Assignment) : Prop :=
  (∀ v ∈ csp.vars, ∃ c ∈ dget csp.domains v, dlookup sol v = some c) ∧
  (∀ p ∈ csp.constraints, dlookup sol p.1 ≠ dlookup sol p.2)

instance (csp : CSPModel) (sol : Assignment) : Decidable (IsSolution csp sol) := by
  unfold IsSolution
  infer_instance

/-- Every constrained pair whose endpoints are both assigned carries two
distinct values: the invariant that `is_consistent` maintains along the
search path (a partial assignment never violates a constraint). -/
def PairwiseConsistent (csp : CSPModel) (A : Assignment) : Prop :=
  ∀ p ∈ csp.constraints, ∀ x y,
    dlookup A p.1 = some x → dlookup A p.2 = some y → x ≠ y

/-- A fixed satisfying assignment `S` stays available in the working
domains: every variable still holds its `S`-value as a candidate. This is
the invariant that makes the search complete — pruning never discards a
value that the solution `S` uses. -/
def SolutionInDomains (csp : CSPModel) (S : Assignment) (D : Domains) : Prop :=
  ∀ v ∈ csp.vars, ∃ sv, dlookup S v = some sv ∧ sv ∈ dget D v

/-- How the working domains may change during search: keys stay duplicate
free and every per-variable candidate list only loses elements (stays a
sublist of what it was). -/
def DomEvolve (D D' : Domains) : Prop :=
  (KeysNodup D → KeysNodup D') ∧ ∀ v, (dget D' v).Sublist (dget D v)

/-! ### Concrete models used by witnesses and counterexamples -/

/-- Scenario D of the specification: `X` is assigned `Red` and its
unassigned neighbor `Y` has domain exactly `{Red}`. -/
def scenarioD : CSPModel :=
  { vars := ["X", "Y"]
    domains := [("X", ["Red"]), ("Y", ["Red"])]
    constraints := [("X", "Y")] }

/-- A triangle map: three mutually adjacent regions sharing a palette. -/
def triangle (palette : List String) : CSPModel :=
  { vars := ["A", "B", "C"]
    domains := [("A", palette), ("B", palette), ("C", palette)]
    constraints := [("A", "B"), ("A", "C"), ("B", "C")] }

/-- Two unconstrained regions, the first with two candidate colors: under
a node budget of 1, the root explores one node and both candidates die at
the child's budget check, so backtracks = 2 > nodesExplored = 1. -/
def budgetModel : CSPModel :=
  { vars := ["A", "B"]
    domains := [("A", ["Red", "Green"]), ("B", ["Red"])]
    constraints := [] }

/-- `X` adjacent to `Y` (domain `{Red}`) and `Z` (domain `{Green}`): with
forward checking both of `X`'s candidates fail inference at the root, so
backtracks = 2 > nodesExplored = 1. -/
def fcFailModel : CSPModel :=
  { vars := ["X", "Y", "Z"]
    domains := [("X", ["Red", "Green"]), ("Y", ["Red"]), ("Z", ["Green"])]
    constraints := [("X", "Y"), ("X", "Z")] }

/-! ## Dictionary lemmas -/

theorem dlookup_dinsert_self {β : Type} (d : Dict β) (k : String) (v : β) :
    dlookup (dinsert d k v) k = some v := by
  induction d with
  | nil => simp [dinsert, dlookup]
  | cons p rest ih =>
    obtain ⟨k', v'⟩ := p
    by_cases h : k' = k <;> simp [dinsert, dlookup, h, ih]

theorem dlookup_dinsert_ne {β : Type} (d : Dict β) (k k' : String) (v : β)
    (h : k ≠ k') : dlookup (dinsert d k v) k' = dlookup d k' := by
  induction d with
  | nil => simp [dinsert, dlookup, h]
  | cons p rest ih =>
    obtain ⟨k0, v0⟩ := p
    by_cases h0 : k0 = k
    · subst h0
      simp [dinsert, dlookup, h]
    · by_cases h1 : k0 = k' <;>
        simp [dinsert, dlookup, h0, h1, ih, Ne.symm h]

theorem dcontains_dinsert {β : Type} (d : Dict β) (k k' : String) (v : β) :
    dcontains (dinsert d k v) k' = (k = k' || dcontains d k') := by
  by_cases h : k = k'
  · subst h
    simp [dcontains, dlookup_dinsert_self]
  · simp [dcontains, dlookup_dinsert_ne d k k' v h, h]

theorem derase_dinsert {β : Type} (d : Dict β) (k : String) (v : β)
    (h : dcontains d k = false) : derase (dinsert d k v) k = d := by
  induction d with
  | nil => simp [dinsert, derase]
  | cons p rest ih =>
    obtain ⟨k0, v0⟩ := p
    simp only [dcontains, dlookup] at h ih
    by_cases h0 : k0 = k
    · rw [if_pos h0] at h
      simp at h
    · rw [if_neg h0] at h
      simp [dinsert, derase, h0, ih h]

theorem length_dinsert_not_contained {β : Type} (d : Dict β) (k : String) (v : β)
    (h : dcontains d k = false) : (dinsert d k v).length = d.length + 1 := by
  induction d with
  | nil => simp [dinsert]
  | cons p rest ih =>
    obtain ⟨k0, v0⟩ := p
    simp only [dcontains, dlookup] at h ih
    by_cases h0 : k0 = k
    · rw [if_pos h0] at h
      simp at h
    · rw [if_neg h0] at h
      simp [dinsert, h0, ih h]

theorem keysOf_dinsert_not_contained {β : Type} (d : Dict β) (k : String) (v : β)
    (h : dcontains d k = false) : keysOf (dinsert d k v) = keysOf d ++ [k] := by
  induction d with
  | nil => simp [dinsert, keysOf]
  | cons p rest ih =>
    obtain ⟨k0, v0⟩ := p
    simp only [dcontains, dlookup] at h ih
    by_cases h0 : k0 = k
    · rw [if_pos h0] at h
      simp at h
    · rw [if_neg h0] at h
      simp only [dinsert, keysOf, List.map_cons, if_neg h0]
      simp only [keysOf] at ih
      rw [ih h]
      rfl

theorem keysOf_dinsert_contained {β : Type} (d : Dict β) (k : String) (v : β)
    (h : dcontains d k = true) : keysOf (dinsert d k v) = keysOf d := by
  induction d with
  | nil => simp [dcontains, dlookup] at h
  | cons p rest ih =>
    obtain ⟨k0, v0⟩ := p
    simp only [dcontains, dlookup] at h ih
    by_cases h0 : k0 = k
    · simp [dinsert, keysOf, h0]
    · rw [if_neg h0] at h
      simp only [dinsert, keysOf, List.map_cons, if_neg h0]
      simp only [keysOf] at ih
      rw [ih h]

theorem dcontains_iff_mem_keysOf {β : Type} (d : Dict β) (k : String) :
    dcontains d k = true ↔ k ∈ keysOf d := by
  induction d with
  | nil => simp [dcontains, dlookup, keysOf]
  | cons p rest ih =>
    obtain ⟨k0, v0⟩ := p
    simp only [dcontains, dlookup] at ih ⊢
    by_cases h0 : k0 = k
    · subst h0
      simp [keysOf]
    · rw [if_neg h0]
      simp only [keysOf, List.map_cons, List.mem_cons]
      rw [ih]
      constructor
      · exact fun hk => Or.inr hk
      · rintro (hk | hk)
        · exact absurd hk.symm h0
        · exact hk

theorem keysNodup_dinsert {β : Type} (d : Dict β) (k : String) (v : β)
    (h : KeysNodup d) : KeysNodup (dinsert d k v) := by
  by_cases hc : dcontains d k
  · unfold KeysNodup
    rw [keysOf_dinsert_contained d k v hc]
    exact h
  · unfold KeysNodup
    rw [keysOf_dinsert_not_contained d k v (by simpa using hc)]
    simp only [List.nodup_append, List.nodup_cons]
    refine ⟨h, by simp, ?_⟩
    intro a ha hb
    simp only [List.mem_singleton] at hb
    subst hb
    have : dcontains d a = true := (dcontains_iff_mem_keysOf d a).2 ha
    rw [this] at hc
    exact hc rfl

theorem dlookup_derase_ne {β : Type} (d : Dict β) (k k' : String) (h : k ≠ k') :
    dlookup (derase d k) k' = dlookup d k' := by
  induction d with
  | nil => simp [derase]
  | cons p rest ih =>
    obtain ⟨k0, v0⟩ := p
    by_cases h0 : k0 = k
    · subst h0
      simp [derase, dlookup, h, Ne.symm h]
    · by_cases h1 : k0 = k' <;>
        simp [derase, dlookup, h0, h1, ih, Ne.symm h]

theorem dget_dset_self (d : Domains) (k : String) (v : List String) :
    dget (dset d k v) k = v := by
  simp [dget, dset, dlookup_dinsert_self]

theorem dget_dset_ne (d : Domains) (k k' : String) (v : List String)
    (h : k ≠ k') : dget (dset d k v) k' = dget d k' := by
  simp [dget, dset, dlookup_dinsert_ne d k k' v h]

theorem dcontains_of_dget_ne_nil (d : Domains) (k : String)
    (h : dget d k ≠ []) : dcontains d k = true := by
  unfold dget at h
  unfold dcontains
  cases hl : dlookup d k with
  | none =>
    rw [hl] at h
    simp at h
  | some _ => simp

theorem keysNodup_tail {β : Type} (p : String × β) (rest : Dict β)
    (h : KeysNodup (p :: rest)) : KeysNodup rest := by
  simp only [KeysNodup, keysOf, List.map_cons, List.nodup_cons] at h
  exact h.2

theorem dlookup_dupdate_not_contained {β : Type} (other d : Dict β) (k : String)
    (h : dcontains other k = false) :
    dlookup (other.foldl (fun acc p => dinsert acc p.1 p.2) d) k = dlookup d k := by
  induction other generalizing d with
  | nil => simp
  | cons p rest ih =>
    obtain ⟨k0, v0⟩ := p
    simp only [dcontains, dlookup] at h
    by_cases h0 : k0 = k
    · rw [if_pos h0] at h
      simp at h
    · rw [if_neg h0] at h
      simp only [List.foldl_cons]
      rw [ih (dinsert d k0 v0) (by simpa [dcontains] using h)]
      exact dlookup_dinsert_ne d k0 k v0 h0

theorem dlookup_dupdate_contained {β : Type} (other d : Dict β) (k : String)
    (hnd : KeysNodup other) (h : dcontains other k = true) :
    dlookup (other.foldl (fun acc p => dinsert acc p.1 p.2) d) k = dlookup other k := by
  induction other generalizing d with
  | nil => simp [dcontains, dlookup] at h
  | cons p rest ih =>
    obtain ⟨k0, v0⟩ := p
    simp only [dcontains, dlookup] at h
    by_cases h0 : k0 = k
    · subst h0
      have hrest : dcontains rest k0 = false := by
        simp only [KeysNodup, keysOf, List.map_cons, List.nodup_cons] at hnd
        by_contra hc
        exact hnd.1 ((dcontains_iff_mem_keysOf rest k0).1 (by simpa using hc))
      simp only [List.foldl_cons, dlookup, if_pos rfl]
      rw [dlookup_dupdate_not_contained rest (dinsert d k0 v0) k0 hrest]
      exact dlookup_dinsert_self d k0 v0
    · rw [if_neg h0] at h
      simp only [List.foldl_cons, dlookup, if_neg h0]
      exact ih (dinsert d k0 v0) (keysNodup_tail _ _ hnd) (by simpa [dcontains] using h)

theorem dget_dupdate_not_contained (other d : Domains) (k : String)
    (h : dcontains other k = false) : dget (dupdate d other) k = dget d k := by
  unfold dget dupdate dset
  rw [dlookup_dupdate_not_contained other d k h]

theorem dget_dupdate_contained (other d : Domains) (k : String)
    (hnd : KeysNodup other) (h : dcontains other k = true) :
    dget (dupdate d other) k = dget other k := by
  unfold dget dupdate dset
  rw [dlookup_dupdate_contained other d k hnd h]

/-! ## Adjacency lemmas -/

theorem mem_pushNew (l : List String) (x y : String) :
    y ∈ pushNew l x ↔ y ∈ l ∨ y = x := by
  unfold pushNew
  by_cases h : x ∈ l
  · rw [if_pos h]
    constructor
    · exact fun hy => Or.inl hy
    · rintro (hy | hy)
      · exact hy
      · exact hy ▸ h
  · rw [if_neg h]
    simp

theorem nodup_pushNew (l : List String) (x : String) (h : l.Nodup) :
    (pushNew l x).Nodup := by
  unfold pushNew
  by_cases hx : x ∈ l
  · rwa [if_pos hx]
  · rw [if_neg hx]
    rw [List.nodup_append]
    refine ⟨h, List.nodup_singleton x, ?_⟩
    intro a ha hb
    simp only [List.mem_singleton] at hb
    subst hb
    exact hx ha

theorem length_pushNew_le (l : List String) (x : String) :
    (pushNew l x).length ≤ l.length + 1 := by
  unfold pushNew
  by_cases hx : x ∈ l <;> simp [hx]

/-- One step of the adjacency fold. -/
def adjStep (v : String) (acc : List String) (p : String × String) : List String :=
  if p.1 = v then pushNew acc p.2
  else if p.2 = v then pushNew acc p.1
  else acc

theorem neighborsOf_eq_foldl (csp : CSPModel) (v : String) :
    neighborsOf csp v = csp.constraints.foldl (adjStep v) [] := rfl

theorem mem_adjFold (v : String) (l : List (String × String)) :
    ∀ (acc : List String) (x : String),
      x ∈ l.foldl (adjStep v) acc ↔
        x ∈ acc ∨ ∃ p ∈ l, (p.1 = v ∧ p.2 = x) ∨ (p.2 = v ∧ p.1 = x) := by
  induction l with
  | nil => simp
  | cons q rest ih =>
    intro acc x
    simp only [List.foldl_cons, ih, List.mem_cons]
    unfold adjStep
    by_cases h1 : q.1 = v
    · rw [if_pos h1]
      rw [mem_pushNew]
      constructor
      · rintro ((hx | hx) | hx)
        · exact Or.inl hx
        · exact Or.inr ⟨q, Or.inl rfl, Or.inl ⟨h1, hx.symm⟩⟩
        · exact Or.inr (by
            obtain ⟨p, hp, hc⟩ := hx
            exact ⟨p, Or.inr hp, hc⟩)
      · rintro (hx | ⟨p, (hp | hp), hc⟩)
        · exact Or.inl (Or.inl hx)
        · subst hp
          rcases hc with ⟨_, hc2⟩ | ⟨hc1, hc2⟩
          · exact Or.inl (Or.inr hc2.symm)
          · exact Or.inl (Or.inr (by rw [← hc2, h1, ← hc1]))
        · exact Or.inr ⟨p, hp, hc⟩
    · rw [if_neg h1]
      by_cases h2 : q.2 = v
      · rw [if_pos h2]
        rw [mem_pushNew]
        constructor
        · rintro ((hx | hx) | hx)
          · exact Or.inl hx
          · exact Or.inr ⟨q, Or.inl rfl, Or.inr ⟨h2, hx.symm⟩⟩
          · exact Or.inr (by
              obtain ⟨p, hp, hc⟩ := hx
              exact ⟨p, Or.inr hp, hc⟩)
        · rintro (hx | ⟨p, (hp | hp), hc⟩)
          · exact Or.inl (Or.inl hx)
          · subst hp
            rcases hc with ⟨hc1, _⟩ | ⟨_, hc2⟩
            · exact absurd hc1 h1
            · exact Or.inl (Or.inr hc2.symm)
          · exact Or.inr ⟨p, hp, hc⟩
      · rw [if_neg h2]
        constructor
        · rintro (hx | hx)
          · exact Or.inl hx
          · exact Or.inr (by
              obtain ⟨p, hp, hc⟩ := hx
              exact ⟨p, Or.inr hp, hc⟩)
        · rintro (hx | ⟨p, (hp | hp), hc⟩)
          · exact Or.inl hx
          · subst hp
            rcases hc with ⟨hc1, _⟩ | ⟨hc2, _⟩
            · exact absurd hc1 h1
            · exact absurd hc2 h2
          · exact Or.inr ⟨p, hp, hc⟩

theorem mem_neighborsOf (csp : CSPModel) (v x : String) :
    x ∈ neighborsOf csp v ↔
      ∃ p ∈ csp.constraints, (p.1 = v ∧ p.2 = x) ∨ (p.2 = v ∧ p.1 = x) := by
  rw [neighborsOf_eq_foldl, mem_adjFold]
  simp

theorem neighborsOf_nodup (csp : CSPModel) (v : String) :
    (neighborsOf csp v).Nodup := by
  rw [neighborsOf_eq_foldl]
  have : ∀ (l : List (String × String)) (acc : List String), acc.Nodup →
      (l.foldl (adjStep v) acc).Nodup := by
    intro l
    induction l with
    | nil => exact fun acc h => h
    | cons q rest ih =>
      intro acc h
      simp only [List.foldl_cons]
      apply ih
      unfold adjStep
      by_cases h1 : q.1 = v
      · rw [if_pos h1]
        exact nodup_pushNew _ _ h
      · rw [if_neg h1]
        by_cases h2 : q.2 = v
        · rw [if_pos h2]
          exact nodup_pushNew _ _ h
        · rwa [if_neg h2]
  exact this csp.constraints [] (by simp)

theorem length_neighborsOf_le (csp : CSPModel) (v : String) :
    (neighborsOf csp v).length ≤ csp.constraints.length := by
  rw [neighborsOf_eq_foldl]
  have : ∀ (l : List (String × String)) (acc : List String),
      (l.foldl (adjStep v) acc).length ≤ acc.length + l.length := by
    intro l
    induction l with
    | nil => simp
    | cons q rest ih =>
      intro acc
      simp only [List.foldl_cons, List.length_cons]
      calc (List.foldl (adjStep v) (adjStep v acc q) rest).length
          ≤ (adjStep v acc q).length + rest.length := ih _
        _ ≤ (acc.length + 1) + rest.length := by
            have : (adjStep v acc q).length ≤ acc.length + 1 := by
              unfold adjStep
              by_cases h1 : q.1 = v
              · rw [if_pos h1]
                exact length_pushNew_le _ _
              · rw [if_neg h1]
                by_cases h2 : q.2 = v
                · rw [if_pos h2]
                  exact length_pushNew_le _ _
                · rw [if_neg h2]
                  omega
            omega
        _ = acc.length + (rest.length + 1) := by omega
  simpa using this csp.constraints []

theorem neighborsOf_of_constraint (csp : CSPModel) (p : String × String)
    (h : p ∈ csp.constraints) :
    p.2 ∈ neighborsOf csp p.1 ∧ p.1 ∈ neighborsOf csp p.2 := by
  constructor
  · exact (mem_neighborsOf csp p.1 p.2).2 ⟨p, h, Or.inl ⟨rfl, rfl⟩⟩
  · exact (mem_neighborsOf csp p.2 p.1).2 ⟨p, h, Or.inr ⟨rfl, rfl⟩⟩

/-! ## Model operation characterizations -/

theorem isConsistent_iff (csp : CSPModel) (var val : String) (A : Assignment) :
    isConsistent csp var val A = true ↔
      ∀ nb ∈ neighborsOf csp var, dlookup A nb ≠ some val := by
  simp [isConsistent, List.all_eq_true]

/-! ## AC-3 `revise` (claim C7) -/

theorem foldl_erase_head (ys : List String) (x : String) (l : List String)
    (h : ∀ y ∈ ys, y ≠ x) :
    ys.foldl (fun acc y => acc.erase y) (x :: l) =
      x :: ys.foldl (fun acc y => acc.erase y) l := by
  induction ys generalizing l with
  | nil => simp
  | cons y ys ih =>
    simp only [List.foldl_cons]
    rw [List.erase_cons_tail (by simpa using (h y (by simp)).symm)]
    exact ih (l.erase y) (fun y' hy' => h y' (by simp [hy']))

theorem foldl_erase_filter (l : List String) (p : String → Bool) :
    (l.filter p).foldl (fun acc x => acc.erase x) l =
      l.filter (fun x => !p x) := by
  induction l with
  | nil => rfl
  | cons x xs ih =>
    by_cases hp : p x = true
    · rw [List.filter_cons_of_pos hp]
      simp only [List.foldl_cons, List.erase_cons_head]
      rw [ih, List.filter_cons_of_neg (by simp [hp])]
    · rw [List.filter_cons_of_neg hp,
        foldl_erase_head _ x xs
          (fun y hy => by
            have := (List.mem_filter.1 hy).2
            intro he
            rw [he] at this
            exact hp this),
        ih, List.filter_cons_of_pos (by simp [Bool.not_eq_true] at hp ⊢; exact hp)]

/-- C7: `AC3.revise(Xi, Xj)` (with `Xi ≠ Xj` and `Xj`'s domain non-empty)
removes from `Xi`'s domain exactly the values with no differing value in
`Xj`'s domain — i.e. exactly the values `x` such that `Xj`'s domain consists
only of `x` — keeping the supported values in order; it leaves every other
domain (in particular `Xj`'s) unchanged, and returns `true` iff at least one
value was removed. -/
theorem revise_spec (D : Domains) (xi xj : String) (hne : xi ≠ xj)
    (hj : dget D xj ≠ []) :
    dget (revise D xi xj).2 xi =
      (dget D xi).filter (fun x => (dget D xj).any (fun y => y != x)) ∧
    (∀ x ∈ dget D xi,
      (x ∉ dget (revise D xi xj).2 xi ↔ ∀ y, (y ∈ dget D xj ↔ y = x))) ∧
    dlookup (revise D xi xj).2 xj = dlookup D xj ∧
    (∀ k, k ≠ xi → dlookup (revise D xi xj).2 k = dlookup D k) ∧
    ((revise D xi xj).1 = true ↔ ∃ x ∈ dget D xi, ∀ y ∈ dget D xj, y = x) := by
  have hrem : reviseRemovals D xi xj =
      (dget D xi).filter (fun x => !(dget D xj).any (fun y => y != x)) := rfl
  by_cases hempty : (reviseRemovals D xi xj).isEmpty = true
  · have hrev : revise D xi xj = (false, D) := by
      unfold revise
      rw [if_pos hempty]
    have hnil : reviseRemovals D xi xj = [] := List.isEmpty_iff.1 hempty
    have hall : ∀ x ∈ dget D xi, (dget D xj).any (fun y => y != x) = true := by
      rw [hrem] at hnil
      intro x hx
      have := List.filter_eq_nil_iff.1 hnil x hx
      simpa using this
    rw [hrev]
    refine ⟨(List.filter_eq_self.2 hall).symm, ?_, rfl, fun k _ => rfl, ?_⟩
    · intro x hx
      simp only [hx, not_true, false_iff]
      intro hcontra
      have h1 := hall x hx
      simp only [List.any_eq_true] at h1
      obtain ⟨y, hy, hyx⟩ := h1
      have hyx' : y ≠ x := by simpa using hyx
      exact hyx' ((hcontra y).1 hy)
    · constructor
      · intro hfalse
        simp at hfalse
      · rintro ⟨x, hx, hx2⟩
        have h1 := hall x hx
        simp only [List.any_eq_true] at h1
        obtain ⟨y, hy, hyx⟩ := h1
        have hyx' : y ≠ x := by simpa using hyx
        exact absurd (hx2 y hy) hyx'
  · have hrev : revise D xi xj =
        (true, dset D xi ((reviseRemovals D xi xj).foldl
          (fun l x => l.erase x) (dget D xi))) := by
      unfold revise
      rw [if_neg hempty]
    have hfold : (reviseRemovals D xi xj).foldl
        (fun l x => l.erase x) (dget D xi) =
        (dget D xi).filter (fun x => (dget D xj).any (fun y => y != x)) := by
      rw [hrem, foldl_erase_filter]
      simp
    rw [hrev]
    dsimp only
    refine ⟨?_, ?_, ?_, ?_, ?_⟩
    · rw [dget_dset_self, hfold]
    · intro x hx
      rw [dget_dset_self, hfold]
      constructor
      · intro hnotmem
        have hnall : ¬((dget D xj).any (fun y => y != x)) = true :=
          fun hany => hnotmem (List.mem_filter.2 ⟨hx, hany⟩)
        have hall2 : ∀ y ∈ dget D xj, y = x := by
          intro y hy
          by_contra hyx
          exact hnall (List.any_eq_true.2 ⟨y, hy, by simpa using hyx⟩)
        intro y
        refine ⟨fun hy => hall2 y hy, ?_⟩
        intro hyx
        subst hyx
        obtain ⟨z, hz⟩ := List.exists_mem_of_ne_nil _ hj
        have hzx := hall2 z hz
        rwa [hzx] at hz
      · intro hsingleton hmem
        have hany := (List.mem_filter.1 hmem).2
        simp only [List.any_eq_true] at hany
        obtain ⟨y, hy, hyx⟩ := hany
        have hyx' : y ≠ x := by simpa using hyx
        exact hyx' ((hsingleton y).1 hy)
    · exact dlookup_dinsert_ne D xi xj _ hne
    · intro k hk
      exact dlookup_dinsert_ne D xi k _ (Ne.symm hk)
    · constructor
      · intro _
        have hne' : reviseRemovals D xi xj ≠ [] :=
          fun hn => hempty (by rw [hn]; rfl)
        obtain ⟨x, hx⟩ := List.exists_mem_of_ne_nil _ hne'
        rw [hrem] at hx
        have hmem := (List.mem_filter.1 hx).1
        have hprop := (List.mem_filter.1 hx).2
        refine ⟨x, hmem, fun y hy => ?_⟩
        simp only [Bool.not_eq_true', List.any_eq_false] at hprop
        have := hprop y hy
        simpa using this
      · intro _
        rfl

/-- Witness for C7 at Scenario E: `A ↦ {Red}`, `B ↦ {Red, Green}`,
`revise(B, A)` leaves `B ↦ {Green}` and reports `revised = true`. -/
theorem revise_spec_witness :
    ((("B" : String) ≠ "A") ∧
      dget [("A", ["Red"]), ("B", ["Red", "Green"])] "A" ≠ []) ∧
    dget (revise [("A", ["Red"]), ("B", ["Red", "Green"])] "B" "A").2 "B" =
      ["Green"] ∧
    (revise [("A", ["Red"]), ("B", ["Red", "Green"])] "B" "A").1 = true := by
  have h := revise_spec [("A", ["Red"]), ("B", ["Red", "Green"])] "B" "A"
    (by decide) (by decide)
  refine ⟨⟨by decide, by decide⟩, ?_, ?_⟩
  · rw [h.1]
    decide
  · exact h.2.2.2.2.mpr ⟨"Red", by decide, by decide⟩

/-! ## Forward checking (claim C6) -/

theorem erase_eq_nil_iff (l : List String) (v : String) (hv : v ∈ l) :
    l.erase v = [] ↔ l = [v] := by
  cases l with
  | nil => simp at hv
  | cons x xs =>
    by_cases hx : x = v
    · subst hx
      rw [List.erase_cons_head]
      constructor
      · intro h
        rw [h]
      · intro h
        injection h with _ h2
    · rw [List.erase_cons_tail (by simpa using hx)]
      simp [hx]

theorem fcHits_congr (value : String) (A : Assignment) (D D' : Domains)
    (y : String) (h : dget D' y = dget D y) :
    fcHits value A D' y = fcHits value A D y := by
  simp [fcHits, h]

theorem fcGo_some_spec (value : String) (A : Assignment) :
    ∀ (nbs : List String) (p : Nat) (D : Domains) (k : Nat) (D' : Domains),
      nbs.Nodup → fcGo value A nbs p D = (some k, D') →
      (k = p + nbs.countP (fcHits value A D) ∧
       (∀ y ∈ nbs, fcHits value A D y = true →
         dget D' y = (dget D y).erase value ∧ dget D' y ≠ []) ∧
       (∀ z, ¬(z ∈ nbs ∧ fcHits value A D z = true) →
         dlookup D' z = dlookup D z)) := by
  intro nbs
  induction nbs with
  | nil =>
    intro p D k D' _ heq
    simp only [fcGo] at heq
    injection heq with h1 h2
    injection h1 with h1
    subst h1 h2
    refine ⟨by simp, by simp, fun z _ => rfl⟩
  | cons nb rest ih =>
    intro p D k D' hnd heq
    rw [List.nodup_cons] at hnd
    simp only [fcGo] at heq
    by_cases hhit : fcHits value A D nb = true
    · rw [if_pos hhit] at heq
      by_cases hlen : ((dget D nb).erase value).length = 0
      · rw [if_pos hlen] at heq
        exact absurd heq (by simp)
      · rw [if_neg hlen] at heq
        have hD1get : ∀ y, y ≠ nb →
            dget (dset D nb ((dget D nb).erase value)) y = dget D y :=
          fun y hy => dget_dset_ne D nb y _ (Ne.symm hy)
        have hcount : rest.countP
            (fcHits value A (dset D nb ((dget D nb).erase value))) =
            rest.countP (fcHits value A D) := by
          apply List.countP_congr
          intro x hx
          rw [fcHits_congr value A D _ x (hD1get x (fun he => hnd.1 (he ▸ hx)))]
        obtain ⟨hk, hrem, hframe⟩ := ih (p + 1) _ k D' hnd.2 heq
        refine ⟨?_, ?_, ?_⟩
        · rw [hk, hcount, List.countP_cons_of_pos _ _ hhit]
          omega
        · intro y hy hyhit
          rcases List.mem_cons.1 hy with hynb | hyrest
          · rw [hynb]
            have hfr := hframe nb (fun hc => hnd.1 hc.1)
            have h2 : dget D' nb =
                dget (dset D nb ((dget D nb).erase value)) nb :=
              congrArg (fun o => o.getD []) hfr
            rw [h2, dget_dset_self]
            exact ⟨rfl, fun hc => hlen (by rw [hc]; rfl)⟩
          · have hyne : y ≠ nb := fun he => hnd.1 (he ▸ hyrest)
            have := hrem y hyrest
              (by rw [fcHits_congr value A D _ y (hD1get y hyne)]; exact hyhit)
            rwa [hD1get y hyne] at this
        · intro z hz
          have hzne : z ≠ nb := by
            intro he
            exact hz ⟨he ▸ List.mem_cons_self nb rest, he ▸ hhit⟩
          have hz' : ¬(z ∈ rest ∧
              fcHits value A (dset D nb ((dget D nb).erase value)) z = true) := by
            rintro ⟨hzr, hzh⟩
            rw [fcHits_congr value A D _ z (hD1get z hzne)] at hzh
            exact hz ⟨List.mem_cons_of_mem nb hzr, hzh⟩
          rw [hframe z hz']
          exact dlookup_dinsert_ne D nb z _ (Ne.symm hzne)
    · rw [if_neg hhit] at heq
      obtain ⟨hk, hrem, hframe⟩ := ih p D k D' hnd.2 heq
      refine ⟨?_, ?_, ?_⟩
      · rw [hk, List.countP_cons_of_neg _ _ hhit]
      · intro y hy hyhit
        rcases List.mem_cons.1 hy with hynb | hyrest
        · subst hynb
          exact absurd hyhit hhit
        · exact hrem y hyrest hyhit
      · intro z hz
        refine hframe z ?_
        rintro ⟨hzr, hzh⟩
        exact hz ⟨List.mem_cons_of_mem nb hzr, hzh⟩

theorem fcGo_none_spec (value : String) (A : Assignment) :
    ∀ (nbs : List String) (p : Nat) (D : Domains) (D' : Domains),
      nbs.Nodup → fcGo value A nbs p D = (none, D') →
      ∃ pre y post, nbs = pre ++ y :: post ∧
        dcontains A y = false ∧ dget D y = [value] ∧ dget D' y = [] ∧
        (∀ x ∈ pre, ¬(dcontains A x = false ∧ dget D x = [value])) ∧
        (∀ x ∈ pre, fcHits value A D x = true →
          dget D' x = (dget D x).erase value) ∧
        (∀ x ∈ pre, fcHits value A D x = false →
          dlookup D' x = dlookup D x) ∧
        (∀ z, z ∉ pre → z ≠ y → dlookup D' z = dlookup D z) := by
  intro nbs
  induction nbs with
  | nil =>
    intro p D D' _ heq
    simp [fcGo] at heq
  | cons nb rest ih =>
    intro p D D' hnd heq
    rw [List.nodup_cons] at hnd
    simp only [fcGo] at heq
    by_cases hhit : fcHits value A D nb = true
    · rw [if_pos hhit] at heq
      have hhit' := hhit
      unfold fcHits at hhit'
      rw [Bool.and_eq_true] at hhit'
      have hunas : dcontains A nb = false := by
        have := hhit'.1
        simp at this
        exact this
      have hmem : value ∈ dget D nb := by
        have := hhit'.2
        simpa using this
      by_cases hlen : ((dget D nb).erase value).length = 0
      · rw [if_pos hlen] at heq
        injection heq with h1 h2
        subst h2
        have hsingle : dget D nb = [value] :=
          (erase_eq_nil_iff _ value hmem).1 (List.length_eq_zero.1 hlen)
        refine ⟨[], nb, rest, by simp, hunas, hsingle, ?_, by simp, by simp,
          by simp, ?_⟩
        · rw [dget_dset_self]
          exact List.length_eq_zero.1 hlen
        · intro z _ hzne
          exact dlookup_dinsert_ne D nb z _ (Ne.symm hzne)
      · rw [if_neg hlen] at heq
        have hD1get : ∀ y, y ≠ nb →
            dget (dset D nb ((dget D nb).erase value)) y = dget D y :=
          fun y hy => dget_dset_ne D nb y _ (Ne.symm hy)
        obtain ⟨pre, y, post, hsplit, hyu, hyd, hyD', hfirst, hrem, hkeep, hframe⟩ :=
          ih _ _ D' hnd.2 heq
        have hpre_sub : ∀ x ∈ pre, x ∈ rest := by
          intro x hx
          rw [hsplit]
          exact List.mem_append_left _ hx
        have hy_mem : y ∈ rest := by
          rw [hsplit]
          exact List.mem_append_right _ (List.mem_cons_self y post)
        have hyne : y ≠ nb := fun he => hnd.1 (he ▸ hy_mem)
        refine ⟨nb :: pre, y, post, by rw [hsplit]; rfl, hyu, ?_, hyD', ?_, ?_,
          ?_, ?_⟩
        · rw [← hD1get y hyne]
          exact hyd
        · intro x hx
          rcases List.mem_cons.1 hx with hxnb | hxpre
          · rw [hxnb]
            rintro ⟨_, hxd⟩
            exact hlen (by rw [hxd]; simp)
          · have hxne : x ≠ nb := fun he => hnd.1 (he ▸ hpre_sub x hxpre)
            rw [← hD1get x hxne]
            exact hfirst x hxpre
        · intro x hx hxhit
          rcases List.mem_cons.1 hx with hxnb | hxpre
          · rw [hxnb]
            have hfr := hframe nb (fun hc => hnd.1 (hpre_sub nb hc))
              (Ne.symm hyne)
            have h2 : dget D' nb =
                dget (dset D nb ((dget D nb).erase value)) nb :=
              congrArg (fun o => o.getD []) hfr
            rw [h2, dget_dset_self]
          · have hxne : x ≠ nb := fun he => hnd.1 (he ▸ hpre_sub x hxpre)
            have := hrem x hxpre
              (by rw [fcHits_congr value A D _ x (hD1get x hxne)]; exact hxhit)
            rwa [hD1get x hxne] at this
        · intro x hx hxmiss
          rcases List.mem_cons.1 hx with hxnb | hxpre
          · rw [hxnb] at hxmiss
            exact absurd hhit (by simp [hxmiss])
          · have hxne : x ≠ nb := fun he => hnd.1 (he ▸ hpre_sub x hxpre)
            have := hkeep x hxpre
              (by rw [fcHits_congr value A D _ x (hD1get x hxne)]; exact hxmiss)
            rw [this]
            exact dlookup_dinsert_ne D nb x _ (Ne.symm hxne)
        · intro z hz hzy
          have hznb : z ≠ nb := fun he => hz (he ▸ List.mem_cons_self nb pre)
          have hzpre : z ∉ pre := fun hc => hz (List.mem_cons_of_mem nb hc)
          rw [hframe z hzpre hzy]
          exact dlookup_dinsert_ne D nb z _ (Ne.symm hznb)
    · rw [if_neg hhit] at heq
      obtain ⟨pre, y, post, hsplit, hyu, hyd, hyD', hfirst, hrem, hkeep, hframe⟩ :=
        ih p D D' hnd.2 heq
      have hpre_sub : ∀ x ∈ pre, x ∈ rest := by
        intro x hx
        rw [hsplit]
        exact List.mem_append_left _ hx
      have hy_mem : y ∈ rest := by
        rw [hsplit]
        exact List.mem_append_right _ (List.mem_cons_self y post)
      have hyne : y ≠ nb := fun he => hnd.1 (he ▸ hy_mem)
      refine ⟨nb :: pre, y, post, by rw [hsplit]; rfl, hyu, hyd, hyD', ?_, ?_,
        ?_, ?_⟩
      · intro x hx
        rcases List.mem_cons.1 hx with hxnb | hxpre
        · rw [hxnb]
          rintro ⟨hxu, hxd⟩
          apply hhit
          unfold fcHits
          rw [hxu, hxd]
          simp
        · exact hfirst x hxpre
      · intro x hx hxhit
        rcases List.mem_cons.1 hx with hxnb | hxpre
        · rw [hxnb] at hxhit
          exact absurd hxhit hhit
        · exact hrem x hxpre hxhit
      · intro x hx hxmiss
        rcases List.mem_cons.1 hx with hxnb | hxpre
        · rw [hxnb]
          exact hframe nb (fun hc => hnd.1 (hpre_sub nb hc)) (Ne.symm hyne)
        · exact hkeep x hxpre hxmiss
      · intro z hz hzy
        have hzpre : z ∉ pre := fun hc => hz (List.mem_cons_of_mem nb hc)
        exact hframe z hzpre hzy

theorem fcGo_none_iff (value : String) (A : Assignment) (nbs : List String)
    (p : Nat) (D : Domains) (hnd : nbs.Nodup) :
    (fcGo value A nbs p D).1 = none ↔
      ∃ y ∈ nbs, dcontains A y = false ∧ dget D y = [value] := by
  constructor
  · intro hnone
    cases heq : fcGo value A nbs p D with
    | mk r D' =>
      rw [heq] at hnone
      simp only at hnone
      subst hnone
      obtain ⟨pre, y, post, hsplit, hyu, hyd, _, _, _, _, _⟩ :=
        fcGo_none_spec value A nbs p D D' hnd heq
      refine ⟨y, ?_, hyu, hyd⟩
      rw [hsplit]
      exact List.mem_append_right _ (List.mem_cons_self y post)
  · rintro ⟨y, hy, hyu, hyd⟩
    cases heq : fcGo value A nbs p D with
    | mk r D' =>
      cases r with
      | none => rfl
      | some k =>
        obtain ⟨_, hrem, _⟩ := fcGo_some_spec value A nbs p D k D' hnd heq
        have hhit : fcHits value A D y = true := by
          unfold fcHits
          rw [hyu, hyd]
          simp
        obtain ⟨heq2, hne⟩ := hrem y hy hhit
        rw [hyd] at heq2
        simp at heq2
        exact absurd heq2 hne

/-- C6: `ForwardChecking.infer` removes the just-assigned value from the
domain of each not-yet-assigned neighbor that holds it, processing the
neighbors in neighbor order. On success it returns exactly the number of
removals and leaves all other domains untouched; if a removal empties a
neighbor's domain it fails at the first such neighbor, leaving later
neighbors unprocessed, earlier removals in place, and that neighbor's
domain empty. Failure happens iff some unassigned neighbor's domain is
exactly `{value}`. -/
theorem fcInfer_spec (csp : CSPModel) (X value : String) (A : Assignment)
    (D : Domains) (hX : dcontains A X = true) :
    (∀ k D', fcInfer csp X value A D = (some k, D') →
      k = (neighborsOf csp X).countP (fcHits value A D) ∧
      (∀ y ∈ neighborsOf csp X, fcHits value A D y = true →
        dget D' y = (dget D y).erase value ∧ dget D' y ≠ []) ∧
      (∀ z, ¬(z ∈ neighborsOf csp X ∧ fcHits value A D z = true) →
        dlookup D' z = dlookup D z)) ∧
    (∀ D', fcInfer csp X value A D = (none, D') →
      ∃ pre y post, neighborsOf csp X = pre ++ y :: post ∧
        dcontains A y = false ∧ dget D y = [value] ∧ dget D' y = [] ∧
        (∀ x ∈ pre, ¬(dcontains A x = false ∧ dget D x = [value])) ∧
        (∀ x ∈ pre, fcHits value A D x = true →
          dget D' x = (dget D x).erase value) ∧
        (∀ x ∈ pre, fcHits value A D x = false →
          dlookup D' x = dlookup D x) ∧
        (∀ z, z ∉ pre → z ≠ y → dlookup D' z = dlookup D z)) ∧
    ((fcInfer csp X value A D).1 = none ↔
      ∃ y ∈ neighborsOf csp X, dcontains A y = false ∧ dget D y = [value]) := by
  have hnd := neighborsOf_nodup csp X
  refine ⟨?_, ?_, ?_⟩
  · intro k D' heq
    have h := fcGo_some_spec value A (neighborsOf csp X) 0 D k D' hnd heq
    exact ⟨by simpa using h.1, h.2.1, h.2.2⟩
  · intro D' heq
    exact fcGo_none_spec value A (neighborsOf csp X) 0 D D' hnd heq
  · exact fcGo_none_iff value A (neighborsOf csp X) 0 D hnd

/-- Witness for C6 at Scenario D: with `X` assigned `Red` and neighbor `Y`
having domain exactly `{Red}`, forward checking reports failure and leaves
`Y`'s domain empty. -/
theorem fcInfer_spec_witness :
    dcontains [("X", "Red")] "X" = true ∧
    (fcInfer scenarioD "X" "Red" [("X", "Red")]
        [("X", ["Red"]), ("Y", ["Red"])]).1 = none ∧
    dget (fcInfer scenarioD "X" "Red" [("X", "Red")]
        [("X", ["Red"]), ("Y", ["Red"])]).2 "Y" = [] := by
  have h := fcInfer_spec scenarioD "X" "Red" [("X", "Red")]
    [("X", ["Red"]), ("Y", ["Red"])] (by decide)
  exact ⟨by decide, h.2.2.mpr ⟨"Y", by decide, by decide, by decide⟩, by decide⟩

/-! ## MRV heuristic (claim C9) -/

theorem mrvFold_spec (A : Assignment) (D : Domains) :
    ∀ (l : List String) (acc : Option (String × Nat)),
      (∀ b m0, acc = some (b, m0) → m0 = (dget D b).length) →
      ((l.foldl (mrvStep A D) acc = none →
          acc = none ∧ ∀ v ∈ l, dcontains A v = true) ∧
       (∀ w m, l.foldl (mrvStep A D) acc = some (w, m) →
         m = (dget D w).length ∧
         ((acc = some (w, m) ∧
            ∀ u ∈ l, dcontains A u = false → m ≤ (dget D u).length) ∨
          (∃ pre post, l = pre ++ w :: post ∧ dcontains A w = false ∧
            (∀ u ∈ l, dcontains A u = false → m ≤ (dget D u).length) ∧
            (∀ u ∈ pre, dcontains A u = false → m < (dget D u).length) ∧
            (∀ b m0, acc = some (b, m0) → m < m0))))) := by
  intro l
  induction l with
  | nil =>
    intro acc hacc
    refine ⟨fun h => ⟨h, by simp⟩, fun w m h => ?_⟩
    simp only [List.foldl_nil] at h
    exact ⟨hacc w m h, Or.inl ⟨h, by simp⟩⟩
  | cons v l' ih =>
    intro acc hacc
    simp only [List.foldl_cons]
    by_cases hva : dcontains A v = true
    · have hstep : mrvStep A D acc v = acc := by
        simp [mrvStep, hva]
      rw [hstep]
      obtain ⟨ihn, ihs⟩ := ih acc hacc
      refine ⟨fun h => ⟨(ihn h).1, ?_⟩, fun w m h => ?_⟩
      · intro u hu
        rcases List.mem_cons.1 hu with rfl | hu'
        · exact hva
        · exact (ihn h).2 u hu'
      · obtain ⟨hm, hcase⟩ := ihs w m h
        refine ⟨hm, ?_⟩
        rcases hcase with ⟨ha, hmin⟩ | ⟨pre, post, hsplit, hw, hmin, hstrict, haccs⟩
        · refine Or.inl ⟨ha, fun u hu hu2 => ?_⟩
          rcases List.mem_cons.1 hu with rfl | hu'
          · simp [hva] at hu2
          · exact hmin u hu' hu2
        · refine Or.inr ⟨v :: pre, post, by rw [hsplit]; rfl, hw, ?_, ?_, haccs⟩
          · intro u hu hu2
            rcases List.mem_cons.1 hu with rfl | hu'
            · simp [hva] at hu2
            · exact hmin u hu' hu2
          · intro u hu hu2
            rcases List.mem_cons.1 hu with rfl | hu'
            · simp [hva] at hu2
            · exact hstrict u hu' hu2
    · have hva' : dcontains A v = false := by
        simpa using hva
      cases hacc_case : acc with
      | none =>
        have hstep : mrvStep A D none v = some (v, (dget D v).length) := by
          simp [mrvStep, hva']
        rw [hstep]
        obtain ⟨ihn, ihs⟩ := ih (some (v, (dget D v).length))
          (fun b m0 hh => by
            injection hh with h1
            injection h1 with h2 h3
            rw [← h3, ← h2])
        refine ⟨fun h => absurd (ihn h).1 (by simp), fun w m h => ?_⟩
        obtain ⟨hm, hcase⟩ := ihs w m h
        refine ⟨hm, ?_⟩
        rcases hcase with ⟨ha, hmin⟩ | ⟨pre, post, hsplit, hw, hmin, hstrict, haccs⟩
        · injection ha with h1
          injection h1 with h2 h3
          refine Or.inr ⟨[], l', by rw [h2]; rfl, by rw [← h2]; exact hva', ?_,
            by simp, fun b m0 hh => by simp at hh⟩
          intro u hu hu2
          rcases List.mem_cons.1 hu with rfl | hu'
          · omega
          · exact hmin u hu' hu2
        · refine Or.inr ⟨v :: pre, post, by rw [hsplit]; rfl, hw, ?_, ?_,
            fun b m0 hh => by simp at hh⟩
          · intro u hu hu2
            rcases List.mem_cons.1 hu with rfl | hu'
            · exact le_of_lt (haccs u (dget D u).length rfl)
            · exact hmin u hu' hu2
          · intro u hu hu2
            rcases List.mem_cons.1 hu with rfl | hu'
            · exact haccs u (dget D u).length rfl
            · exact hstrict u hu' hu2
      | some p =>
        obtain ⟨b0, m0⟩ := p
        by_cases hlt : (dget D v).length < m0
        · have hstep : mrvStep A D (some (b0, m0)) v =
              some (v, (dget D v).length) := by
            simp [mrvStep, hva', hlt]
          rw [hstep]
          obtain ⟨ihn, ihs⟩ := ih (some (v, (dget D v).length))
            (fun b m hh => by
              injection hh with h1
              injection h1 with h2 h3
              rw [← h3, ← h2])
          refine ⟨fun h => absurd (ihn h).1 (by simp), fun w m h => ?_⟩
          obtain ⟨hm, hcase⟩ := ihs w m h
          refine ⟨hm, ?_⟩
          rcases hcase with ⟨ha, hmin⟩ | ⟨pre, post, hsplit, hw, hmin, hstrict, haccs⟩
          · injection ha with h1
            injection h1 with h2 h3
            refine Or.inr ⟨[], l', by rw [h2]; rfl, by rw [← h2]; exact hva',
              ?_, by simp, ?_⟩
            · intro u hu hu2
              rcases List.mem_cons.1 hu with rfl | hu'
              · omega
              · exact hmin u hu' hu2
            · intro b m1 hh
              injection hh with h4
              injection h4 with h5 h6
              rw [← h3, ← h6]
              exact hlt
          · refine Or.inr ⟨v :: pre, post, by rw [hsplit]; rfl, hw, ?_, ?_, ?_⟩
            · intro u hu hu2
              rcases List.mem_cons.1 hu with rfl | hu'
              · exact le_of_lt (haccs u (dget D u).length rfl)
              · exact hmin u hu' hu2
            · intro u hu hu2
              rcases List.mem_cons.1 hu with rfl | hu'
              · exact haccs u (dget D u).length rfl
              · exact hstrict u hu' hu2
            · intro b m1 hh
              injection hh with h4
              injection h4 with h5 h6
              rw [← h6]
              exact lt_trans (haccs v (dget D v).length rfl) hlt
        · have hstep : mrvStep A D (some (b0, m0)) v = some (b0, m0) := by
            simp [mrvStep, hva', hlt]
          rw [hstep]
          obtain ⟨ihn, ihs⟩ := ih (some (b0, m0))
            (fun b m hh => hacc b m (by rw [hacc_case]; exact hh))
          refine ⟨fun h => absurd (ihn h).1 (by simp), fun w m h => ?_⟩
          obtain ⟨hm, hcase⟩ := ihs w m h
          refine ⟨hm, ?_⟩
          rcases hcase with ⟨ha, hmin⟩ | ⟨pre, post, hsplit, hw, hmin, hstrict, haccs⟩
          · refine Or.inl ⟨ha, ?_⟩
            injection ha with h1
            injection h1 with h2 h3
            intro u hu hu2
            rcases List.mem_cons.1 hu with rfl | hu'
            · omega
            · exact hmin u hu' hu2
          · refine Or.inr ⟨v :: pre, post, by rw [hsplit]; rfl, hw, ?_, ?_, haccs⟩
            · intro u hu hu2
              rcases List.mem_cons.1 hu with rfl | hu'
              · have := haccs b0 m0 rfl
                omega
              · exact hmin u hu' hu2
            · intro u hu hu2
              rcases List.mem_cons.1 hu with rfl | hu'
              · have := haccs b0 m0 rfl
                omega
              · exact hstrict u hu' hu2

/-- C9: with at least one unassigned variable, `mrv` returns an unassigned
variable whose current domain size is minimal among all unassigned
variables, and every unassigned variable that comes before it in the
model's declaration order has a strictly larger domain (so among the
minimal ones the first declared wins). -/
theorem mrv_spec (csp : CSPModel) (A : Assignment) (D : Domains)
    (hex : ∃ v ∈ csp.vars, dcontains A v = false) :
    ∃ w pre post, mrv csp A D = some w ∧ csp.vars = pre ++ w :: post ∧
      dcontains A w = false ∧
      (∀ u ∈ csp.vars, dcontains A u = false →
        (dget D w).length ≤ (dget D u).length) ∧
      (∀ u ∈ pre, dcontains A u = false →
        (dget D w).length < (dget D u).length) := by
  obtain ⟨hn, hs⟩ := mrvFold_spec A D csp.vars none (fun b m0 h => by simp at h)
  cases hres : csp.vars.foldl (mrvStep A D) none with
  | none =>
    obtain ⟨v, hv, hvu⟩ := hex
    have := (hn hres).2 v hv
    simp [this] at hvu
  | some p =>
    obtain ⟨w, m⟩ := p
    obtain ⟨hm, hcase⟩ := hs w m hres
    rcases hcase with ⟨ha, _⟩ | ⟨pre, post, hsplit, hw, hmin, hstrict, _⟩
    · simp at ha
    · refine ⟨w, pre, post, ?_, hsplit, hw, ?_, ?_⟩
      · unfold mrv
        rw [hres]
        rfl
      · intro u hu hu2
        have := hmin u hu hu2
        rwa [hm] at this
      · intro u hu hu2
        have := hstrict u hu hu2
        rwa [hm] at this

/-- Witness for C9: with `X` assigned, `mrv` picks among `Y` (domain size 1)
and `Z` (domain size 1), returning the first declared, with the minimality
and tie-break facts instantiated. -/
theorem mrv_spec_witness :
    (∃ v ∈ fcFailModel.vars, dcontains [("X", "Red")] v = false) ∧
    (∃ w pre post,
      mrv fcFailModel [("X", "Red")] fcFailModel.domains = some w ∧
      fcFailModel.vars = pre ++ w :: post ∧
      dcontains [("X", "Red")] w = false ∧
      (∀ u ∈ fcFailModel.vars, dcontains [("X", "Red")] u = false →
        (dget fcFailModel.domains w).length ≤ (dget fcFailModel.domains u).length) ∧
      (∀ u ∈ pre, dcontains [("X", "Red")] u = false →
        (dget fcFailModel.domains w).length < (dget fcFailModel.domains u).length)) :=
  ⟨by decide, mrv_spec fcFailModel [("X", "Red")] fcFailModel.domains (by decide)⟩

/-! ## Inference never touches assigned variables (claim C8) -/

theorem revise_frame (D : Domains) (xi xj z : String) (hz : z ≠ xi) :
    dlookup (revise D xi xj).2 z = dlookup D z := by
  unfold revise
  by_cases hempty : (reviseRemovals D xi xj).isEmpty = true
  · rw [if_pos hempty]
  · rw [if_neg hempty]
    exact dlookup_dinsert_ne D xi z _ (Ne.symm hz)

theorem fcGo_assigned_unchanged (value : String) (A : Assignment) :
    ∀ (nbs : List String) (p : Nat) (D : Domains) (z : String),
      dcontains A z = true → dlookup (fcGo value A nbs p D).2 z = dlookup D z := by
  intro nbs
  induction nbs with
  | nil =>
    intro p D z _
    rfl
  | cons nb rest ih =>
    intro p D z hz
    by_cases hhit : fcHits value A D nb = true
    · have hnb : dcontains A nb = false := by
        unfold fcHits at hhit
        rw [Bool.and_eq_true] at hhit
        simpa using hhit.1
      have hne : z ≠ nb := by
        intro he
        rw [he, hnb] at hz
        cases hz
      by_cases hlen : ((dget D nb).erase value).length = 0
      · simp only [fcGo, if_pos hhit, if_pos hlen]
        exact dlookup_dinsert_ne D nb z _ (Ne.symm hne)
      · simp only [fcGo, if_pos hhit, if_neg hlen]
        rw [ih (p + 1) _ z hz]
        exact dlookup_dinsert_ne D nb z _ (Ne.symm hne)
    · simp only [fcGo, if_neg hhit]
      exact ih p D z hz

theorem ac3FcGo_assigned_unchanged (value : String) (A : Assignment) :
    ∀ (nbs : List String) (D : Domains) (z : String),
      dcontains A z = true →
      dlookup (ac3FcGo value A nbs D).2 z = dlookup D z := by
  intro nbs
  induction nbs with
  | nil =>
    intro D z _
    rfl
  | cons nb rest ih =>
    intro D z hz
    by_cases hhit : fcHits value A D nb = true
    · have hnb : dcontains A nb = false := by
        unfold fcHits at hhit
        rw [Bool.and_eq_true] at hhit
        simpa using hhit.1
      have hne : z ≠ nb := by
        intro he
        rw [he, hnb] at hz
        cases hz
      by_cases hlen : ((dget D nb).erase value).length = 0
      · simp only [ac3FcGo, if_pos hhit, if_pos hlen]
        exact dlookup_dinsert_ne D nb z _ (Ne.symm hne)
      · simp only [ac3FcGo, if_pos hhit, if_neg hlen]
        rw [ih _ z hz]
        exact dlookup_dinsert_ne D nb z _ (Ne.symm hne)
    · simp only [ac3FcGo, if_neg hhit]
      exact ih D z hz

theorem enforceF_assigned_unchanged (csp : CSPModel) (A : Assignment)
    (hA : ¬A.isEmpty = true) :
    ∀ (fuel : Nat) (q : List (String × String)) (D : Domains)
      (b : Bool) (D' : Domains) (z : String), dcontains A z = true →
      enforceF csp A fuel q D = some (b, D') → dlookup D' z = dlookup D z := by
  intro fuel
  induction fuel with
  | zero =>
    intro q D b D' z _ heq
    simp [enforceF] at heq
  | succ fuel ih =>
    intro q D b D' z hz heq
    cases q with
    | nil =>
      simp only [enforceF] at heq
      injection heq with h1
      injection h1 with _ h2
      rw [← h2]
    | cons arc rest =>
      obtain ⟨xi, xj⟩ := arc
      simp only [enforceF] at heq
      by_cases hskip : (!A.isEmpty && dcontains A xi) = true
      · rw [if_pos hskip] at heq
        exact ih rest D b D' z hz heq
      · rw [if_neg hskip] at heq
        have hxi : dcontains A xi = false := by
          rw [Bool.and_eq_true] at hskip
          rcases Bool.eq_false_or_eq_true (dcontains A xi) with h | h
          · exact absurd ⟨by simpa using hA, h⟩ hskip
          · exact h
        have hzxi : z ≠ xi := by
          intro he
          rw [he, hxi] at hz
          cases hz
        cases hrev : revise D xi xj with
        | mk revised D1 =>
          have hD1 : dlookup D1 z = dlookup D z := by
            have h2 : (revise D xi xj).2 = D1 := by
              rw [hrev]
            rw [← h2]
            exact revise_frame D xi xj z hzxi
          rw [hrev] at heq
          cases revised with
          | false =>
            dsimp only at heq
            rw [ih rest D1 b D' z hz heq]
            exact hD1
          | true =>
            dsimp only at heq
            by_cases hlen : (dget D1 xi).length = 0
            · rw [if_pos hlen] at heq
              injection heq with h1
              injection h1 with _ h2
              rw [← h2]
              exact hD1
            · rw [if_neg hlen] at heq
              rw [ih _ D1 b D' z hz heq]
              exact hD1

theorem enforce_assigned_unchanged (csp : CSPModel) (D : Domains)
    (A : Assignment) (z : String) (hA : ¬A.isEmpty = true)
    (hz : dcontains A z = true) :
    dlookup (enforce csp D A).2 z = dlookup D z := by
  unfold enforce
  cases heq : enforceF csp A (enforceFuel csp (getAllArcs csp) D)
      (getAllArcs csp) D with
  | none => rfl
  | some r =>
    obtain ⟨b, D'⟩ := r
    exact enforceF_assigned_unchanged csp A hA _ _ D b D' z hz heq

/-- C8: with a non-empty assignment containing the just-assigned variable,
both inference entry points (`ForwardChecking.infer` and `AC3.infer`)
leave the domain of every assigned variable — in particular the
just-assigned one — unchanged, whether they succeed or fail. -/
theorem infer_assigned_unchanged (csp : CSPModel) (v val : String)
    (A : Assignment) (D : Domains) (hA : A ≠ []) (hv : dcontains A v = true) :
    ∀ z, dcontains A z = true →
      dlookup (fcInfer csp v val A D).2 z = dlookup D z ∧
      dlookup (ac3Infer csp v val A D).2 z = dlookup D z := by
  intro z hz
  have hAe : ¬A.isEmpty = true := by
    intro h
    exact hA (List.isEmpty_iff.1 h)
  constructor
  · exact fcGo_assigned_unchanged val A (neighborsOf csp v) 0 D z hz
  · unfold ac3Infer
    cases hfc : ac3FcGo val A (neighborsOf csp v) D with
    | mk ok D1 =>
      have hD1 : dlookup D1 z = dlookup D z := by
        have h2 : (ac3FcGo val A (neighborsOf csp v) D).2 = D1 := by
          rw [hfc]
        rw [← h2]
        exact ac3FcGo_assigned_unchanged val A (neighborsOf csp v) D z hz
      cases ok with
      | false => exact hD1
      | true =>
        dsimp only
        cases henf : enforce csp D1 A with
        | mk ok2 D2 =>
          have hD2 : dlookup D2 z = dlookup D1 z := by
            have h2 : (enforce csp D1 A).2 = D2 := by
              rw [henf]
            rw [← h2]
            exact enforce_assigned_unchanged csp D1 A z hAe hz
          cases ok2 with
          | false =>
            dsimp only
            rw [hD2]
            exact hD1
          | true =>
            dsimp only
            rw [hD2]
            exact hD1

/-- Witness for C8: with `X` assigned `Red`, neither forward checking nor
AC-3 inference changes `X`'s domain, even though both fail (wipeout). -/
theorem infer_assigned_unchanged_witness :
    (([("X", "Red")] : Assignment) ≠ [] ∧
      dcontains [("X", "Red")] "X" = true) ∧
    dlookup (fcInfer scenarioD "X" "Red" [("X", "Red")]
        [("X", ["Red"]), ("Y", ["Red"])]).2 "X" =
      dlookup [("X", ["Red"]), ("Y", ["Red"])] "X" ∧
    dlookup (ac3Infer scenarioD "X" "Red" [("X", "Red")]
        [("X", ["Red"]), ("Y", ["Red"])]).2 "X" =
      dlookup [("X", ["Red"]), ("Y", ["Red"])] "X" := by
  have h := infer_assigned_unchanged scenarioD "X" "Red" [("X", "Red")]
    [("X", ["Red"]), ("Y", ["Red"])] (by decide) (by decide) "X" (by decide)
  exact ⟨⟨by decide, by decide⟩, h.1, h.2⟩

/-! ## Variable selection returns a fresh variable -/

theorem foldl_pick_origin (P : String → Prop)
    (step : Option (String × Nat) → String → Option (String × Nat))
    (hstep : ∀ acc v, step acc v = acc ∨ (P v ∧ ∃ m, step acc v = some (v, m))) :
    ∀ (l : List String) (acc : Option (String × Nat)) (b : String) (m : Nat),
      l.foldl step acc = some (b, m) →
      acc = some (b, m) ∨ (b ∈ l ∧ P b) := by
  intro l
  induction l with
  | nil =>
    intro acc b m h
    exact Or.inl h
  | cons v l' ih =>
    intro acc b m h
    simp only [List.foldl_cons] at h
    rcases hstep acc v with hid | ⟨hP, m0, hnew⟩
    · rw [hid] at h
      rcases ih acc b m h with h1 | ⟨h1, h2⟩
      · exact Or.inl h1
      · exact Or.inr ⟨List.mem_cons_of_mem v h1, h2⟩
    · rw [hnew] at h
      rcases ih (some (v, m0)) b m h with h1 | ⟨h1, h2⟩
      · injection h1 with h1
        injection h1 with h2 h3
        exact Or.inr ⟨h2 ▸ List.mem_cons_self v l', h2 ▸ hP⟩
      · exact Or.inr ⟨List.mem_cons_of_mem v h1, h2⟩

theorem foldl_pick_ne_none {β : Type} (Q : String → Prop)
    (step : Option β → String → Option β)
    (hkeep : ∀ acc v, acc ≠ none → step acc v ≠ none)
    (hnew : ∀ v, Q v → step none v ≠ none) :
    ∀ (l : List String) (acc : Option β),
      ((∃ v ∈ l, Q v) ∨ acc ≠ none) → l.foldl step acc ≠ none := by
  intro l
  induction l with
  | nil =>
    rintro acc (⟨v, hv, _⟩ | hacc)
    · simp at hv
    · exact hacc
  | cons v l' ih =>
    rintro acc (⟨v0, hv0, hq⟩ | hacc)
    · rcases List.mem_cons.1 hv0 with rfl | hv0'
      · cases hacc_case : acc with
        | none => exact ih (step none v0) (Or.inr (hnew v0 hq))
        | some b =>
          refine ih (step (some b) v0) (Or.inr (hkeep (some b) v0 ?_))
          simp
      · exact ih (step acc v) (Or.inl ⟨v0, hv0', hq⟩)
    · exact ih (step acc v) (Or.inr (hkeep acc v hacc))

theorem mrvStep_cases (A : Assignment) (D : Domains) :
    ∀ acc v, mrvStep A D acc v = acc ∨
      (dcontains A v = false ∧ ∃ m, mrvStep A D acc v = some (v, m)) := by
  intro acc v
  by_cases hva : dcontains A v = true
  · exact Or.inl (by simp [mrvStep, hva])
  · have hva' : dcontains A v = false := by simpa using hva
    cases acc with
    | none =>
      exact Or.inr ⟨hva', (dget D v).length, by simp [mrvStep, hva']⟩
    | some p =>
      obtain ⟨b, m⟩ := p
      by_cases hlt : (dget D v).length < m
      · exact Or.inr ⟨hva', (dget D v).length, by simp [mrvStep, hva', hlt]⟩
      · exact Or.inl (by simp [mrvStep, hva', hlt])

theorem mrv_some_fresh (csp : CSPModel) (A : Assignment) (D : Domains)
    (w : String) (h : mrv csp A D = some w) :
    w ∈ csp.vars ∧ dcontains A w = false := by
  unfold mrv at h
  cases hres : csp.vars.foldl (mrvStep A D) none with
  | none =>
    rw [hres] at h
    simp at h
  | some p =>
    obtain ⟨b, m⟩ := p
    rw [hres] at h
    have hw : b = w := by
      simpa using h
    subst hw
    rcases foldl_pick_origin (fun v => dcontains A v = false) (mrvStep A D)
        (mrvStep_cases A D) csp.vars none b m hres with h1 | ⟨h1, h2⟩
    · simp at h1
    · exact ⟨h1, h2⟩

theorem degreeStep_cases (csp : CSPModel) (A : Assignment) :
    ∀ acc v, degreeStep csp A acc v = acc ∨
      (dcontains A v = false ∧ ∃ m, degreeStep csp A acc v = some (v, m)) := by
  intro acc v
  by_cases hva : dcontains A v = true
  · exact Or.inl (by simp [degreeStep, hva])
  · have hva' : dcontains A v = false := by simpa using hva
    cases acc with
    | none =>
      exact Or.inr ⟨hva', unassignedDegree csp A v, by simp [degreeStep, hva']⟩
    | some p =>
      obtain ⟨b, m⟩ := p
      by_cases hlt : m < unassignedDegree csp A v
      · exact Or.inr ⟨hva', unassignedDegree csp A v,
          by simp [degreeStep, hva', hlt]⟩
      · exact Or.inl (by simp [degreeStep, hva', hlt])

theorem tieStep_cases (csp : CSPModel) (A : Assignment) :
    ∀ acc v, tieStep csp A acc v = acc ∨
      (True ∧ ∃ m, tieStep csp A acc v = some (v, m)) := by
  intro acc v
  cases acc with
  | none => exact Or.inr ⟨trivial, unassignedDegree csp A v, rfl⟩
  | some p =>
    obtain ⟨b, m⟩ := p
    by_cases hlt : m < unassignedDegree csp A v
    · exact Or.inr ⟨trivial, unassignedDegree csp A v, by simp [tieStep, hlt]⟩
    · exact Or.inl (by simp [tieStep, hlt])

theorem degreeHeuristic_some_fresh (csp : CSPModel) (A : Assignment)
    (D : Domains) (w : String) (h : degreeHeuristic csp A D = some w) :
    w ∈ csp.vars ∧ dcontains A w = false := by
  unfold degreeHeuristic at h
  cases hres : csp.vars.foldl (degreeStep csp A) none with
  | none =>
    rw [hres] at h
    simp at h
  | some p =>
    obtain ⟨b, m⟩ := p
    rw [hres] at h
    have hw : b = w := by
      simpa using h
    subst hw
    rcases foldl_pick_origin (fun v => dcontains A v = false)
        (degreeStep csp A) (degreeStep_cases csp A)
        csp.vars none b m hres with h1 | ⟨h1, h2⟩
    · simp at h1
    · exact ⟨h1, h2⟩

theorem mrvCandidates_spec (csp : CSPModel) (A : Assignment) (D : Domains) :
    ∀ (l : List String) (m : Nat) (cands : List String),
      l.foldl (candStep A D) none = some (m, cands) →
      cands ≠ [] ∧ ∀ c ∈ cands, c ∈ l ∧ dcontains A c = false := by
  intro l
  have main : ∀ (l' : List String) (acc : Option (Nat × List String)),
      (∀ m0 c0, acc = some (m0, c0) →
        c0 ≠ [] ∧ ∀ c ∈ c0, dcontains A c = false) →
      ∀ m cands,
        l'.foldl (candStep A D) acc = some (m, cands) →
        cands ≠ [] ∧ ∀ c ∈ cands,
          dcontains A c = false ∧
          (c ∈ l' ∨ ∃ m0 c0, acc = some (m0, c0) ∧ c ∈ c0) := by
    intro l'
    induction l' with
    | nil =>
      intro acc hacc m cands h
      simp only [List.foldl_nil] at h
      obtain ⟨h1, h2⟩ := hacc m cands h
      exact ⟨h1, fun c hc => ⟨h2 c hc, Or.inr ⟨m, cands, h, hc⟩⟩⟩
    | cons v l'' ih =>
      intro acc hacc m cands h
      simp only [List.foldl_cons, candStep] at h
      by_cases hva : dcontains A v = true
      · rw [if_pos hva] at h
        obtain ⟨h1, h2⟩ := ih acc hacc m cands h
        refine ⟨h1, fun c hc => ⟨(h2 c hc).1, ?_⟩⟩
        rcases (h2 c hc).2 with hm | hm
        · exact Or.inl (List.mem_cons_of_mem v hm)
        · exact Or.inr hm
      · have hva' : dcontains A v = false := by simpa using hva
        rw [if_neg hva] at h
        cases hacc_case : acc with
        | none =>
          rw [hacc_case] at h
          obtain ⟨h1, h2⟩ := ih (some ((dget D v).length, [v]))
            (by
              rintro m0 c0 hc
              injection hc with hc
              injection hc with hc1 hc2
              subst hc2
              exact ⟨by simp, by
                intro c hcmem
                simp only [List.mem_singleton] at hcmem
                subst hcmem
                exact hva'⟩)
            m cands h
          refine ⟨h1, fun c hc => ⟨(h2 c hc).1, ?_⟩⟩
          rcases (h2 c hc).2 with hm | ⟨m0, c0, he, hcm⟩
          · exact Or.inl (List.mem_cons_of_mem v hm)
          · injection he with he
            injection he with he1 he2
            subst he2
            simp only [List.mem_singleton] at hcm
            exact Or.inl (by rw [hcm]; exact List.mem_cons_self v l'')
        | some p =>
          obtain ⟨m1, c1⟩ := p
          rw [hacc_case] at h
          dsimp only at h
          obtain ⟨hc1ne, hc1f⟩ := hacc m1 c1 hacc_case
          by_cases hlt : (dget D v).length < m1
          · rw [if_pos hlt] at h
            obtain ⟨h1, h2⟩ := ih (some ((dget D v).length, [v]))
              (by
                rintro m0 c0 hc
                injection hc with hc
                injection hc with hc1 hc2
                subst hc2
                exact ⟨by simp, by
                  intro c hcmem
                  simp only [List.mem_singleton] at hcmem
                  subst hcmem
                  exact hva'⟩)
              m cands h
            refine ⟨h1, fun c hc => ⟨(h2 c hc).1, ?_⟩⟩
            rcases (h2 c hc).2 with hm | ⟨m0, c0, he, hcm⟩
            · exact Or.inl (List.mem_cons_of_mem v hm)
            · injection he with he
              injection he with he1 he2
              subst he2
              simp only [List.mem_singleton] at hcm
              exact Or.inl (by rw [hcm]; exact List.mem_cons_self v l'')
          · rw [if_neg hlt] at h
            by_cases heq : (dget D v).length = m1
            · rw [if_pos heq] at h
              obtain ⟨h1, h2⟩ := ih (some (m1, c1 ++ [v]))
                (by
                  rintro m0 c0 hc
                  injection hc with hc
                  injection hc with hc1 hc2
                  subst hc2
                  refine ⟨by simp, ?_⟩
                  intro c hcmem
                  rcases List.mem_append.1 hcmem with hcm | hcm
                  · exact hc1f c hcm
                  · simp only [List.mem_singleton] at hcm
                    subst hcm
                    exact hva')
                m cands h
              refine ⟨h1, fun c hc => ⟨(h2 c hc).1, ?_⟩⟩
              rcases (h2 c hc).2 with hm | ⟨m0, c0, he, hcm⟩
              · exact Or.inl (List.mem_cons_of_mem v hm)
              · injection he with he
                injection he with he1 he2
                subst he2
                rcases List.mem_append.1 hcm with hcm2 | hcm2
                · exact Or.inr ⟨m1, c1, rfl, hcm2⟩
                · simp only [List.mem_singleton] at hcm2
                  exact Or.inl (by rw [hcm2]; exact List.mem_cons_self v l'')
            · rw [if_neg heq] at h
              obtain ⟨h1, h2⟩ := ih (some (m1, c1)) (by
                  rintro m0 c0 hc
                  injection hc with hc
                  injection hc with hc1 hc2
                  subst hc2
                  exact ⟨hc1ne, hc1f⟩)
                m cands h
              refine ⟨h1, fun c hc => ⟨(h2 c hc).1, ?_⟩⟩
              rcases (h2 c hc).2 with hm | ⟨m0, c0, he, hcm⟩
              · exact Or.inl (List.mem_cons_of_mem v hm)
              · injection he with he
                injection he with he1 he2
                subst he2
                exact Or.inr ⟨m1, c1, rfl, hcm⟩
  intro m cands h
  obtain ⟨h1, h2⟩ := main l none (by rintro m0 c0 hc; cases hc) m cands h
  refine ⟨h1, fun c hc => ⟨?_, (h2 c hc).1⟩⟩
  rcases (h2 c hc).2 with hm | ⟨m0, c0, he, _⟩
  · exact hm
  · cases he

theorem mrvWithDegreeTiebreaker_some_fresh (csp : CSPModel) (A : Assignment)
    (D : Domains) (w : String) (h : mrvWithDegreeTiebreaker csp A D = some w) :
    w ∈ csp.vars ∧ dcontains A w = false := by
  unfold mrvWithDegreeTiebreaker at h
  cases hcand : mrvCandidates csp A D with
  | none =>
    rw [hcand] at h
    cases h
  | some p =>
    obtain ⟨m, cands⟩ := p
    rw [hcand] at h
    dsimp only at h
    have hspec := mrvCandidates_spec csp A D csp.vars m cands hcand
    by_cases hlen : cands.length = 1
    · rw [if_pos hlen] at h
      have hw : w ∈ cands := by
        cases cands with
        | nil => cases h
        | cons c cs =>
          injection h with h
          rw [← h]
          exact List.mem_cons_self c cs
      exact ⟨(hspec.2 w hw).1, (hspec.2 w hw).2⟩
    · rw [if_neg hlen] at h
      cases hres : cands.foldl (tieStep csp A) none with
      | none =>
        rw [hres] at h
        cases h
      | some q =>
        obtain ⟨b, m2⟩ := q
        rw [hres] at h
        have hw : b = w := by
          simpa using h
        subst hw
        rcases foldl_pick_origin (fun _ => True) (tieStep csp A)
            (tieStep_cases csp A) cands none b m2 hres with h1 | ⟨h1, _⟩
        · cases h1
        · exact ⟨(hspec.2 b h1).1, (hspec.2 b h1).2⟩

/-- Any built-in selection strategy, when it returns a variable, returns a
declared, not-yet-assigned one. -/
theorem selectVariable_some_fresh (cfg : SolverConfig) (csp : CSPModel)
    (A : Assignment) (D : Domains) (var : String)
    (h : selectVariable cfg csp A D = some var) :
    var ∈ csp.vars ∧ dcontains A var = false := by
  unfold selectVariable at h
  cases hsel : cfg.select with
  | declarationOrder =>
    rw [hsel] at h
    refine ⟨List.mem_of_find?_eq_some h, ?_⟩
    have := List.find?_some h
    simpa using this
  | mrv =>
    rw [hsel] at h
    exact mrv_some_fresh csp A D var h
  | degree =>
    rw [hsel] at h
    exact degreeHeuristic_some_fresh csp A D var h
  | mrvDegree =>
    rw [hsel] at h
    exact mrvWithDegreeTiebreaker_some_fresh csp A D var h

/-- Any built-in selection strategy finds a variable when one is free. -/
theorem selectVariable_isSome (cfg : SolverConfig) (csp : CSPModel)
    (A : Assignment) (D : Domains)
    (hex : ∃ v ∈ csp.vars, dcontains A v = false) :
    selectVariable cfg csp A D ≠ none := by
  unfold selectVariable
  cases cfg.select with
  | declarationOrder =>
    rw [← Option.isSome_iff_ne_none, List.find?_isSome]
    obtain ⟨v, hv, hu⟩ := hex
    exact ⟨v, hv, by simp [hu]⟩
  | mrv =>
    unfold mrv
    intro hmap
    rw [Option.map_eq_none'] at hmap
    exact foldl_pick_ne_none (fun v => dcontains A v = false) (mrvStep A D)
      (by
        intro acc v hacc
        rcases mrvStep_cases A D acc v with he | ⟨_, m, he⟩
        · rw [he]
          exact hacc
        · rw [he]
          simp)
      (by
        intro v hq
        simp [mrvStep, hq])
      csp.vars none (Or.inl hex) hmap
  | degree =>
    unfold degreeHeuristic
    intro hmap
    rw [Option.map_eq_none'] at hmap
    refine foldl_pick_ne_none (fun v => dcontains A v = false)
      (degreeStep csp A) ?_ ?_ csp.vars none (Or.inl hex) hmap
    · intro acc v hacc
      rcases degreeStep_cases csp A acc v with he | ⟨_, m, he⟩
      · rw [he]
        exact hacc
      · rw [he]
        simp
    · intro v hq
      simp [degreeStep, hq]
  | mrvDegree =>
    unfold mrvWithDegreeTiebreaker
    cases hcand : mrvCandidates csp A D with
    | none =>
      exfalso
      refine foldl_pick_ne_none (fun v => dcontains A v = false)
        (candStep A D) ?_ ?_ csp.vars none (Or.inl hex) hcand
      · intro acc v hacc
        by_cases hva : dcontains A v = true
        · simpa [candStep, hva] using hacc
        · cases acc with
          | none => simp [candStep, hva]
          | some q =>
            obtain ⟨m1, c1⟩ := q
            by_cases hlt : (dget D v).length < m1
            · simp [candStep, hva, hlt]
            · by_cases heq2 : (dget D v).length = m1 <;>
                simp [candStep, hva, hlt, heq2]
      · intro v hq
        simp [candStep, hq]
    | some p =>
      obtain ⟨m, cands⟩ := p
      dsimp only
      have hspec := mrvCandidates_spec csp A D csp.vars m cands hcand
      by_cases hlen : cands.length = 1
      · rw [if_pos hlen]
        cases cands with
        | nil => simp at hlen
        | cons c cs => simp
      · rw [if_neg hlen]
        intro hmap
        rw [Option.map_eq_none'] at hmap
        obtain ⟨c0, hc0⟩ := List.exists_mem_of_ne_nil _ hspec.1
        refine foldl_pick_ne_none (fun _ => True) (tieStep csp A) ?_ ?_ cands
          none (Or.inl ⟨c0, hc0, trivial⟩) hmap
        · intro acc v hacc
          rcases tieStep_cases csp A acc v with he | ⟨_, m2, he⟩
          · rw [he]
            exact hacc
          · rw [he]
            simp
        · intro v _
          simp [tieStep]

/-! ## Recursion depth is bounded by the number of variables (claim C10) -/

theorem length_filter_lt (l : List String) (q q' : String → Bool) (a : String)
    (ha : a ∈ l) (himp : ∀ x, q' x = true → q x = true)
    (hqa : q a = true) (hq'a : q' a = false) :
    (l.filter q').length < (l.filter q).length := by
  induction l with
  | nil => simp at ha
  | cons x xs ih =>
    by_cases hxa : x = a
    · subst hxa
      rw [List.filter_cons_of_pos hqa, List.filter_cons_of_neg (by simp [hq'a])]
      have : (xs.filter q').length ≤ (xs.filter q).length := by
        rw [← List.countP_eq_length_filter, ← List.countP_eq_length_filter]
        exact List.countP_mono_left (fun x _ hx => himp x hx)
      simp only [List.length_cons]
      omega
    · have ha' : a ∈ xs := by
        rcases List.mem_cons.1 ha with h1 | h1
        · exact absurd h1.symm hxa
        · exact h1
      have hlt := ih ha'
      by_cases hqx : q' x = true
      · rw [List.filter_cons_of_pos (himp x hqx), List.filter_cons_of_pos hqx]
        simpa using hlt
      · rw [List.filter_cons_of_neg hqx]
        by_cases hq2 : q x = true
        · rw [List.filter_cons_of_pos hq2]
          simp only [List.length_cons]
          omega
        · rw [List.filter_cons_of_neg hq2]
          exact hlt

theorem unassignedCount_insert_lt (csp : CSPModel) (A : Assignment)
    (var val : String) (hv : var ∈ csp.vars) (hu : dcontains A var = false) :
    unassignedCount csp (dinsert A var val) < unassignedCount csp A := by
  unfold unassignedCount
  refine length_filter_lt csp.vars _ _ var hv ?_ (by simp [hu]) ?_
  · intro x hx
    simp only [Bool.not_eq_true'] at hx ⊢
    rw [dcontains_dinsert] at hx
    rcases Bool.or_eq_false_iff.1 hx with ⟨_, h2⟩
    exact h2
  · simp only [Bool.not_eq_false']
    rw [dcontains_dinsert]
    simp

theorem tryValuesGo_isSome (cfg : SolverConfig) (csp : CSPModel) (fuel : Nat)
    (hbt : ∀ A D st, unassignedCount csp A < fuel →
      (backtrackF cfg csp fuel A D st).isSome = true) :
    ∀ (values : List String) (var : String) (A : Assignment) (D : Domains)
      (st : SolverStats),
      var ∈ csp.vars → dcontains A var = false →
      unassignedCount csp A ≤ fuel →
      (tryValuesGo csp cfg.infer (backtrackF cfg csp fuel) var values A D
        st).isSome = true := by
  intro values
  induction values with
  | nil =>
    intro var A D st _ _ _
    simp [tryValuesGo]
  | cons val rest ih =>
    intro var A D st hv hu hcount
    simp only [tryValuesGo]
    by_cases hcons : isConsistent csp var val A = true
    · rw [if_pos hcons]
      cases happ : applyInference cfg.infer csp var val (dinsert A var val) D st with
    | mk inferenceOk rest2 =>
      obtain ⟨D1, st1⟩ := rest2
      cases inferenceOk with
      | true =>
        dsimp only
        have hlt : unassignedCount csp (dinsert A var val) < fuel :=
          lt_of_lt_of_le (unassignedCount_insert_lt csp A var val hv hu) hcount
        have hsome := hbt (dinsert A var val) D1 st1 hlt
        cases hbtres : backtrackF cfg csp fuel (dinsert A var val) D1 st1 with
        | none =>
          rw [hbtres] at hsome
          cases hsome
        | some r =>
          obtain ⟨ores, D2, st2⟩ := r
          cases ores with
          | some sol => simp
          | none =>
            dsimp only
            rw [derase_dinsert A var val hu]
            exact ih var A _ _ hv hu hcount
      | false =>
        dsimp only
        rw [derase_dinsert A var val hu]
        exact ih var A _ _ hv hu hcount
    · rw [if_neg hcons]
      exact ih var A D st hv hu hcount

theorem backtrackF_fuel_sufficient (cfg : SolverConfig) (csp : CSPModel) :
    ∀ (fuel : Nat) (A : Assignment) (D : Domains) (st : SolverStats),
      unassignedCount csp A < fuel →
      (backtrackF cfg csp fuel A D st).isSome = true := by
  intro fuel
  induction fuel with
  | zero =>
    intro A D st h
    omega
  | succ fuel ih =>
    intro A D st h
    simp only [backtrackF]
    by_cases hb : st.nodesExplored ≥ cfg.maxNodes
    · rw [if_pos hb]
      simp
    · rw [if_neg hb]
      by_cases hc : isComplete csp A = true
      · rw [if_pos hc]
        simp
      · rw [if_neg hc]
        cases hsel : selectVariable cfg csp A D with
        | none => simp
        | some var =>
          dsimp only
          obtain ⟨hv, hu⟩ := selectVariable_some_fresh cfg csp A D var hsel
          exact tryValuesGo_isSome cfg csp fuel (fun A' D' st' h' => ih A' D' st' h')
            _ var A D _ hv hu (by omega)

/-- The fuel-indexed run with provably sufficient fuel equals `backtrackRun`. -/
theorem backtrackRun_eq (cfg : SolverConfig) (csp : CSPModel) (A : Assignment)
    (D : Domains) (st : SolverStats) :
    backtrackF cfg csp (unassignedCount csp A + 1) A D st =
      some (backtrackRun cfg csp A D st) := by
  have h := backtrackF_fuel_sufficient cfg csp (unassignedCount csp A + 1) A D st
    (by omega)
  cases heq : backtrackF cfg csp (unassignedCount csp A + 1) A D st with
  | none =>
    rw [heq] at h
    cases h
  | some r =>
    unfold backtrackRun
    rw [heq]
    rfl

/-- C10: the search always terminates, with recursion depth bounded by the
number of unassigned variables plus one: running `_backtrack` with that
much call-stack fuel never exhausts it (every recursive call strictly
grows the assignment, since each built-in selection strategy returns a
not-yet-assigned variable), for every built-in configuration and any
starting state. -/
theorem backtrack_terminates (cfg : SolverConfig) (csp : CSPModel)
    (A : Assignment) (D : Domains) (st : SolverStats) :
    ∃ r, backtrackF cfg csp (unassignedCount csp A + 1) A D st = some r := by
  have h := backtrackF_fuel_sufficient cfg csp (unassignedCount csp A + 1) A D st
    (by omega)
  cases heq : backtrackF cfg csp (unassignedCount csp A + 1) A D st with
  | none =>
    rw [heq] at h
    cases h
  | some r => exact ⟨r, rfl⟩

/-! ## Non-mutation of the model (claim C4) -/

/-- C4: `solve` never writes to the model: it takes a private deep copy of
the domains at entry (`copy_domains`, whose value equals the original) and
threads only that copy through the search, so the model's domains observed
after any `solve` call are its original `domains` field, whether a solution
was found or not. -/
theorem solve_preserves_model (cfg : SolverConfig) (csp : CSPModel)
    (prev : SolverStats) :
    (solve cfg csp prev).modelDomains = csp.domains ∧
    copyDomains csp = csp.domains := by
  constructor
  · unfold solve
    cases backtrackRun cfg csp [] (copyDomains csp) {} with
    | mk r rest => rfl
  · unfold copyDomains
    exact List.map_id csp.domains

/-! ## Domain-size accounting (for the pruned-value counter) -/

theorem totalSize_dset_le (D : Domains) (k : String) (v : List String)
    (h : v.length ≤ (dget D k).length) :
    totalSize (dset D k v) ≤ totalSize D := by
  induction D with
  | nil =>
    simp [dget, dlookup] at h
    simp [dset, dinsert, totalSize, h]
  | cons p rest ih =>
    obtain ⟨k0, d0⟩ := p
    by_cases h0 : k0 = k
    · subst h0
      simp [dget, dlookup] at h
      simp [dset, dinsert, totalSize]
      omega
    · simp [dget, dlookup, h0] at h
      have := ih (by simpa [dget] using h)
      simp [dset, dinsert, totalSize, h0] at this ⊢
      omega

theorem totalSize_dset_lt (D : Domains) (k : String) (v : List String)
    (hk : dcontains D k = true) (h : v.length < (dget D k).length) :
    totalSize (dset D k v) < totalSize D := by
  induction D with
  | nil => simp [dcontains, dlookup] at hk
  | cons p rest ih =>
    obtain ⟨k0, d0⟩ := p
    by_cases h0 : k0 = k
    · subst h0
      simp [dget, dlookup] at h
      simp [dset, dinsert, totalSize]
      omega
    · simp [dcontains, dlookup, h0] at hk
      simp [dget, dlookup, h0] at h
      have := ih (by simpa [dcontains] using hk) (by simpa [dget] using h)
      simp [dset, dinsert, totalSize, h0] at this ⊢
      omega

theorem foldl_erase_length_le (ys l : List String) :
    (ys.foldl (fun acc x => acc.erase x) l).length ≤ l.length := by
  induction ys generalizing l with
  | nil => simp
  | cons y ys ih =>
    simp only [List.foldl_cons]
    exact le_trans (ih (l.erase y)) (List.length_erase_le y l)

theorem revise_size_le (D : Domains) (xi xj : String) :
    totalSize (revise D xi xj).2 ≤ totalSize D := by
  unfold revise
  by_cases hempty : (reviseRemovals D xi xj).isEmpty = true
  · rw [if_pos hempty]
  · rw [if_neg hempty]
    exact totalSize_dset_le D xi _ (foldl_erase_length_le _ _)

theorem revise_size_lt (D : Domains) (xi xj : String) (D' : Domains)
    (h : revise D xi xj = (true, D')) : totalSize D' < totalSize D := by
  unfold revise at h
  by_cases hempty : (reviseRemovals D xi xj).isEmpty = true
  · rw [if_pos hempty] at h
    cases h
  · rw [if_neg hempty] at h
    injection h with _ h2
    subst h2
    have hne : reviseRemovals D xi xj ≠ [] := by
      intro hn
      rw [hn] at hempty
      exact hempty rfl
    have hrem : reviseRemovals D xi xj =
        (dget D xi).filter (fun x => !(dget D xj).any (fun y => y != x)) := rfl
    have hfold : (reviseRemovals D xi xj).foldl (fun l x => l.erase x)
        (dget D xi) =
        (dget D xi).filter (fun x => (dget D xj).any (fun y => y != x)) := by
      rw [hrem, foldl_erase_filter]
      simp
    obtain ⟨x, hx⟩ := List.exists_mem_of_ne_nil _ hne
    rw [hrem] at hx
    have hxmem := (List.mem_filter.1 hx).1
    have hxprop := (List.mem_filter.1 hx).2
    have hxi : dcontains D xi = true := by
      refine dcontains_of_dget_ne_nil D xi ?_
      intro hnil
      rw [hnil] at hxmem
      cases hxmem
    refine totalSize_dset_lt D xi _ hxi ?_
    rw [hfold]
    have hlen : ((dget D xi).filter
          (fun x => (dget D xj).any (fun y => y != x))).length <
        ((dget D xi).filter (fun _ => true)).length := by
      refine length_filter_lt (dget D xi) (fun _ => true) _ x hxmem
        (fun _ _ => rfl) rfl ?_
      simpa using hxprop
    have hall : (dget D xi).filter (fun _ => true) = dget D xi :=
      List.filter_eq_self.2 (fun a _ => rfl)
    rw [hall] at hlen
    exact hlen

theorem ac3FcGo_size_le (value : String) (A : Assignment) :
    ∀ (nbs : List String) (D : Domains),
      totalSize (ac3FcGo value A nbs D).2 ≤ totalSize D := by
  intro nbs
  induction nbs with
  | nil =>
    intro D
    exact le_refl _
  | cons nb rest ih =>
    intro D
    by_cases hhit : fcHits value A D nb = true
    · by_cases hlen : ((dget D nb).erase value).length = 0
      · simp only [ac3FcGo, if_pos hhit, if_pos hlen]
        exact totalSize_dset_le D nb _ (List.length_erase_le value _)
      · simp only [ac3FcGo, if_pos hhit, if_neg hlen]
        exact le_trans (ih _)
          (totalSize_dset_le D nb _ (List.length_erase_le value _))
    · simp only [ac3FcGo, if_neg hhit]
      exact ih D

theorem enforceF_size_le (csp : CSPModel) (A : Assignment) :
    ∀ (fuel : Nat) (q : List (String × String)) (D : Domains)
      (b : Bool) (D' : Domains),
      enforceF csp A fuel q D = some (b, D') → totalSize D' ≤ totalSize D := by
  intro fuel
  induction fuel with
  | zero =>
    intro q D b D' heq
    simp [enforceF] at heq
  | succ fuel ih =>
    intro q D b D' heq
    cases q with
    | nil =>
      simp only [enforceF] at heq
      injection heq with h1
      injection h1 with _ h2
      rw [← h2]
    | cons arc rest =>
      obtain ⟨xi, xj⟩ := arc
      simp only [enforceF] at heq
      by_cases hskip : (!A.isEmpty && dcontains A xi) = true
      · rw [if_pos hskip] at heq
        exact ih rest D b D' heq
      · rw [if_neg hskip] at heq
        cases hrev : revise D xi xj with
        | mk revised D1 =>
          have hle : totalSize D1 ≤ totalSize D := by
            have h2 : (revise D xi xj).2 = D1 := by
              rw [hrev]
            rw [← h2]
            exact revise_size_le D xi xj
          rw [hrev] at heq
          cases revised with
          | false =>
            dsimp only at heq
            exact le_trans (ih rest D1 b D' heq) hle
          | true =>
            dsimp only at heq
            by_cases hlen : (dget D1 xi).length = 0
            · rw [if_pos hlen] at heq
              injection heq with h1
              injection h1 with _ h2
              rw [← h2]
              exact hle
            · rw [if_neg hlen] at heq
              exact le_trans (ih _ D1 b D' heq) hle

theorem enforce_size_le (csp : CSPModel) (D : Domains) (A : Assignment) :
    totalSize (enforce csp D A).2 ≤ totalSize D := by
  unfold enforce
  cases heq : enforceF csp A (enforceFuel csp (getAllArcs csp) D)
      (getAllArcs csp) D with
  | none => exact le_refl _
  | some r =>
    obtain ⟨b, D'⟩ := r
    exact enforceF_size_le csp A _ _ D b D' heq

theorem ac3Infer_pruned_nonneg (csp : CSPModel) (v val : String)
    (A : Assignment) (D : Domains) (k : Int) (D' : Domains)
    (h : ac3Infer csp v val A D = (some k, D')) : 0 ≤ k := by
  unfold ac3Infer at h
  cases hfc : ac3FcGo val A (neighborsOf csp v) D with
  | mk ok D1 =>
    rw [hfc] at h
    cases ok with
    | false =>
      dsimp only at h
      cases h
    | true =>
      dsimp only at h
      have h1 : totalSize D1 ≤ totalSize D := by
        have h2 : (ac3FcGo val A (neighborsOf csp v) D).2 = D1 := by
          rw [hfc]
        rw [← h2]
        exact ac3FcGo_size_le val A (neighborsOf csp v) D
      cases henf : enforce csp D1 A with
      | mk ok2 D2 =>
        rw [henf] at h
        cases ok2 with
        | false =>
          dsimp only at h
          cases h
        | true =>
          dsimp only at h
          injection h with h3 _
          injection h3 with h3
          have h4 : totalSize D2 ≤ totalSize D1 := by
            have h5 : (enforce csp D1 A).2 = D2 := by
              rw [henf]
            rw [← h5]
            exact enforce_size_le csp D1 A
          rw [← h3]
          omega

/-! ## Statistics bookkeeping of the inference block -/

theorem applyInference_stats (strat : InferenceStrategy) (csp : CSPModel)
    (v val : String) (A : Assignment) (D : Domains) (st : SolverStats) :
    (applyInference strat csp v val A D st).2.2.nodesExplored =
      st.nodesExplored ∧
    (applyInference strat csp v val A D st).2.2.backtracks = st.backtracks ∧
    st.inferenceCalls ≤ (applyInference strat csp v val A D st).2.2.inferenceCalls ∧
    st.prunedValues ≤ (applyInference strat csp v val A D st).2.2.prunedValues := by
  cases strat with
  | noInference => exact ⟨rfl, rfl, le_refl _, le_refl _⟩
  | forwardChecking =>
    unfold applyInference
    cases hfc : fcInfer csp v val A D with
    | mk res D1 =>
      cases res with
      | none => exact ⟨rfl, rfl, by simp, le_refl _⟩
      | some k =>
        refine ⟨rfl, rfl, by simp, ?_⟩
        have : (0 : Int) ≤ (k : Int) := Int.ofNat_nonneg k
        simp only
        omega
  | ac3 =>
    unfold applyInference
    cases hac : ac3Infer csp v val A D with
    | mk res D1 =>
      cases res with
      | none => exact ⟨rfl, rfl, by simp, le_refl _⟩
      | some k =>
        refine ⟨rfl, rfl, by simp, ?_⟩
        have := ac3Infer_pruned_nonneg csp v val A D k D1 hac
        simp only
        omega

/-! ## Statistics invariants of the search (claims C5 and C2) -/

theorem tryValuesGo_stats_inv (cfg : SolverConfig) (csp : CSPModel)
    (bt : Assignment → Domains → SolverStats →
      Option (Option Assignment × Domains × SolverStats)) (var : String)
    (hbt : ∀ A D st r D2 st2, bt A D st = some (r, D2, st2) →
      st.nodesExplored ≤ st2.nodesExplored ∧
      st.backtracks ≤ st2.backtracks ∧
      st.inferenceCalls ≤ st2.inferenceCalls ∧
      st.prunedValues ≤ st2.prunedValues ∧
      (st.nodesExplored ≤ cfg.maxNodes → st2.nodesExplored ≤ cfg.maxNodes) ∧
      (∀ sol, r = some sol → st2.nodesExplored < cfg.maxNodes)) :
    ∀ (values : List String) (A : Assignment) (D : Domains) (st : SolverStats)
      (r : Option Assignment) (D2 : Domains) (st2 : SolverStats),
      tryValuesGo csp cfg.infer bt var values A D st = some (r, D2, st2) →
      st.nodesExplored ≤ st2.nodesExplored ∧
      st.backtracks ≤ st2.backtracks ∧
      st.inferenceCalls ≤ st2.inferenceCalls ∧
      st.prunedValues ≤ st2.prunedValues ∧
      (st.nodesExplored ≤ cfg.maxNodes → st2.nodesExplored ≤ cfg.maxNodes) ∧
      (∀ sol, r = some sol → st2.nodesExplored < cfg.maxNodes) := by
  intro values
  induction values with
  | nil =>
    intro A D st r D2 st2 heq
    simp only [tryValuesGo] at heq
    injection heq with h1
    injection h1 with hr h2
    injection h2 with hD hst
    rw [← hst]
    refine ⟨le_refl _, le_refl _, le_refl _, le_refl _, fun h => h, ?_⟩
    intro sol hsol
    rw [← hr] at hsol
    cases hsol
  | cons val rest ih =>
    intro A D st r D2 st2 heq
    simp only [tryValuesGo] at heq
    by_cases hcons : isConsistent csp var val A = true
    · rw [if_pos hcons] at heq
      cases happ : applyInference cfg.infer csp var val (dinsert A var val) D st with
      | mk ok rest2 =>
        obtain ⟨D1, st1⟩ := rest2
        rw [happ] at heq
        have hstats := applyInference_stats cfg.infer csp var val
          (dinsert A var val) D st
        rw [happ] at hstats
        dsimp only at hstats
        obtain ⟨hn, hb, hic, hpv⟩ := hstats
        cases ok with
        | true =>
          dsimp only at heq
          cases hbtres : bt (dinsert A var val) D1 st1 with
          | none =>
            rw [hbtres] at heq
            cases heq
          | some rr =>
            obtain ⟨ores, D3, st3⟩ := rr
            rw [hbtres] at heq
            obtain ⟨hn2, hb2, hic2, hpv2, hm2, hs2⟩ := hbt _ _ _ _ _ _ hbtres
            cases ores with
            | some sol =>
              dsimp only at heq
              injection heq with h1
              injection h1 with hr h2
              injection h2 with hD hst
              rw [← hst]
              refine ⟨by omega, by omega, by omega, by omega, ?_, ?_⟩
              · intro _
                have := hs2 sol rfl
                omega
              · intro sol2 _
                exact hs2 sol rfl
            | none =>
              dsimp only at heq
              obtain ⟨hn3, hb3, hic3, hpv3, hm3, hs3⟩ := ih _ _ _ _ _ _ heq
              dsimp only at hn3 hb3 hic3 hpv3 hm3
              refine ⟨by omega, by omega, by omega, by omega, ?_, hs3⟩
              intro h
              refine hm3 ?_
              have := hm2 (by omega)
              omega
        | false =>
          dsimp only at heq
          obtain ⟨hn3, hb3, hic3, hpv3, hm3, hs3⟩ := ih _ _ _ _ _ _ heq
          dsimp only at hn3 hb3 hic3 hpv3 hm3
          refine ⟨by omega, by omega, by omega, by omega, ?_, hs3⟩
          intro h
          refine hm3 ?_
          omega
    · rw [if_neg hcons] at heq
      exact ih _ _ _ _ _ _ heq

theorem backtrackF_stats_inv (cfg : SolverConfig) (csp : CSPModel) :
    ∀ (fuel : Nat) (A : Assignment) (D : Domains) (st : SolverStats)
      (r : Option Assignment) (D2 : Domains) (st2 : SolverStats),
      backtrackF cfg csp fuel A D st = some (r, D2, st2) →
      st.nodesExplored ≤ st2.nodesExplored ∧
      st.backtracks ≤ st2.backtracks ∧
      st.inferenceCalls ≤ st2.inferenceCalls ∧
      st.prunedValues ≤ st2.prunedValues ∧
      (st.nodesExplored ≤ cfg.maxNodes → st2.nodesExplored ≤ cfg.maxNodes) ∧
      (∀ sol, r = some sol → st2.nodesExplored < cfg.maxNodes) := by
  intro fuel
  induction fuel with
  | zero =>
    intro A D st r D2 st2 heq
    simp [backtrackF] at heq
  | succ fuel ih =>
    intro A D st r D2 st2 heq
    simp only [backtrackF] at heq
    by_cases hbud : st.nodesExplored ≥ cfg.maxNodes
    · rw [if_pos hbud] at heq
      injection heq with h1
      injection h1 with hr h2
      injection h2 with hD hst
      rw [← hst]
      refine ⟨le_refl _, le_refl _, le_refl _, le_refl _, fun h => h, ?_⟩
      intro sol hsol
      rw [← hr] at hsol
      cases hsol
    · rw [if_neg hbud] at heq
      by_cases hcomp : isComplete csp A = true
      · rw [if_pos hcomp] at heq
        injection heq with h1
        injection h1 with hr h2
        injection h2 with hD hst
        rw [← hst]
        refine ⟨le_refl _, le_refl _, le_refl _, le_refl _, fun h => h, ?_⟩
        intro sol _
        omega
      · rw [if_neg hcomp] at heq
        cases hsel : selectVariable cfg csp A D with
        | none =>
          rw [hsel] at heq
          dsimp only at heq
          injection heq with h1
          injection h1 with hr h2
          injection h2 with hD hst
          rw [← hst]
          refine ⟨by dsimp only; omega, by dsimp only; omega,
            by dsimp only; omega, by dsimp only; omega, ?_, ?_⟩
          · intro h
            dsimp only
            omega
          · intro sol hsol
            rw [← hr] at hsol
            cases hsol
        | some var =>
          rw [hsel] at heq
          dsimp only at heq
          obtain ⟨hn, hb, hic, hpv, hm, hs⟩ :=
            tryValuesGo_stats_inv cfg csp (backtrackF cfg csp fuel) var
              (fun A' D' st' r' D2' st2' h' => ih A' D' st' r' D2' st2' h')
              _ _ _ _ _ _ _ heq
          dsimp only at hn hb hic hpv hm
          refine ⟨by omega, by omega, by omega, by omega, ?_, hs⟩
          intro h
          refine hm ?_
          omega

/-- Destructure a `solve` call into its underlying `_backtrack` run. -/
theorem solve_destruct (cfg : SolverConfig) (csp : CSPModel)
    (prev : SolverStats) :
    ∃ Dout st1,
      backtrackF cfg csp (unassignedCount csp [] + 1) [] (copyDomains csp) {} =
        some ((solve cfg csp prev).result, Dout, st1) ∧
      (solve cfg csp prev).stats =
        { st1 with solutionFound := (solve cfg csp prev).result.isSome } := by
  cases hrun : backtrackRun cfg csp [] (copyDomains csp) {} with
  | mk r rest =>
    obtain ⟨Dout, st1⟩ := rest
    have hsolve : solve cfg csp prev =
        { result := r,
          stats := { nodesExplored := st1.nodesExplored,
                     backtracks := st1.backtracks,
                     inferenceCalls := st1.inferenceCalls,
                     prunedValues := st1.prunedValues,
                     solutionFound := r.isSome },
          modelDomains := csp.domains, finalDomains := Dout } := by
      unfold solve
      simp only [hrun]
    refine ⟨Dout, st1, ?_, ?_⟩
    · rw [hsolve]
      rw [backtrackRun_eq, hrun]
    · rw [hsolve]

/-- C5: with a non-negative node budget, the nodes-explored counter never
exceeds `max_nodes` after any `solve` call; if `solve` returns an
assignment the counter stayed strictly below the budget, so a counter that
reached the budget means the call returned "no solution" (even when a
satisfying assignment exists — the search is cut off, as the budget
counterexamples show). -/
theorem solve_node_budget (cfg : SolverConfig) (csp : CSPModel)
    (prev : SolverStats) (hmax : 0 ≤ cfg.maxNodes) :
    (solve cfg csp prev).stats.nodesExplored ≤ cfg.maxNodes ∧
    (∀ A, (solve cfg csp prev).result = some A →
      (solve cfg csp prev).stats.nodesExplored < cfg.maxNodes) ∧
    ((solve cfg csp prev).stats.nodesExplored = cfg.maxNodes →
      (solve cfg csp prev).result = none) := by
  obtain ⟨Dout, st1, hbt, hstats⟩ := solve_destruct cfg csp prev
  obtain ⟨hn, hb, hic, hpv, hm, hs⟩ :=
    backtrackF_stats_inv cfg csp _ _ _ _ _ _ _ hbt
  have hnodes : (solve cfg csp prev).stats.nodesExplored =
      st1.nodesExplored := by
    rw [hstats]
  rw [hnodes]
  have hmax0 : ({} : SolverStats).nodesExplored ≤ cfg.maxNodes := hmax
  refine ⟨hm hmax0, fun A hA => hs A hA, ?_⟩
  intro heqm
  cases hres : (solve cfg csp prev).result with
  | none => rfl
  | some A =>
    have := hs A hres
    omega

/-- Witness for C5: with a budget of one node, `solve` on a model with two
free variables explores exactly one node and reports "no solution" even
though the model is satisfiable. -/
theorem solve_node_budget_witness :
    (0 : Int) ≤ (1 : Int) ∧
    (solve { maxNodes := 1 } budgetModel {}).stats.nodesExplored ≤ 1 ∧
    (solve { maxNodes := 1 } budgetModel {}).result = none := by
  have h := solve_node_budget { maxNodes := 1 } budgetModel {} (by decide)
  exact ⟨by decide, h.1, h.2.2 (by decide)⟩

theorem tryValuesGo_backtracks_bound (cfg : SolverConfig) (csp : CSPModel)
    (hinf : cfg.infer = InferenceStrategy.noInference) (fuel : Nat)
    (hbt : ∀ A D st r D2 st2,
      backtrackF cfg csp fuel A D st = some (r, D2, st2) →
      st2.nodesExplored < cfg.maxNodes →
      (r = none → st2.backtracks - st.backtracks + 1 ≤
        st2.nodesExplored - st.nodesExplored) ∧
      (∀ sol, r = some sol → st2.backtracks - st.backtracks ≤
        st2.nodesExplored - st.nodesExplored)) (var : String) :
    ∀ (values : List String) (A : Assignment) (D : Domains) (st : SolverStats)
      (r : Option Assignment) (D2 : Domains) (st2 : SolverStats),
      tryValuesGo csp cfg.infer (backtrackF cfg csp fuel) var values A D st =
        some (r, D2, st2) →
      st2.nodesExplored < cfg.maxNodes →
      st2.backtracks - st.backtracks ≤
        st2.nodesExplored - st.nodesExplored := by
  intro values
  induction values with
  | nil =>
    intro A D st r D2 st2 heq hmax
    simp only [tryValuesGo] at heq
    injection heq with h1
    injection h1 with hr h2
    injection h2 with hD hst
    rw [← hst]
    omega
  | cons val rest ih =>
    intro A D st r D2 st2 heq hmax
    simp only [tryValuesGo] at heq
    by_cases hcons : isConsistent csp var val A = true
    · rw [if_pos hcons] at heq
      cases happ : applyInference cfg.infer csp var val (dinsert A var val) D st with
      | mk ok rest2 =>
        obtain ⟨D1, st1⟩ := rest2
        rw [happ] at heq
        rw [hinf] at happ
        dsimp only [applyInference] at happ
        injection happ with hok h2'
        injection h2' with hD1 hst1
        subst hok
        subst hD1
        subst hst1
        dsimp only at heq
        cases hbtres : backtrackF cfg csp fuel (dinsert A var val) D st with
        | none =>
          rw [hbtres] at heq
          cases heq
        | some rr =>
          obtain ⟨ores, D3, st3⟩ := rr
          rw [hbtres] at heq
          cases ores with
          | some sol =>
            dsimp only at heq
            injection heq with h1
            injection h1 with hr h2'
            injection h2' with hD hst
            rw [← hst]
            rw [← hst] at hmax
            exact (hbt _ _ _ _ _ _ hbtres hmax).2 sol rfl
          | none =>
            dsimp only at heq
            have hmono := tryValuesGo_stats_inv cfg csp (backtrackF cfg csp fuel)
              var
              (fun A' D' st' r' D2' st2' h' =>
                backtrackF_stats_inv cfg csp fuel A' D' st' r' D2' st2' h')
              _ _ _ _ _ _ _ heq
            have hn3le : st3.nodesExplored ≤ st2.nodesExplored := by
              have h := hmono.1
              dsimp only at h
              exact h
            have hchild := (hbt _ _ _ _ _ _ hbtres (by omega)).1 rfl
            have hrest := ih _ _ _ _ _ _ heq hmax
            dsimp only at hrest
            omega
    · rw [if_neg hcons] at heq
      exact ih _ _ _ _ _ _ heq hmax

theorem backtrackF_backtracks_bound (cfg : SolverConfig) (csp : CSPModel)
    (hinf : cfg.infer = InferenceStrategy.noInference) :
    ∀ (fuel : Nat) (A : Assignment) (D : Domains) (st : SolverStats)
      (r : Option Assignment) (D2 : Domains) (st2 : SolverStats),
      backtrackF cfg csp fuel A D st = some (r, D2, st2) →
      st2.nodesExplored < cfg.maxNodes →
      (r = none → st2.backtracks - st.backtracks + 1 ≤
        st2.nodesExplored - st.nodesExplored) ∧
      (∀ sol, r = some sol → st2.backtracks - st.backtracks ≤
        st2.nodesExplored - st.nodesExplored) := by
  intro fuel
  induction fuel with
  | zero =>
    intro A D st r D2 st2 heq
    simp [backtrackF] at heq
  | succ fuel ih =>
    intro A D st r D2 st2 heq hmax
    simp only [backtrackF] at heq
    by_cases hbud : st.nodesExplored ≥ cfg.maxNodes
    · rw [if_pos hbud] at heq
      injection heq with h1
      injection h1 with hr h2
      injection h2 with hD hst
      rw [← hst] at hmax
      exact absurd hmax (not_lt.mpr hbud)
    · rw [if_neg hbud] at heq
      by_cases hcomp : isComplete csp A = true
      · rw [if_pos hcomp] at heq
        injection heq with h1
        injection h1 with hr h2
        injection h2 with hD hst
        refine ⟨?_, ?_⟩
        · intro hrn
          rw [← hr] at hrn
          cases hrn
        · intro sol _
          rw [← hst]
          omega
      · rw [if_neg hcomp] at heq
        cases hsel : selectVariable cfg csp A D with
        | none =>
          rw [hsel] at heq
          dsimp only at heq
          injection heq with h1
          injection h1 with hr h2
          injection h2 with hD hst
          refine ⟨?_, ?_⟩
          · intro _
            rw [← hst]
            dsimp only
            omega
          · intro sol hsol
            rw [← hr] at hsol
            cases hsol
        | some var =>
          rw [hsel] at heq
          dsimp only at heq
          have hloop := tryValuesGo_backtracks_bound cfg csp hinf fuel ih var
            _ _ _ _ _ _ _ heq hmax
          dsimp only at hloop
          exact ⟨fun _ => by omega, fun sol _ => by omega⟩

/-- C2 counterexample: two `solve` calls whose final statistics violate
`backtracks ≤ nodesExplored`. With `max_nodes = 1` on a two-variable
model, the budget check fires inside child calls that were already
counted as backtrack sources (1 node, 2 backtracks); with forward
checking on a model where every inference call fails, values are consumed
by backtracks without exploring child nodes (1 node, 2 backtracks). -/
theorem solve_stats_sane_counterexample :
    ¬ ((solve { maxNodes := 1 } budgetModel {}).stats.backtracks ≤
        (solve { maxNodes := 1 } budgetModel {}).stats.nodesExplored) ∧
    ¬ ((solve { infer := InferenceStrategy.forwardChecking }
          fcFailModel {}).stats.backtracks ≤
        (solve { infer := InferenceStrategy.forwardChecking }
          fcFailModel {}).stats.nodesExplored) := by
  constructor <;> decide

/-- C2 (amended): after any `solve` call the statistics are independent of
the solver's previous stats (counters are reset before any search work),
`prunedValues ≥ 0` and `inferenceCalls ≥ 0` always hold, and
`backtracks ≤ nodesExplored` holds provided no inference strategy is
configured and the node budget was not reached. (Without those provisos
the bound is false — see the counterexample.) -/
theorem solve_stats_sane (cfg : SolverConfig) (csp : CSPModel)
    (prev1 prev2 : SolverStats) :
    solve cfg csp prev1 = solve cfg csp prev2 ∧
    0 ≤ (solve cfg csp prev1).stats.prunedValues ∧
    0 ≤ (solve cfg csp prev1).stats.inferenceCalls ∧
    (cfg.infer = InferenceStrategy.noInference →
      (solve cfg csp prev1).stats.nodesExplored < cfg.maxNodes →
      (solve cfg csp prev1).stats.backtracks ≤
        (solve cfg csp prev1).stats.nodesExplored) := by
  obtain ⟨Dout, st1, hbt, hstats⟩ := solve_destruct cfg csp prev1
  obtain ⟨hn, hb, hic, hpv, hm, hs⟩ :=
    backtrackF_stats_inv cfg csp _ _ _ _ _ _ _ hbt
  have hzn : ({} : SolverStats).nodesExplored = 0 := rfl
  have hzb : ({} : SolverStats).backtracks = 0 := rfl
  have hzic : ({} : SolverStats).inferenceCalls = 0 := rfl
  have hzpv : ({} : SolverStats).prunedValues = 0 := rfl
  refine ⟨rfl, ?_, ?_, ?_⟩
  · rw [hstats]
    dsimp only
    omega
  · rw [hstats]
    dsimp only
    omega
  · intro hinf hlt
    rw [hstats] at hlt ⊢
    dsimp only at hlt ⊢
    cases hres : (solve cfg csp prev1).result with
    | none =>
      rw [hres] at hbt
      have h := (backtrackF_backtracks_bound cfg csp hinf _ _ _ _ _ _ _
        hbt hlt).1 rfl
      omega
    | some A =>
      rw [hres] at hbt
      have h := (backtrackF_backtracks_bound cfg csp hinf _ _ _ _ _ _ _
        hbt hlt).2 A rfl
      omega

/-- Witness for the amended C2: solving a 3-colorable triangle with the
default configuration (no inference, default budget) satisfies all four
amended conjuncts at concrete inputs. -/
theorem solve_stats_sane_witness :
    ({} : SolverConfig).infer = InferenceStrategy.noInference ∧
    (solve {} (triangle ["Red", "Green", "Blue"]) {}).stats.nodesExplored <
      ({} : SolverConfig).maxNodes ∧
    (solve {} (triangle ["Red", "Green", "Blue"]) {} =
      solve {} (triangle ["Red", "Green", "Blue"])
        { nodesExplored := 7 } ∧
     0 ≤ (solve {} (triangle ["Red", "Green", "Blue"]) {}).stats.prunedValues ∧
     0 ≤ (solve {} (triangle ["Red", "Green", "Blue"]) {}).stats.inferenceCalls ∧
     (solve {} (triangle ["Red", "Green", "Blue"]) {}).stats.backtracks ≤
       (solve {} (triangle ["Red", "Green", "Blue"]) {}).stats.nodesExplored) := by
  have h := solve_stats_sane {} (triangle ["Red", "Green", "Blue"]) {}
    { nodesExplored := 7 }
  refine ⟨rfl, by decide, h.1, h.2.1, h.2.2.1, h.2.2.2 rfl (by decide)⟩

/-! ## Soundness of the search (claim C1) -/

theorem pairwiseConsistent_dinsert (csp : CSPModel) (A : Assignment)
    (var val : String)
    (hself : ∀ p ∈ csp.constraints, p.1 ≠ p.2)
    (hpc : PairwiseConsistent csp A)
    (hc : isConsistent csp var val A = true) :
    PairwiseConsistent csp (dinsert A var val) := by
  intro p hp x y hx hy
  have hne := hself p hp
  by_cases h1 : p.1 = var
  · by_cases h2 : p.2 = var
    · exact absurd (h1.trans h2.symm) hne
    · rw [h1, dlookup_dinsert_self] at hx
      injection hx with hx
      rw [dlookup_dinsert_ne A var p.2 val (fun he => h2 he.symm)] at hy
      have hnb : p.2 ∈ neighborsOf csp var := by
        have h := (neighborsOf_of_constraint csp p hp).1
        rwa [h1] at h
      have hnc := (isConsistent_iff csp var val A).1 hc p.2 hnb
      intro hxy
      exact hnc (by rw [hy, ← hxy, ← hx])
  · by_cases h2 : p.2 = var
    · rw [h2, dlookup_dinsert_self] at hy
      injection hy with hy
      rw [dlookup_dinsert_ne A var p.1 val (fun he => h1 he.symm)] at hx
      have hnb : p.1 ∈ neighborsOf csp var := by
        have h := (neighborsOf_of_constraint csp p hp).2
        rwa [h2] at h
      have hnc := (isConsistent_iff csp var val A).1 hc p.1 hnb
      intro hxy
      exact hnc (by rw [hx, hxy, ← hy])
    · rw [dlookup_dinsert_ne A var p.1 val (fun he => h1 he.symm)] at hx
      rw [dlookup_dinsert_ne A var p.2 val (fun he => h2 he.symm)] at hy
      exact hpc p hp x y hx hy

theorem assigned_of_complete (csp : CSPModel) (A : Assignment)
    (hnodup : csp.vars.Nodup)
    (hsub : ∀ k ∈ keysOf A, k ∈ csp.vars)
    (hnd : KeysNodup A)
    (hcomp : isComplete csp A = true) :
    ∀ v ∈ csp.vars, dcontains A v = true := by
  intro v hv
  rw [dcontains_iff_mem_keysOf]
  have hlenA : A.length = csp.vars.length := by
    simpa [isComplete] using hcomp
  have hlen : (keysOf A).length = csp.vars.length := by
    simpa [keysOf] using hlenA
  have hsubf : (keysOf A).toFinset ⊆ csp.vars.toFinset := by
    intro x hx
    rw [List.mem_toFinset] at hx ⊢
    exact hsub x hx
  have hnd' : (keysOf A).Nodup := hnd
  have hcard1 : (keysOf A).toFinset.card = (keysOf A).length :=
    List.toFinset_card_of_nodup hnd'
  have hcard2 : csp.vars.toFinset.card = csp.vars.length :=
    List.toFinset_card_of_nodup hnodup
  have heq : (keysOf A).toFinset = csp.vars.toFinset :=
    Finset.eq_of_subset_of_card_le hsubf (by omega)
  have hmem : v ∈ csp.vars.toFinset := List.mem_toFinset.2 hv
  rw [← heq] at hmem
  exact List.mem_toFinset.1 hmem

theorem isValidSolution_of_invariants (csp : CSPModel) (A : Assignment)
    (hnodup : csp.vars.Nodup)
    (hcon : ∀ p ∈ csp.constraints, p.1 ∈ csp.vars ∧ p.2 ∈ csp.vars ∧ p.1 ≠ p.2)
    (hsub : ∀ k ∈ keysOf A, k ∈ csp.vars)
    (hnd : KeysNodup A)
    (hpc : PairwiseConsistent csp A)
    (hcomp : isComplete csp A = true) :
    isValidSolution csp A = true ∧ ∀ v ∈ csp.vars, dcontains A v = true := by
  have hall := assigned_of_complete csp A hnodup hsub hnd hcomp
  refine ⟨?_, hall⟩
  unfold isValidSolution
  rw [Bool.and_eq_true]
  refine ⟨hcomp, ?_⟩
  rw [List.all_eq_true]
  intro p hp
  obtain ⟨h1, h2, hne⟩ := hcon p hp
  have ha1 := hall p.1 h1
  have ha2 := hall p.2 h2
  simp only [dcontains] at ha1 ha2
  obtain ⟨x, hx⟩ := Option.isSome_iff_exists.1 ha1
  obtain ⟨y, hy⟩ := Option.isSome_iff_exists.1 ha2
  have hxy := hpc p hp x y hx hy
  rw [hx, hy]
  simp [beq_iff_eq, hxy]

theorem tryValuesGo_sound (cfg : SolverConfig) (csp : CSPModel)
    (hcon : ∀ p ∈ csp.constraints, p.1 ∈ csp.vars ∧ p.2 ∈ csp.vars ∧ p.1 ≠ p.2)
    (fuel : Nat)
    (hbt : ∀ A D st r D2 st2,
      backtrackF cfg csp fuel A D st = some (r, D2, st2) →
      (∀ k ∈ keysOf A, k ∈ csp.vars) → KeysNodup A → PairwiseConsistent csp A →
      ∀ sol, r = some sol →
        (∀ k ∈ keysOf sol, k ∈ csp.vars) ∧ KeysNodup sol ∧
        PairwiseConsistent csp sol ∧ isComplete csp sol = true)
    (var : String) (hv : var ∈ csp.vars) :
    ∀ (values : List String) (A : Assignment) (D : Domains) (st : SolverStats)
      (r : Option Assignment) (D2 : Domains) (st2 : SolverStats),
      tryValuesGo csp cfg.infer (backtrackF cfg csp fuel) var values A D st =
        some (r, D2, st2) →
      (∀ k ∈ keysOf A, k ∈ csp.vars) → KeysNodup A → PairwiseConsistent csp A →
      dcontains A var = false →
      ∀ sol, r = some sol →
        (∀ k ∈ keysOf sol, k ∈ csp.vars) ∧ KeysNodup sol ∧
        PairwiseConsistent csp sol ∧ isComplete csp sol = true := by
  intro values
  induction values with
  | nil =>
    intro A D st r D2 st2 heq _ _ _ _ sol hsol
    simp only [tryValuesGo] at heq
    injection heq with h1
    injection h1 with hr h2
    rw [← hr] at hsol
    cases hsol
  | cons val rest ih =>
    intro A D st r D2 st2 heq hsub hnd hpc hfree sol hsol
    simp only [tryValuesGo] at heq
    by_cases hconsist : isConsistent csp var val A = true
    · rw [if_pos hconsist] at heq
      have hsub1 : ∀ k ∈ keysOf (dinsert A var val), k ∈ csp.vars := by
        intro k hk
        rw [keysOf_dinsert_not_contained A var val hfree] at hk
        rcases List.mem_append.1 hk with hk | hk
        · exact hsub k hk
        · simp only [List.mem_singleton] at hk
          subst hk
          exact hv
      have hnd1 : KeysNodup (dinsert A var val) := keysNodup_dinsert A var val hnd
      have hpc1 : PairwiseConsistent csp (dinsert A var val) :=
        pairwiseConsistent_dinsert csp A var val
          (fun p hp => (hcon p hp).2.2) hpc hconsist
      cases happ : applyInference cfg.infer csp var val (dinsert A var val) D st with
      | mk ok rest2 =>
        obtain ⟨D1, st1⟩ := rest2
        rw [happ] at heq
        cases ok with
        | true =>
          dsimp only at heq
          cases hbtres : backtrackF cfg csp fuel (dinsert A var val) D1 st1 with
          | none =>
            rw [hbtres] at heq
            cases heq
          | some rr =>
            obtain ⟨ores, D3, st3⟩ := rr
            rw [hbtres] at heq
            cases ores with
            | some sol2 =>
              dsimp only at heq
              injection heq with h1
              injection h1 with hr h2
              rw [← hr] at hsol
              injection hsol with hsol
              subst hsol
              exact hbt _ _ _ _ _ _ hbtres hsub1 hnd1 hpc1 sol2 rfl
            | none =>
              dsimp only at heq
              rw [derase_dinsert A var val hfree] at heq
              exact ih _ _ _ _ _ _ heq hsub hnd hpc hfree sol hsol
        | false =>
          dsimp only at heq
          rw [derase_dinsert A var val hfree] at heq
          exact ih _ _ _ _ _ _ heq hsub hnd hpc hfree sol hsol
    · rw [if_neg hconsist] at heq
      exact ih _ _ _ _ _ _ heq hsub hnd hpc hfree sol hsol

theorem backtrackF_sound (cfg : SolverConfig) (csp : CSPModel)
    (hcon : ∀ p ∈ csp.constraints, p.1 ∈ csp.vars ∧ p.2 ∈ csp.vars ∧ p.1 ≠ p.2) :
    ∀ (fuel : Nat) (A : Assignment) (D : Domains) (st : SolverStats)
      (r : Option Assignment) (D2 : Domains) (st2 : SolverStats),
      backtrackF cfg csp fuel A D st = some (r, D2, st2) →
      (∀ k ∈ keysOf A, k ∈ csp.vars) → KeysNodup A → PairwiseConsistent csp A →
      ∀ sol, r = some sol →
        (∀ k ∈ keysOf sol, k ∈ csp.vars) ∧ KeysNodup sol ∧
        PairwiseConsistent csp sol ∧ isComplete csp sol = true := by
  intro fuel
  induction fuel with
  | zero =>
    intro A D st r D2 st2 heq
    simp [backtrackF] at heq
  | succ fuel ih =>
    intro A D st r D2 st2 heq hsub hnd hpc sol hsol
    simp only [backtrackF] at heq
    by_cases hbud : st.nodesExplored ≥ cfg.maxNodes
    · rw [if_pos hbud] at heq
      injection heq with h1
      injection h1 with hr h2
      rw [← hr] at hsol
      cases hsol
    · rw [if_neg hbud] at heq
      by_cases hcomp : isComplete csp A = true
      · rw [if_pos hcomp] at heq
        injection heq with h1
        injection h1 with hr h2
        rw [← hr] at hsol
        injection hsol with hsol
        subst hsol
        exact ⟨hsub, hnd, hpc, hcomp⟩
      · rw [if_neg hcomp] at heq
        cases hsel : selectVariable cfg csp A D with
        | none =>
          rw [hsel] at heq
          dsimp only at heq
          injection heq with h1
          injection h1 with hr h2
          rw [← hr] at hsol
          cases hsol
        | some var =>
          rw [hsel] at heq
          dsimp only at heq
          obtain ⟨hv, hfree⟩ := selectVariable_some_fresh cfg csp A D var hsel
          exact tryValuesGo_sound cfg csp hcon fuel ih var hv
            _ _ _ _ _ _ _ heq hsub hnd hpc hfree sol hsol

/-- C1: soundness. On a model whose constraint endpoints are distinct
declared variables (with unique declarations, as §3 requires), every
assignment returned by `solve` — under any combination of heuristics and
inference strategies — assigns every variable of the model and passes
`is_valid_solution`: no constrained pair shares a value. -/
theorem solve_sound (cfg : SolverConfig) (csp : CSPModel) (prev : SolverStats)
    (hnodup : csp.vars.Nodup)
    (hcon : ∀ p ∈ csp.constraints, p.1 ∈ csp.vars ∧ p.2 ∈ csp.vars ∧ p.1 ≠ p.2) :
    ∀ A, (solve cfg csp prev).result = some A →
      isValidSolution csp A = true ∧ ∀ v ∈ csp.vars, dcontains A v = true := by
  intro A hA
  obtain ⟨Dout, st1, hbt, hstats⟩ := solve_destruct cfg csp prev
  rw [hA] at hbt
  have h := backtrackF_sound cfg csp hcon _ _ _ _ _ _ _ hbt
    (by intro k hk; simp [keysOf] at hk)
    (by simp [KeysNodup, keysOf])
    (by intro p hp x y hx hy; simp [dlookup] at hx)
    A rfl
  obtain ⟨hsub, hnd, hpc, hcomp⟩ := h
  exact isValidSolution_of_invariants csp A hnodup hcon hsub hnd hpc hcomp

/-- Witness for C1: the default configuration three-colors the triangle
with a concrete returned assignment that is provably valid and total. -/
theorem solve_sound_witness :
    (triangle ["Red", "Green", "Blue"]).vars.Nodup ∧
    (∀ p ∈ (triangle ["Red", "Green", "Blue"]).constraints,
      p.1 ∈ (triangle ["Red", "Green", "Blue"]).vars ∧
      p.2 ∈ (triangle ["Red", "Green", "Blue"]).vars ∧ p.1 ≠ p.2) ∧
    isValidSolution (triangle ["Red", "Green", "Blue"])
      [("A", "Red"), ("B", "Green"), ("C", "Blue")] = true ∧
    (∀ v ∈ (triangle ["Red", "Green", "Blue"]).vars,
      dcontains [("A", "Red"), ("B", "Green"), ("C", "Blue")] v = true) := by
  have h := solve_sound {} (triangle ["Red", "Green", "Blue"]) {}
    (by decide) (by decide)
    [("A", "Red"), ("B", "Green"), ("C", "Blue")] (by decide)
  exact ⟨by decide, by decide, h.1, h.2⟩

/-! ## Completeness of the search (claim C3) -/

theorem insertByScore_perm (x : String × Nat) (l : List (String × Nat)) :
    (insertByScore x l).Perm (x :: l) := by
  induction l with
  | nil => exact List.Perm.refl _
  | cons y ys ih =>
    simp only [insertByScore]
    by_cases h : x.2 ≤ y.2
    · rw [if_pos h]
    · rw [if_neg h]
      exact (List.Perm.cons y ih).trans (List.Perm.swap x y ys)

theorem sortByScore_perm (l : List (String × Nat)) :
    (sortByScore l).Perm l := by
  induction l with
  | nil => exact List.Perm.refl _
  | cons x xs ih =>
    exact (insertByScore_perm x (sortByScore xs)).trans (List.Perm.cons x ih)

theorem lcv_mem (csp : CSPModel) (var : String) (A : Assignment) (D : Domains)
    (sval : String) (h : sval ∈ dget D var) : sval ∈ lcv csp var A D := by
  unfold lcv
  apply List.mem_map.2
  refine ⟨(sval, (neighborsOf csp var).countP (fcHits sval A D)), ?_, rfl⟩
  apply (sortByScore_perm _).mem_iff.2
  exact List.mem_map.2 ⟨sval, h, rfl⟩

theorem lcv_length (csp : CSPModel) (var : String) (A : Assignment)
    (D : Domains) : (lcv csp var A D).length = (dget D var).length := by
  unfold lcv
  rw [List.length_map, (sortByScore_perm _).length_eq, List.length_map]

theorem orderValues_mem (cfg : SolverConfig) (csp : CSPModel) (var : String)
    (A : Assignment) (D : Domains) (sval : String) (h : sval ∈ dget D var) :
    sval ∈ orderValues cfg csp var A D := by
  unfold orderValues
  cases cfg.order with
  | domainOrder => exact h
  | lcv => exact lcv_mem csp var A D sval h

theorem orderValues_length (cfg : SolverConfig) (csp : CSPModel) (var : String)
    (A : Assignment) (D : Domains) :
    (orderValues cfg csp var A D).length = (dget D var).length := by
  unfold orderValues
  cases cfg.order with
  | domainOrder => rfl
  | lcv => exact lcv_length csp var A D

theorem dlookup_mem {β : Type} (d : Dict β) (k : String) (v : β)
    (h : dlookup d k = some v) : (k, v) ∈ d := by
  induction d with
  | nil => cases h
  | cons p rest ih =>
    obtain ⟨k0, v0⟩ := p
    simp only [dlookup] at h
    by_cases h0 : k0 = k
    · rw [if_pos h0] at h
      injection h with h
      subst h0
      subst h
      exact List.mem_cons_self _ _
    · rw [if_neg h0] at h
      exact List.mem_cons_of_mem _ (ih h)

theorem le_foldl_max (d : Domains) :
    ∀ init : Nat, init ≤ d.foldl (fun m q => max m q.2.length) init := by
  induction d with
  | nil => exact fun init => le_refl _
  | cons q rest ih =>
    intro init
    exact le_trans (Nat.le_max_left _ _) (ih _)

theorem entry_le_foldl_max (d : Domains) :
    ∀ (init : Nat) (p : String × List String), p ∈ d →
      p.2.length ≤ d.foldl (fun m q => max m q.2.length) init := by
  induction d with
  | nil =>
    intro _ p hp
    cases hp
  | cons q rest ih =>
    intro init p hp
    simp only [List.foldl_cons]
    rcases List.mem_cons.1 hp with h | h
    · subst h
      exact le_trans (Nat.le_max_right init _) (le_foldl_max rest _)
    · exact ih _ p h

theorem dget_le_maxDomainSize (csp : CSPModel) (v : String) :
    (dget csp.domains v).length ≤ maxDomainSize csp := by
  unfold dget maxDomainSize
  cases h : dlookup csp.domains v with
  | none => simp
  | some l =>
    simp only [Option.getD_some]
    exact entry_le_foldl_max csp.domains 0 (v, l) (dlookup_mem _ _ _ h)

theorem nodeBound_le_succ (csp : CSPModel) (k : Nat) :
    nodeBound csp k ≤ nodeBound csp (k + 1) := by
  induction k with
  | zero =>
    show 1 ≤ 1 + maxDomainSize csp * nodeBound csp 0
    exact Nat.le_add_right 1 _
  | succ n ih =>
    show 1 + maxDomainSize csp * nodeBound csp n ≤
      1 + maxDomainSize csp * nodeBound csp (n + 1)
    have := Nat.mul_le_mul_left (maxDomainSize csp) ih
    omega

theorem nodeBound_mono (csp : CSPModel) (k k' : Nat) (h : k ≤ k') :
    nodeBound csp k ≤ nodeBound csp k' := by
  induction k' with
  | zero =>
    have : k = 0 := by omega
    subst this
    exact le_refl _
  | succ n ih =>
    by_cases h2 : k ≤ n
    · exact le_trans (ih h2) (nodeBound_le_succ csp n)
    · have : k = n + 1 := by omega
      subst this
      exact le_refl _

theorem domEvolve_refl (D : Domains) : DomEvolve D D :=
  ⟨fun h => h, fun _ => List.Sublist.refl _⟩

theorem domEvolve_trans (D1 D2 D3 : Domains) (h12 : DomEvolve D1 D2)
    (h23 : DomEvolve D2 D3) : DomEvolve D1 D3 :=
  ⟨fun h => h23.1 (h12.1 h), fun v => (h23.2 v).trans (h12.2 v)⟩

theorem domEvolve_dset (D : Domains) (k : String) (l : List String)
    (h : l.Sublist (dget D k)) : DomEvolve D (dset D k l) := by
  constructor
  · intro hnd
    exact keysNodup_dinsert D k l hnd
  · intro v
    by_cases hv : k = v
    · subst hv
      rw [dget_dset_self]
      exact h
    · rw [dget_dset_ne D k v l hv]

theorem keysNodup_dupdate (d other : Domains) (h : KeysNodup d) :
    KeysNodup (dupdate d other) := by
  unfold dupdate
  induction other generalizing d with
  | nil => exact h
  | cons p rest ih =>
    simp only [List.foldl_cons]
    exact ih (dset d p.1 p.2) (keysNodup_dinsert d p.1 p.2 h)

theorem domEvolve_restore (D D2 : Domains) (hnd : KeysNodup D)
    (h : DomEvolve D D2) : DomEvolve D (dupdate D2 D) := by
  constructor
  · intro _
    exact keysNodup_dupdate D2 D (h.1 hnd)
  · intro v
    by_cases hc : dcontains D v = true
    · rw [dget_dupdate_contained D D2 v hnd hc]
    · rw [dget_dupdate_not_contained D D2 v (by simpa using hc)]
      exact h.2 v

theorem foldl_erase_sublist (ys : List String) :
    ∀ l : List String,
      (ys.foldl (fun acc x => acc.erase x) l).Sublist l := by
  induction ys with
  | nil => exact fun l => List.Sublist.refl l
  | cons y ys ih =>
    intro l
    simp only [List.foldl_cons]
    exact (ih (l.erase y)).trans (List.erase_sublist _ _)

theorem fcGo_evolve (value : String) (A : Assignment) :
    ∀ (nbs : List String) (pruned : Nat) (D : Domains),
      DomEvolve D (fcGo value A nbs pruned D).2 := by
  intro nbs
  induction nbs with
  | nil =>
    intro pruned D
    exact domEvolve_refl D
  | cons nb rest ih =>
    intro pruned D
    simp only [fcGo]
    by_cases hh : fcHits value A D nb = true
    · rw [if_pos hh]
      by_cases hlen : ((dget D nb).erase value).length = 0
      · rw [if_pos hlen]
        exact domEvolve_dset D nb _ (List.erase_sublist _ _)
      · rw [if_neg hlen]
        exact domEvolve_trans _ _ _
          (domEvolve_dset D nb _ (List.erase_sublist _ _)) (ih _ _)
    · rw [if_neg hh]
      exact ih _ _

theorem ac3FcGo_evolve (value : String) (A : Assignment) :
    ∀ (nbs : List String) (D : Domains),
      DomEvolve D (ac3FcGo value A nbs D).2 := by
  intro nbs
  induction nbs with
  | nil =>
    intro D
    exact domEvolve_refl D
  | cons nb rest ih =>
    intro D
    simp only [ac3FcGo]
    by_cases hh : fcHits value A D nb = true
    · rw [if_pos hh]
      by_cases hlen : ((dget D nb).erase value).length = 0
      · rw [if_pos hlen]
        exact domEvolve_dset D nb _ (List.erase_sublist _ _)
      · rw [if_neg hlen]
        exact domEvolve_trans _ _ _
          (domEvolve_dset D nb _ (List.erase_sublist _ _)) (ih _)
    · rw [if_neg hh]
      exact ih _

theorem revise_evolve (D : Domains) (xi xj : String) :
    DomEvolve D (revise D xi xj).2 := by
  unfold revise
  by_cases h : (reviseRemovals D xi xj).isEmpty = true
  · rw [if_pos h]
    exact domEvolve_refl D
  · rw [if_neg h]
    exact domEvolve_dset D xi _ (foldl_erase_sublist _ _)

theorem enforceF_evolve (csp : CSPModel) (A : Assignment) :
    ∀ (fuel : Nat) (q : List (String × String)) (D : Domains) (b : Bool)
      (D' : Domains), enforceF csp A fuel q D = some (b, D') → DomEvolve D D' := by
  intro fuel
  induction fuel with
  | zero =>
    intro q D b D' h
    simp [enforceF] at h
  | succ fuel ih =>
    intro q D b D' h
    cases q with
    | nil =>
      simp only [enforceF] at h
      injection h with h1
      injection h1 with hb hD
      subst hD
      exact domEvolve_refl D
    | cons a rest =>
      obtain ⟨xi, xj⟩ := a
      simp only [enforceF] at h
      by_cases hskip : (!A.isEmpty && dcontains A xi) = true
      · rw [if_pos hskip] at h
        exact ih _ _ _ _ h
      · rw [if_neg hskip] at h
        cases hrev : revise D xi xj with
        | mk b1 D1 =>
          rw [hrev] at h
          have hrevE : DomEvolve D D1 := by
            have he := revise_evolve D xi xj
            rw [hrev] at he
            exact he
          cases b1 with
          | false =>
            dsimp only at h
            exact domEvolve_trans _ _ _ hrevE (ih _ _ _ _ h)
          | true =>
            dsimp only at h
            by_cases hlen : (dget D1 xi).length = 0
            · rw [if_pos hlen] at h
              injection h with h1
              injection h1 with hb hD
              subst hD
              exact hrevE
            · rw [if_neg hlen] at h
              exact domEvolve_trans _ _ _ hrevE (ih _ _ _ _ h)

theorem enforce_evolve (csp : CSPModel) (D : Domains) (A : Assignment) :
    DomEvolve D (enforce csp D A).2 := by
  unfold enforce
  cases h : enforceF csp A (enforceFuel csp (getAllArcs csp) D)
      (getAllArcs csp) D with
  | none => exact domEvolve_refl D
  | some r =>
    obtain ⟨b, D'⟩ := r
    exact enforceF_evolve csp A _ _ _ _ _ h

theorem ac3Infer_evolve (csp : CSPModel) (v val : String) (A : Assignment)
    (D : Domains) : DomEvolve D (ac3Infer csp v val A D).2 := by
  simp only [ac3Infer]
  cases hfc : ac3FcGo val A (neighborsOf csp v) D with
  | mk ok D1 =>
    have h1 : DomEvolve D D1 := by
      have h := ac3FcGo_evolve val A (neighborsOf csp v) D
      rw [hfc] at h
      exact h
    cases ok with
    | false => exact h1
    | true =>
      dsimp only
      cases hen : enforce csp D1 A with
      | mk ok2 D2 =>
        have h2 : DomEvolve D1 D2 := by
          have h := enforce_evolve csp D1 A
          rw [hen] at h
          exact h
        cases ok2 with
        | false => exact domEvolve_trans _ _ _ h1 h2
        | true => exact domEvolve_trans _ _ _ h1 h2

theorem applyInference_evolve (strat : InferenceStrategy) (csp : CSPModel)
    (var val : String) (A : Assignment) (D : Domains) (st : SolverStats) :
    DomEvolve D (applyInference strat csp var val A D st).2.1 := by
  cases strat with
  | noInference => exact domEvolve_refl D
  | forwardChecking =>
    unfold applyInference
    cases hfc : fcInfer csp var val A D with
    | mk res D1 =>
      have h1 : DomEvolve D D1 := by
        have h := fcGo_evolve val A (neighborsOf csp var) 0 D
        unfold fcInfer at hfc
        rw [hfc] at h
        exact h
      cases res with
      | none => exact h1
      | some k => exact h1
  | ac3 =>
    unfold applyInference
    cases hac : ac3Infer csp var val A D with
    | mk res D1 =>
      have h1 : DomEvolve D D1 := by
        have h := ac3Infer_evolve csp var val A D
        rw [hac] at h
        exact h
      cases res with
      | none => exact h1
      | some k => exact h1

theorem nodeBound_pos (csp : CSPModel) (k : Nat) : 1 ≤ nodeBound csp k := by
  cases k with
  | zero => exact le_refl 1
  | succ n => exact Nat.le_add_right 1 _

theorem unassignedCount_pos (csp : CSPModel) (A : Assignment) (var : String)
    (hv : var ∈ csp.vars) (hfree : dcontains A var = false) :
    1 ≤ unassignedCount csp A := by
  unfold unassignedCount
  have hm : var ∈ csp.vars.filter (fun v => !dcontains A v) :=
    List.mem_filter.2 ⟨hv, by simp [hfree]⟩
  exact List.length_pos.2 (List.ne_nil_of_mem hm)

theorem nodeBound_eq_of_pos (csp : CSPModel) (u : Nat) (h : 1 ≤ u) :
    nodeBound csp u = 1 + maxDomainSize csp * nodeBound csp (u - 1) := by
  cases u with
  | zero => omega
  | succ k => rfl

theorem tryValuesGo_nodes (cfg : SolverConfig) (csp : CSPModel) (fuel : Nat)
    (hbt : ∀ A D st r D2 st2,
      backtrackF cfg csp fuel A D st = some (r, D2, st2) →
      DomEvolve csp.domains D →
      DomEvolve D D2 ∧
      st2.nodesExplored - st.nodesExplored ≤
        (nodeBound csp (unassignedCount csp A) : Int))
    (hndc : KeysNodup csp.domains) (var : String) (k : Nat) :
    ∀ (values : List String) (A : Assignment) (D : Domains) (st : SolverStats)
      (r : Option Assignment) (D2 : Domains) (st2 : SolverStats),
      tryValuesGo csp cfg.infer (backtrackF cfg csp fuel) var values A D st =
        some (r, D2, st2) →
      DomEvolve csp.domains D →
      dcontains A var = false →
      (∀ val, unassignedCount csp (dinsert A var val) ≤ k) →
      DomEvolve D D2 ∧
      st2.nodesExplored - st.nodesExplored ≤
        (values.length : Int) * (nodeBound csp k : Int) := by
  intro values
  induction values with
  | nil =>
    intro A D st r D2 st2 heq hD hfree hk
    simp only [tryValuesGo] at heq
    injection heq with h1
    injection h1 with hr h2
    injection h2 with hDe hst
    subst hDe
    subst hst
    exact ⟨domEvolve_refl D, by simp⟩
  | cons val rest ih =>
    intro A D st r D2 st2 heq hD hfree hk
    simp only [tryValuesGo] at heq
    have hB0 : (0 : Int) ≤ (nodeBound csp k : Int) := Int.ofNat_nonneg _
    have hlc : ((val :: rest).length : Int) = (rest.length : Int) + 1 := by
      simp
    have hexp : ((rest.length : Int) + 1) * (nodeBound csp k : Int) =
        (rest.length : Int) * (nodeBound csp k : Int) + (nodeBound csp k : Int) := by
      ring
    by_cases hcons : isConsistent csp var val A = true
    · rw [if_pos hcons] at heq
      have hsaved : List.map (fun p => (p.1, p.2)) D = D := List.map_id D
      rw [hsaved] at heq
      cases happ : applyInference cfg.infer csp var val (dinsert A var val) D st with
      | mk ok rest2 =>
        obtain ⟨D1, st1⟩ := rest2
        rw [happ] at heq
        have hDD1 : DomEvolve D D1 := by
          have h := applyInference_evolve cfg.infer csp var val
            (dinsert A var val) D st
          rw [happ] at h
          exact h
        have hstats := applyInference_stats cfg.infer csp var val
          (dinsert A var val) D st
        rw [happ] at hstats
        dsimp only at hstats
        obtain ⟨hn1, _, _, _⟩ := hstats
        have hndD : KeysNodup D := hD.1 hndc
        cases ok with
        | true =>
          dsimp only at heq
          cases hbtres : backtrackF cfg csp fuel (dinsert A var val) D1 st1 with
          | none =>
            rw [hbtres] at heq
            cases heq
          | some rr =>
            obtain ⟨ores, D3, st3⟩ := rr
            rw [hbtres] at heq
            obtain ⟨hD13, hn3⟩ :=
              hbt _ _ _ _ _ _ hbtres (domEvolve_trans _ _ _ hD hDD1)
            have hnb3 : st3.nodesExplored - st1.nodesExplored ≤
                (nodeBound csp k : Int) := by
              refine le_trans hn3 ?_
              exact_mod_cast nodeBound_mono csp _ _ (hk val)
            cases ores with
            | some sol =>
              dsimp only at heq
              injection heq with h1
              injection h1 with hr h2
              injection h2 with hDe hst
              subst hDe
              subst hst
              refine ⟨domEvolve_trans _ _ _ hDD1 hD13, ?_⟩
              rw [hlc, hexp]
              have hR : (0 : Int) ≤ (rest.length : Int) * (nodeBound csp k : Int) :=
                mul_nonneg (Int.ofNat_nonneg _) hB0
              linarith
            | none =>
              dsimp only at heq
              rw [derase_dinsert A var val hfree] at heq
              have hD3 : DomEvolve D D3 := domEvolve_trans _ _ _ hDD1 hD13
              have hrest0 : DomEvolve D (dupdate D3 D) :=
                domEvolve_restore D D3 hndD hD3
              obtain ⟨hDe2, hn2⟩ := ih _ _ _ _ _ _ heq
                (domEvolve_trans _ _ _ hD hrest0) hfree hk
              refine ⟨domEvolve_trans _ _ _ hrest0 hDe2, ?_⟩
              dsimp only at hn2
              rw [hlc, hexp]
              linarith
        | false =>
          dsimp only at heq
          rw [derase_dinsert A var val hfree] at heq
          have hrest0 : DomEvolve D (dupdate D1 D) :=
            domEvolve_restore D D1 hndD hDD1
          obtain ⟨hDe2, hn2⟩ := ih _ _ _ _ _ _ heq
            (domEvolve_trans _ _ _ hD hrest0) hfree hk
          refine ⟨domEvolve_trans _ _ _ hrest0 hDe2, ?_⟩
          dsimp only at hn2
          rw [hlc, hexp]
          linarith
    · rw [if_neg hcons] at heq
      obtain ⟨hDe2, hn2⟩ := ih _ _ _ _ _ _ heq hD hfree hk
      refine ⟨hDe2, ?_⟩
      rw [hlc, hexp]
      linarith

theorem backtrackF_nodes (cfg : SolverConfig) (csp : CSPModel)
    (hndc : KeysNodup csp.domains) :
    ∀ (fuel : Nat) (A : Assignment) (D : Domains) (st : SolverStats)
      (r : Option Assignment) (D2 : Domains) (st2 : SolverStats),
      backtrackF cfg csp fuel A D st = some (r, D2, st2) →
      DomEvolve csp.domains D →
      DomEvolve D D2 ∧
      st2.nodesExplored - st.nodesExplored ≤
        (nodeBound csp (unassignedCount csp A) : Int) := by
  intro fuel
  induction fuel with
  | zero =>
    intro A D st r D2 st2 heq
    simp [backtrackF] at heq
  | succ fuel ih =>
    intro A D st r D2 st2 heq hD
    have hNB : (1 : Int) ≤ (nodeBound csp (unassignedCount csp A) : Int) := by
      exact_mod_cast nodeBound_pos csp (unassignedCount csp A)
    simp only [backtrackF] at heq
    by_cases hbud : st.nodesExplored ≥ cfg.maxNodes
    · rw [if_pos hbud] at heq
      injection heq with h1
      injection h1 with hr h2
      injection h2 with hDe hst
      subst hDe
      subst hst
      exact ⟨domEvolve_refl D, by omega⟩
    · rw [if_neg hbud] at heq
      by_cases hcomp : isComplete csp A = true
      · rw [if_pos hcomp] at heq
        injection heq with h1
        injection h1 with hr h2
        injection h2 with hDe hst
        subst hDe
        subst hst
        exact ⟨domEvolve_refl D, by omega⟩
      · rw [if_neg hcomp] at heq
        cases hsel : selectVariable cfg csp A D with
        | none =>
          rw [hsel] at heq
          dsimp only at heq
          injection heq with h1
          injection h1 with hr h2
          injection h2 with hDe hst
          subst hDe
          rw [← hst]
          refine ⟨domEvolve_refl D, ?_⟩
          dsimp only
          omega
        | some var =>
          rw [hsel] at heq
          dsimp only at heq
          obtain ⟨hv, hfree⟩ := selectVariable_some_fresh cfg csp A D var hsel
          have hupos := unassignedCount_pos csp A var hv hfree
          have hk : ∀ val, unassignedCount csp (dinsert A var val) ≤
              unassignedCount csp A - 1 := by
            intro val
            have := unassignedCount_insert_lt csp A var val hv hfree
            omega
          obtain ⟨hDe2, hn2⟩ := tryValuesGo_nodes cfg csp fuel ih hndc var
            (unassignedCount csp A - 1) _ _ _ _ _ _ _ heq hD hfree hk
          refine ⟨hDe2, ?_⟩
          dsimp only at hn2
          have hvl : (orderValues cfg csp var A D).length ≤ maxDomainSize csp := by
            rw [orderValues_length]
            exact le_trans (List.Sublist.length_le (hD.2 var))
              (dget_le_maxDomainSize csp var)
          have hNBeq : (nodeBound csp (unassignedCount csp A) : Int) =
              1 + (maxDomainSize csp : Int) *
                (nodeBound csp (unassignedCount csp A - 1) : Int) := by
            rw [nodeBound_eq_of_pos csp _ hupos]
            push_cast
            ring
          have hmul : ((orderValues cfg csp var A D).length : Int) *
                (nodeBound csp (unassignedCount csp A - 1) : Int) ≤
              (maxDomainSize csp : Int) *
                (nodeBound csp (unassignedCount csp A - 1) : Int) := by
            apply mul_le_mul_of_nonneg_right
            · exact_mod_cast hvl
            · exact Int.ofNat_nonneg _
          rw [hNBeq]
          linarith

theorem revise_false_eq (D : Domains) (xi xj : String) (D1 : Domains)
    (h : revise D xi xj = (false, D1)) : D1 = D := by
  unfold revise at h
  by_cases hempty : (reviseRemovals D xi xj).isEmpty = true
  · rw [if_pos hempty] at h
    injection h with _ h2
    exact h2.symm
  · rw [if_neg hempty] at h
    injection h with h1 _
    exact Bool.noConfusion h1

theorem enforceF_isSome (csp : CSPModel) (A : Assignment) :
    ∀ (fuel : Nat) (q : List (String × String)) (D : Domains),
      q.length + totalSize D * (1 + csp.constraints.length) + 1 ≤ fuel →
      (enforceF csp A fuel q D).isSome = true := by
  intro fuel
  induction fuel with
  | zero =>
    intro q D h
    omega
  | succ fuel ih =>
    intro q D h
    cases q with
    | nil => simp [enforceF]
    | cons a rest =>
      obtain ⟨xi, xj⟩ := a
      simp only [enforceF]
      simp only [List.length_cons] at h
      by_cases hskip : (!A.isEmpty && dcontains A xi) = true
      · rw [if_pos hskip]
        apply ih
        omega
      · rw [if_neg hskip]
        cases hrev : revise D xi xj with
        | mk b1 D1 =>
          cases b1 with
          | false =>
            dsimp only
            have hD1 : D1 = D := revise_false_eq D xi xj D1 hrev
            apply ih
            rw [hD1]
            omega
          | true =>
            dsimp only
            by_cases hlen : (dget D1 xi).length = 0
            · rw [if_pos hlen]
              simp
            · rw [if_neg hlen]
              apply ih
              have hTS : totalSize D1 < totalSize D :=
                revise_size_lt D xi xj D1 hrev
              have happlen : (((neighborsOf csp xi).filter
                    (fun xk => xk != xj)).map (fun xk => (xk, xi))).length ≤
                  csp.constraints.length := by
                rw [List.length_map]
                exact le_trans (List.length_filter_le _ _)
                  (length_neighborsOf_le csp xi)
              rw [List.length_append]
              have hmul : totalSize D1 * (1 + csp.constraints.length) +
                    (1 + csp.constraints.length) ≤
                  totalSize D * (1 + csp.constraints.length) := by
                have h1 : totalSize D1 + 1 ≤ totalSize D := hTS
                calc totalSize D1 * (1 + csp.constraints.length) +
                      (1 + csp.constraints.length)
                    = (totalSize D1 + 1) * (1 + csp.constraints.length) := by
                      ring
                  _ ≤ totalSize D * (1 + csp.constraints.length) :=
                      Nat.mul_le_mul_right _ h1
              omega

theorem enforce_eq_enforceF (csp : CSPModel) (D : Domains) (A : Assignment) :
    enforceF csp A (enforceFuel csp (getAllArcs csp) D) (getAllArcs csp) D =
      some (enforce csp D A) := by
  have h := enforceF_isSome csp A (enforceFuel csp (getAllArcs csp) D)
    (getAllArcs csp) D (by unfold enforceFuel; omega)
  cases heq : enforceF csp A (enforceFuel csp (getAllArcs csp) D)
      (getAllArcs csp) D with
  | none =>
    rw [heq] at h
    cases h
  | some r =>
    unfold enforce
    rw [heq]
    rfl

theorem constraint_values_ne (csp : CSPModel) (S : Assignment)
    (hSvalid : ∀ p ∈ csp.constraints, dlookup S p.1 ≠ dlookup S p.2)
    (p : String × String) (hp : p ∈ csp.constraints) (x y : String)
    (hx : dlookup S p.1 = some x) (hy : dlookup S p.2 = some y) : x ≠ y := by
  intro hxy
  apply hSvalid p hp
  rw [hx, hy, hxy]

theorem neighbors_ok (csp : CSPModel) (S : Assignment)
    (hcon : ∀ p ∈ csp.constraints, p.1 ∈ csp.vars ∧ p.2 ∈ csp.vars ∧ p.1 ≠ p.2)
    (hStotal : ∀ v ∈ csp.vars, ∃ sv, dlookup S v = some sv)
    (hSvalid : ∀ p ∈ csp.constraints, dlookup S p.1 ≠ dlookup S p.2)
    (var sval : String) (hsval : dlookup S var = some sval) :
    ∀ nb ∈ neighborsOf csp var, nb ∈ csp.vars ∧
      ∃ snb, dlookup S nb = some snb ∧ snb ≠ sval := by
  intro nb hnb
  obtain ⟨p, hp, hc⟩ := (mem_neighborsOf csp var nb).1 hnb
  rcases hc with ⟨h1, h2⟩ | ⟨h1, h2⟩
  · have hnbv : nb ∈ csp.vars := by
      have h := (hcon p hp).2.1
      rwa [h2] at h
    obtain ⟨snb, hsnb⟩ := hStotal nb hnbv
    refine ⟨hnbv, snb, hsnb, ?_⟩
    have hxneq := constraint_values_ne csp S hSvalid p hp sval snb
      (by rw [h1]; exact hsval) (by rw [h2]; exact hsnb)
    exact Ne.symm hxneq
  · have hnbv : nb ∈ csp.vars := by
      have h := (hcon p hp).1
      rwa [h2] at h
    obtain ⟨snb, hsnb⟩ := hStotal nb hnbv
    refine ⟨hnbv, snb, hsnb, ?_⟩
    exact constraint_values_ne csp S hSvalid p hp snb sval
      (by rw [h2]; exact hsnb) (by rw [h1]; exact hsval)

theorem fcGo_solution (csp : CSPModel) (S : Assignment) (value : String)
    (A1 : Assignment) :
    ∀ (nbs : List String) (pruned : Nat) (D : Domains),
      SolutionInDomains csp S D →
      (∀ nb ∈ nbs, nb ∈ csp.vars ∧
        ∃ snb, dlookup S nb = some snb ∧ snb ≠ value) →
      ∃ k D', fcGo value A1 nbs pruned D = (some k, D') ∧
        SolutionInDomains csp S D' := by
  intro nbs
  induction nbs with
  | nil =>
    intro pruned D hSD _
    exact ⟨pruned, D, rfl, hSD⟩
  | cons nb rest ih =>
    intro pruned D hSD hnbs
    simp only [fcGo]
    by_cases hh : fcHits value A1 D nb = true
    · rw [if_pos hh]
      obtain ⟨hnv, snb, hsnb, hne⟩ := hnbs nb (List.mem_cons_self nb rest)
      obtain ⟨sv, hsv, hsvmem⟩ := hSD nb hnv
      have hsveq : sv = snb := by
        rw [hsv] at hsnb
        injection hsnb
      subst hsveq
      have hmem2 : sv ∈ (dget D nb).erase value :=
        (List.mem_erase_of_ne hne).2 hsvmem
      by_cases hlen : ((dget D nb).erase value).length = 0
      · exfalso
        rw [List.length_eq_zero] at hlen
        rw [hlen] at hmem2
        cases hmem2
      · rw [if_neg hlen]
        have hSD' : SolutionInDomains csp S
            (dset D nb ((dget D nb).erase value)) := by
          intro v hvv
          obtain ⟨sv2, hsv2, hsv2mem⟩ := hSD v hvv
          by_cases hvnb : nb = v
          · subst hvnb
            refine ⟨sv, hsv, ?_⟩
            rw [dget_dset_self]
            exact hmem2
          · refine ⟨sv2, hsv2, ?_⟩
            rw [dget_dset_ne D nb v _ hvnb]
            exact hsv2mem
        exact ih _ _ hSD' (fun nb' hnb' => hnbs nb' (List.mem_cons_of_mem _ hnb'))
    · rw [if_neg hh]
      exact ih _ _ hSD (fun nb' hnb' => hnbs nb' (List.mem_cons_of_mem _ hnb'))

theorem ac3FcGo_solution (csp : CSPModel) (S : Assignment) (value : String)
    (A1 : Assignment) :
    ∀ (nbs : List String) (D : Domains),
      SolutionInDomains csp S D →
      (∀ nb ∈ nbs, nb ∈ csp.vars ∧
        ∃ snb, dlookup S nb = some snb ∧ snb ≠ value) →
      ∃ D', ac3FcGo value A1 nbs D = (true, D') ∧
        SolutionInDomains csp S D' := by
  intro nbs
  induction nbs with
  | nil =>
    intro D hSD _
    exact ⟨D, rfl, hSD⟩
  | cons nb rest ih =>
    intro D hSD hnbs
    simp only [ac3FcGo]
    by_cases hh : fcHits value A1 D nb = true
    · rw [if_pos hh]
      obtain ⟨hnv, snb, hsnb, hne⟩ := hnbs nb (List.mem_cons_self nb rest)
      obtain ⟨sv, hsv, hsvmem⟩ := hSD nb hnv
      have hsveq : sv = snb := by
        rw [hsv] at hsnb
        injection hsnb
      subst hsveq
      have hmem2 : sv ∈ (dget D nb).erase value :=
        (List.mem_erase_of_ne hne).2 hsvmem
      by_cases hlen : ((dget D nb).erase value).length = 0
      · exfalso
        rw [List.length_eq_zero] at hlen
        rw [hlen] at hmem2
        cases hmem2
      · rw [if_neg hlen]
        have hSD' : SolutionInDomains csp S
            (dset D nb ((dget D nb).erase value)) := by
          intro v hvv
          obtain ⟨sv2, hsv2, hsv2mem⟩ := hSD v hvv
          by_cases hvnb : nb = v
          · subst hvnb
            refine ⟨sv, hsv, ?_⟩
            rw [dget_dset_self]
            exact hmem2
          · refine ⟨sv2, hsv2, ?_⟩
            rw [dget_dset_ne D nb v _ hvnb]
            exact hsv2mem
        exact ih _ hSD' (fun nb' hnb' => hnbs nb' (List.mem_cons_of_mem _ hnb'))
    · rw [if_neg hh]
      exact ih _ hSD (fun nb' hnb' => hnbs nb' (List.mem_cons_of_mem _ hnb'))

theorem revise_solution (csp : CSPModel) (S : Assignment) (D : Domains)
    (xi xj : String) (hxiv : xi ∈ csp.vars) (hxjv : xj ∈ csp.vars)
    (hSD : SolutionInDomains csp S D)
    (hvals : ∃ x y, dlookup S xi = some x ∧ dlookup S xj = some y ∧ x ≠ y) :
    SolutionInDomains csp S (revise D xi xj).2 := by
  obtain ⟨x0, y0, hx0, hy0, hxy0⟩ := hvals
  unfold revise
  by_cases hempty : (reviseRemovals D xi xj).isEmpty = true
  · rw [if_pos hempty]
    exact hSD
  · rw [if_neg hempty]
    dsimp only
    have hfold : (reviseRemovals D xi xj).foldl (fun l x => l.erase x)
        (dget D xi) =
        (dget D xi).filter (fun x => (dget D xj).any (fun y => y != x)) := by
      have hrem : reviseRemovals D xi xj =
          (dget D xi).filter (fun x => !(dget D xj).any (fun y => y != x)) := rfl
      rw [hrem, foldl_erase_filter]
      simp
    rw [hfold]
    intro v hvv
    obtain ⟨sv, hsv, hsvmem⟩ := hSD v hvv
    by_cases hvxi : xi = v
    · subst hvxi
      refine ⟨sv, hsv, ?_⟩
      rw [dget_dset_self]
      refine List.mem_filter.2 ⟨hsvmem, ?_⟩
      obtain ⟨sj, hsj, hsjmem⟩ := hSD xj hxjv
      have hsvx0 : sv = x0 := by
        rw [hsv] at hx0
        injection hx0
      have hsjy0 : sj = y0 := by
        rw [hsj] at hy0
        injection hy0
      refine List.any_eq_true.2 ⟨sj, hsjmem, ?_⟩
      rw [hsvx0, hsjy0]
      simp only [bne_iff_ne, ne_eq, decide_not]
      simp only [decide_eq_true_eq] at *
      exact fun he => hxy0 he.symm
    · refine ⟨sv, hsv, ?_⟩
      rw [dget_dset_ne D xi v _ hvxi]
      exact hsvmem

theorem mem_getAllArcs (csp : CSPModel) (a : String × String) :
    a ∈ getAllArcs csp ↔
      ∃ p ∈ csp.constraints, a = (p.1, p.2) ∨ a = (p.2, p.1) := by
  unfold getAllArcs
  have hgen : ∀ (l : List (String × String)) (acc : List (String × String)),
      a ∈ l.foldl (fun acc p => acc ++ [(p.1, p.2), (p.2, p.1)]) acc ↔
        a ∈ acc ∨ ∃ p ∈ l, a = (p.1, p.2) ∨ a = (p.2, p.1) := by
    intro l
    induction l with
    | nil =>
      intro acc
      simp
    | cons q rest ih =>
      intro acc
      simp only [List.foldl_cons]
      rw [ih]
      simp only [List.mem_append, List.mem_cons, List.mem_singleton,
        List.not_mem_nil, or_false]
      constructor
      · rintro ((h | (h | h)) | ⟨p, hp, hc⟩)
        · exact Or.inl h
        · exact Or.inr ⟨q, Or.inl rfl, Or.inl h⟩
        · exact Or.inr ⟨q, Or.inl rfl, Or.inr h⟩
        · exact Or.inr ⟨p, Or.inr hp, hc⟩
      · rintro (h | ⟨p, hq | hq, hc⟩)
        · exact Or.inl (Or.inl h)
        · subst hq
          rcases hc with hc | hc
          · exact Or.inl (Or.inr (Or.inl hc))
          · exact Or.inl (Or.inr (Or.inr hc))
        · exact Or.inr ⟨p, hq, hc⟩
  rw [hgen]
  simp

theorem getAllArcs_ok (csp : CSPModel) (S : Assignment)
    (hcon : ∀ p ∈ csp.constraints, p.1 ∈ csp.vars ∧ p.2 ∈ csp.vars ∧ p.1 ≠ p.2)
    (hStotal : ∀ v ∈ csp.vars, ∃ sv, dlookup S v = some sv)
    (hSvalid : ∀ p ∈ csp.constraints, dlookup S p.1 ≠ dlookup S p.2) :
    ∀ a ∈ getAllArcs csp, a.1 ∈ csp.vars ∧ a.2 ∈ csp.vars ∧
      ∃ x y, dlookup S a.1 = some x ∧ dlookup S a.2 = some y ∧ x ≠ y := by
  intro a ha
  obtain ⟨p, hp, hc⟩ := (mem_getAllArcs csp a).1 ha
  obtain ⟨h1v, h2v, hne⟩ := hcon p hp
  obtain ⟨x, hx⟩ := hStotal p.1 h1v
  obtain ⟨y, hy⟩ := hStotal p.2 h2v
  have hxy : x ≠ y := constraint_values_ne csp S hSvalid p hp x y hx hy
  rcases hc with hc | hc
  · subst hc
    exact ⟨h1v, h2v, x, y, hx, hy, hxy⟩
  · subst hc
    exact ⟨h2v, h1v, y, x, hy, hx, Ne.symm hxy⟩

theorem enforceF_solution (csp : CSPModel) (S A1 : Assignment)
    (hcon : ∀ p ∈ csp.constraints, p.1 ∈ csp.vars ∧ p.2 ∈ csp.vars ∧ p.1 ≠ p.2)
    (hStotal : ∀ v ∈ csp.vars, ∃ sv, dlookup S v = some sv)
    (hSvalid : ∀ p ∈ csp.constraints, dlookup S p.1 ≠ dlookup S p.2) :
    ∀ (fuel : Nat) (q : List (String × String)) (D : Domains) (b : Bool)
      (D' : Domains),
      (∀ a ∈ q, a.1 ∈ csp.vars ∧ a.2 ∈ csp.vars ∧
        ∃ x y, dlookup S a.1 = some x ∧ dlookup S a.2 = some y ∧ x ≠ y) →
      SolutionInDomains csp S D →
      enforceF csp A1 fuel q D = some (b, D') →
      b = true ∧ SolutionInDomains csp S D' := by
  intro fuel
  induction fuel with
  | zero =>
    intro q D b D' _ _ h
    simp [enforceF] at h
  | succ fuel ih =>
    intro q D b D' hq hSD h
    cases q with
    | nil =>
      simp only [enforceF] at h
      injection h with h1
      injection h1 with hb hD
      subst hD
      exact ⟨hb.symm, hSD⟩
    | cons a rest =>
      obtain ⟨xi, xj⟩ := a
      simp only [enforceF] at h
      have hrest := fun a ha => hq a (List.mem_cons_of_mem _ ha)
      by_cases hskip : (!A1.isEmpty && dcontains A1 xi) = true
      · rw [if_pos hskip] at h
        exact ih _ _ _ _ hrest hSD h
      · rw [if_neg hskip] at h
        obtain ⟨hxiv, hxjv, hxy⟩ := hq (xi, xj) (List.mem_cons_self _ _)
        have hSD1all := revise_solution csp S D xi xj hxiv hxjv hSD hxy
        cases hrev : revise D xi xj with
        | mk b1 D1 =>
          rw [hrev] at h
          have hSD1 : SolutionInDomains csp S D1 := by
            rw [hrev] at hSD1all
            exact hSD1all
          cases b1 with
          | false =>
            dsimp only at h
            exact ih _ _ _ _ hrest hSD1 h
          | true =>
            dsimp only at h
            by_cases hlen : (dget D1 xi).length = 0
            · exfalso
              obtain ⟨sv, hsv, hsvmem⟩ := hSD1 xi hxiv
              rw [List.length_eq_zero] at hlen
              rw [hlen] at hsvmem
              cases hsvmem
            · rw [if_neg hlen] at h
              refine ih _ _ _ _ ?_ hSD1 h
              intro a ha
              rcases List.mem_append.1 ha with ha | ha
              · exact hrest a ha
              · obtain ⟨xk, hxk, hxkeq⟩ := List.mem_map.1 ha
                subst hxkeq
                have hxkn : xk ∈ neighborsOf csp xi := (List.mem_filter.1 hxk).1
                obtain ⟨x0, hx0⟩ := hStotal xi hxiv
                obtain ⟨hxkv, snb, hsnb, hsne⟩ :=
                  neighbors_ok csp S hcon hStotal hSvalid xi x0 hx0 xk hxkn
                exact ⟨hxkv, hxiv, snb, x0, hsnb, hx0, hsne⟩

theorem fcInfer_solution (csp : CSPModel) (S : Assignment)
    (hcon : ∀ p ∈ csp.constraints, p.1 ∈ csp.vars ∧ p.2 ∈ csp.vars ∧ p.1 ≠ p.2)
    (hStotal : ∀ v ∈ csp.vars, ∃ sv, dlookup S v = some sv)
    (hSvalid : ∀ p ∈ csp.constraints, dlookup S p.1 ≠ dlookup S p.2)
    (var sval : String) (hsval : dlookup S var = some sval)
    (A1 : Assignment) (D : Domains) (hSD : SolutionInDomains csp S D) :
    ∃ k D', fcInfer csp var sval A1 D = (some k, D') ∧
      SolutionInDomains csp S D' := by
  unfold fcInfer
  exact fcGo_solution csp S sval A1 (neighborsOf csp var) 0 D hSD
    (neighbors_ok csp S hcon hStotal hSvalid var sval hsval)

theorem ac3Infer_solution (csp : CSPModel) (S : Assignment)
    (hcon : ∀ p ∈ csp.constraints, p.1 ∈ csp.vars ∧ p.2 ∈ csp.vars ∧ p.1 ≠ p.2)
    (hStotal : ∀ v ∈ csp.vars, ∃ sv, dlookup S v = some sv)
    (hSvalid : ∀ p ∈ csp.constraints, dlookup S p.1 ≠ dlookup S p.2)
    (var sval : String) (hsval : dlookup S var = some sval)
    (A1 : Assignment) (D : Domains) (hSD : SolutionInDomains csp S D) :
    ∃ k D', ac3Infer csp var sval A1 D = (some k, D') ∧
      SolutionInDomains csp S D' := by
  simp only [ac3Infer]
  obtain ⟨D1, hfc, hSD1⟩ := ac3FcGo_solution csp S sval A1
    (neighborsOf csp var) D hSD
    (neighbors_ok csp S hcon hStotal hSvalid var sval hsval)
  rw [hfc]
  dsimp only
  have hforce := enforce_eq_enforceF csp D1 A1
  cases hen : enforce csp D1 A1 with
  | mk b2 D2 =>
    rw [hen] at hforce
    obtain ⟨hb2, hSD2⟩ := enforceF_solution csp S A1 hcon hStotal hSvalid
      _ _ _ _ _ (getAllArcs_ok csp S hcon hStotal hSvalid) hSD1 hforce
    subst hb2
    exact ⟨(totalSize D : Int) - (totalSize D2 : Int), D2, rfl, hSD2⟩

theorem applyInference_solution (strat : InferenceStrategy) (csp : CSPModel)
    (S : Assignment)
    (hcon : ∀ p ∈ csp.constraints, p.1 ∈ csp.vars ∧ p.2 ∈ csp.vars ∧ p.1 ≠ p.2)
    (hStotal : ∀ v ∈ csp.vars, ∃ sv, dlookup S v = some sv)
    (hSvalid : ∀ p ∈ csp.constraints, dlookup S p.1 ≠ dlookup S p.2)
    (var sval : String) (hsval : dlookup S var = some sval)
    (A1 : Assignment) (D : Domains) (st : SolverStats)
    (hSD : SolutionInDomains csp S D) :
    (applyInference strat csp var sval A1 D st).1 = true ∧
    SolutionInDomains csp S (applyInference strat csp var sval A1 D st).2.1 := by
  cases strat with
  | noInference => exact ⟨rfl, hSD⟩
  | forwardChecking =>
    obtain ⟨k, D', hfc, hSD'⟩ := fcInfer_solution csp S hcon hStotal hSvalid
      var sval hsval A1 D hSD
    unfold applyInference
    rw [hfc]
    exact ⟨rfl, hSD'⟩
  | ac3 =>
    obtain ⟨k, D', hac, hSD'⟩ := ac3Infer_solution csp S hcon hStotal hSvalid
      var sval hsval A1 D hSD
    unfold applyInference
    rw [hac]
    exact ⟨rfl, hSD'⟩

theorem solutionInDomains_restore (csp : CSPModel) (S : Assignment)
    (D D2 : Domains) (hnd : KeysNodup D) (hSD : SolutionInDomains csp S D) :
    SolutionInDomains csp S (dupdate D2 D) := by
  intro v hv
  obtain ⟨sv, hsv, hmem⟩ := hSD v hv
  have hc : dcontains D v = true := by
    refine dcontains_of_dget_ne_nil D v ?_
    intro h
    rw [h] at hmem
    cases hmem
  refine ⟨sv, hsv, ?_⟩
  rw [dget_dupdate_contained D D2 v hnd hc]
  exact hmem

theorem exists_unassigned_of_not_complete (csp : CSPModel) (A : Assignment)
    (hnodup : csp.vars.Nodup)
    (hsub : ∀ k ∈ keysOf A, k ∈ csp.vars)
    (hnd : KeysNodup A)
    (hcomp : isComplete csp A = false) :
    ∃ v ∈ csp.vars, dcontains A v = false := by
  by_contra hno
  push_neg at hno
  have hall : ∀ v ∈ csp.vars, v ∈ keysOf A := by
    intro v hv
    rw [← dcontains_iff_mem_keysOf]
    cases hc : dcontains A v with
    | false => exact absurd hc (hno v hv)
    | true => rfl
  have hsubf1 : (keysOf A).toFinset ⊆ csp.vars.toFinset := fun x hx =>
    List.mem_toFinset.2 (hsub x (List.mem_toFinset.1 hx))
  have hsubf2 : csp.vars.toFinset ⊆ (keysOf A).toFinset := fun x hx =>
    List.mem_toFinset.2 (hall x (List.mem_toFinset.1 hx))
  have heq := Finset.Subset.antisymm hsubf1 hsubf2
  have hnd' : (keysOf A).Nodup := hnd
  have hcard1 : (keysOf A).toFinset.card = (keysOf A).length :=
    List.toFinset_card_of_nodup hnd'
  have hcard2 : csp.vars.toFinset.card = csp.vars.length :=
    List.toFinset_card_of_nodup hnodup
  have hlen : (keysOf A).length = csp.vars.length := by
    rw [← hcard1, ← hcard2, heq]
  have hAlen : A.length = csp.vars.length := by
    simpa [keysOf] using hlen
  unfold isComplete at hcomp
  simp [hAlen] at hcomp

theorem tryValuesGo_complete (cfg : SolverConfig) (csp : CSPModel)
    (S : Assignment)
    (hndc : KeysNodup csp.domains)
    (hcon : ∀ p ∈ csp.constraints, p.1 ∈ csp.vars ∧ p.2 ∈ csp.vars ∧ p.1 ≠ p.2)
    (hStotal : ∀ v ∈ csp.vars, ∃ sv, dlookup S v = some sv)
    (hSvalid : ∀ p ∈ csp.constraints, dlookup S p.1 ≠ dlookup S p.2)
    (fuel : Nat)
    (hbt : ∀ A D st,
      (∀ k ∈ keysOf A, k ∈ csp.vars) → KeysNodup A →
      (∀ v c, dlookup A v = some c → dlookup S v = some c) →
      SolutionInDomains csp S D → DomEvolve csp.domains D →
      unassignedCount csp A + 1 ≤ fuel →
      st.nodesExplored + (nodeBound csp (unassignedCount csp A) : Int) <
        cfg.maxNodes →
      ∃ sol D2 st2, backtrackF cfg csp fuel A D st = some (some sol, D2, st2))
    (var : String) (hv : var ∈ csp.vars) (sval : String)
    (hsval : dlookup S var = some sval) :
    ∀ (values : List String) (A : Assignment) (D : Domains) (st : SolverStats),
      sval ∈ values →
      (∀ k ∈ keysOf A, k ∈ csp.vars) → KeysNodup A →
      (∀ v c, dlookup A v = some c → dlookup S v = some c) →
      dcontains A var = false →
      SolutionInDomains csp S D → DomEvolve csp.domains D →
      unassignedCount csp A ≤ fuel →
      st.nodesExplored + (values.length : Int) *
        (nodeBound csp (unassignedCount csp A - 1) : Int) < cfg.maxNodes →
      ∃ sol D2 st2,
        tryValuesGo csp cfg.infer (backtrackF cfg csp fuel) var values A D st =
          some (some sol, D2, st2) := by
  intro values
  induction values with
  | nil =>
    intro A D st hmem
    cases hmem
  | cons val rest ih =>
    intro A D st hmem hsub hnd hagree hfree hSD hD hfuel hbud
    have hndD : KeysNodup D := hD.1 hndc
    have hupos := unassignedCount_pos csp A var hv hfree
    have hB0 : (0 : Int) ≤ (nodeBound csp (unassignedCount csp A - 1) : Int) :=
      Int.ofNat_nonneg _
    have hlc : ((val :: rest).length : Int) = (rest.length : Int) + 1 := by
      simp
    have hR0 : (0 : Int) ≤ (rest.length : Int) *
        (nodeBound csp (unassignedCount csp A - 1) : Int) :=
      mul_nonneg (Int.ofNat_nonneg _) hB0
    rw [hlc] at hbud
    have hexp : ((rest.length : Int) + 1) *
          (nodeBound csp (unassignedCount csp A - 1) : Int) =
        (rest.length : Int) * (nodeBound csp (unassignedCount csp A - 1) : Int) +
          (nodeBound csp (unassignedCount csp A - 1) : Int) := by
      ring
    rw [hexp] at hbud
    have hrBudget : st.nodesExplored + (rest.length : Int) *
        (nodeBound csp (unassignedCount csp A - 1) : Int) < cfg.maxNodes := by
      linarith
    have hchildcnt : unassignedCount csp (dinsert A var val) ≤
        unassignedCount csp A - 1 := by
      have := unassignedCount_insert_lt csp A var val hv hfree
      omega
    by_cases hconsist : isConsistent csp var val A = true
    · simp only [tryValuesGo]
      rw [if_pos hconsist]
      have hsaved : List.map (fun p => (p.1, p.2)) D = D := List.map_id D
      rw [hsaved]
      cases happ : applyInference cfg.infer csp var val (dinsert A var val) D st with
      | mk ok rest2 =>
        obtain ⟨D1, st1⟩ := rest2
        have hDD1 : DomEvolve D D1 := by
          have h := applyInference_evolve cfg.infer csp var val
            (dinsert A var val) D st
          rw [happ] at h
          exact h
        have hstats := applyInference_stats cfg.infer csp var val
          (dinsert A var val) D st
        rw [happ] at hstats
        dsimp only at hstats
        obtain ⟨hn1, _, _, _⟩ := hstats
        rcases List.mem_cons.1 hmem with he | he
        · have hsval' : dlookup S var = some val := by
            rw [← he]
            exact hsval
          have hsolA := applyInference_solution cfg.infer csp S hcon hStotal
            hSvalid var val hsval' (dinsert A var val) D st hSD
          rw [happ] at hsolA
          dsimp only at hsolA
          obtain ⟨hok, hSD1⟩ := hsolA
          subst hok
          dsimp only
          rw [if_pos rfl]
          have hsub1 : ∀ k ∈ keysOf (dinsert A var val), k ∈ csp.vars := by
            intro k hk
            rw [keysOf_dinsert_not_contained A var val hfree] at hk
            rcases List.mem_append.1 hk with hk | hk
            · exact hsub k hk
            · simp only [List.mem_singleton] at hk
              subst hk
              exact hv
          have hnd1 : KeysNodup (dinsert A var val) :=
            keysNodup_dinsert A var val hnd
          have hagree1 : ∀ v c, dlookup (dinsert A var val) v = some c →
              dlookup S v = some c := by
            intro v c hvc
            by_cases hvv : var = v
            · subst hvv
              rw [dlookup_dinsert_self] at hvc
              injection hvc with hvc
              rw [← hvc]
              exact hsval'
            · rw [dlookup_dinsert_ne A var v val hvv] at hvc
              exact hagree v c hvc
          have hfuel1 : unassignedCount csp (dinsert A var val) + 1 ≤ fuel := by
            omega
          have hm : (nodeBound csp (unassignedCount csp (dinsert A var val)) : Int) ≤
              (nodeBound csp (unassignedCount csp A - 1) : Int) := by
            exact_mod_cast nodeBound_mono csp _ _ hchildcnt
          have hbud1 : st1.nodesExplored +
              (nodeBound csp (unassignedCount csp (dinsert A var val)) : Int) <
              cfg.maxNodes := by
            rw [hn1]
            linarith
          obtain ⟨sol, D2', st2', hsucc⟩ := hbt (dinsert A var val) D1 st1
            hsub1 hnd1 hagree1 hSD1 (domEvolve_trans _ _ _ hD hDD1) hfuel1 hbud1
          rw [hsucc]
          exact ⟨sol, D2', st2', rfl⟩
        · cases ok with
          | false =>
            dsimp only
            rw [if_neg Bool.false_ne_true]
            rw [derase_dinsert A var val hfree]
            have hSDrest : SolutionInDomains csp S (dupdate D1 D) :=
              solutionInDomains_restore csp S D D1 hndD hSD
            have hDrest : DomEvolve csp.domains (dupdate D1 D) :=
              domEvolve_trans _ _ _ hD (domEvolve_restore D D1 hndD hDD1)
            refine ih A _ _ he hsub hnd hagree hfree hSDrest hDrest hfuel ?_
            dsimp only
            rw [hn1]
            exact hrBudget
          | true =>
            dsimp only
            rw [if_pos rfl]
            cases hbtres : backtrackF cfg csp fuel (dinsert A var val) D1 st1 with
            | none =>
              exfalso
              have hss := backtrackF_fuel_sufficient cfg csp fuel
                (dinsert A var val) D1 st1 (by omega)
              rw [hbtres] at hss
              simp at hss
            | some rr =>
              obtain ⟨ores, D3, st3⟩ := rr
              cases ores with
              | some sol =>
                exact ⟨sol, D3, st3, rfl⟩
              | none =>
                dsimp only
                rw [derase_dinsert A var val hfree]
                obtain ⟨hD13, hΔ⟩ := backtrackF_nodes cfg csp hndc fuel
                  (dinsert A var val) D1 st1 _ _ _ hbtres
                  (domEvolve_trans _ _ _ hD hDD1)
                have hSDrest : SolutionInDomains csp S (dupdate D3 D) :=
                  solutionInDomains_restore csp S D D3 hndD hSD
                have hDrest : DomEvolve csp.domains (dupdate D3 D) :=
                  domEvolve_trans _ _ _ hD (domEvolve_restore D D3 hndD
                    (domEvolve_trans _ _ _ hDD1 hD13))
                refine ih A _ _ he hsub hnd hagree hfree hSDrest hDrest hfuel ?_
                dsimp only
                have hm : (nodeBound csp
                      (unassignedCount csp (dinsert A var val)) : Int) ≤
                    (nodeBound csp (unassignedCount csp A - 1) : Int) := by
                  exact_mod_cast nodeBound_mono csp _ _ hchildcnt
                linarith
    · simp only [tryValuesGo]
      rw [if_neg hconsist]
      have hsvcons : isConsistent csp var sval A = true := by
        rw [isConsistent_iff]
        intro nb hnb hlook
        obtain ⟨hnbv, snb, hsnb, hne⟩ :=
          neighbors_ok csp S hcon hStotal hSvalid var sval hsval nb hnb
        have hgl := hagree nb sval hlook
        rw [hsnb] at hgl
        injection hgl with hgl
        exact hne hgl
      have hmem' : sval ∈ rest := by
        rcases List.mem_cons.1 hmem with he | he
        · exfalso
          rw [← he] at hconsist
          exact hconsist hsvcons
        · exact he
      exact ih A D st hmem' hsub hnd hagree hfree hSD hD hfuel hrBudget

theorem backtrackF_complete (cfg : SolverConfig) (csp : CSPModel)
    (S : Assignment)
    (hnodup : csp.vars.Nodup)
    (hndc : KeysNodup csp.domains)
    (hcon : ∀ p ∈ csp.constraints, p.1 ∈ csp.vars ∧ p.2 ∈ csp.vars ∧ p.1 ≠ p.2)
    (hStotal : ∀ v ∈ csp.vars, ∃ sv, dlookup S v = some sv)
    (hSvalid : ∀ p ∈ csp.constraints, dlookup S p.1 ≠ dlookup S p.2) :
    ∀ (fuel : Nat) (A : Assignment) (D : Domains) (st : SolverStats),
      (∀ k ∈ keysOf A, k ∈ csp.vars) → KeysNodup A →
      (∀ v c, dlookup A v = some c → dlookup S v = some c) →
      SolutionInDomains csp S D → DomEvolve csp.domains D →
      unassignedCount csp A + 1 ≤ fuel →
      st.nodesExplored + (nodeBound csp (unassignedCount csp A) : Int) <
        cfg.maxNodes →
      ∃ sol D2 st2, backtrackF cfg csp fuel A D st = some (some sol, D2, st2) := by
  intro fuel
  induction fuel with
  | zero =>
    intro A D st _ _ _ _ _ hfuel _
    omega
  | succ fuel ih =>
    intro A D st hsub hnd hagree hSD hD hfuel hbud
    have hNB1 : (1 : Int) ≤ (nodeBound csp (unassignedCount csp A) : Int) := by
      exact_mod_cast nodeBound_pos csp (unassignedCount csp A)
    have hstlt : st.nodesExplored < cfg.maxNodes := by linarith
    simp only [backtrackF]
    rw [if_neg (by omega : ¬ st.nodesExplored ≥ cfg.maxNodes)]
    by_cases hcomp : isComplete csp A = true
    · rw [if_pos hcomp]
      exact ⟨A, D, st, rfl⟩
    · rw [if_neg hcomp]
      have hcompf : isComplete csp A = false := by
        revert hcomp
        cases isComplete csp A <;> simp
      obtain ⟨v0, hv0, hfree0⟩ :=
        exists_unassigned_of_not_complete csp A hnodup hsub hnd hcompf
      cases hsel : selectVariable cfg csp A D with
      | none =>
        exfalso
        exact selectVariable_isSome cfg csp A D ⟨v0, hv0, hfree0⟩ hsel
      | some var =>
        dsimp only
        obtain ⟨hv, hfree⟩ := selectVariable_some_fresh cfg csp A D var hsel
        obtain ⟨sval, hsval⟩ := hStotal var hv
        obtain ⟨sv', hsv', hsvmem⟩ := hSD var hv
        have hsveq : sv' = sval := by
          rw [hsv'] at hsval
          injection hsval
        subst hsveq
        have hmemval : sv' ∈ orderValues cfg csp var A D :=
          orderValues_mem cfg csp var A D sv' hsvmem
        have hupos := unassignedCount_pos csp A var hv hfree
        refine tryValuesGo_complete cfg csp S hndc hcon hStotal hSvalid fuel
          ih var hv sv' hsv' (orderValues cfg csp var A D) A D
          { st with nodesExplored := st.nodesExplored + 1 }
          hmemval hsub hnd hagree hfree hSD hD (by omega) ?_
        dsimp only
        have hvl : (orderValues cfg csp var A D).length ≤ maxDomainSize csp := by
          rw [orderValues_length]
          exact le_trans (List.Sublist.length_le (hD.2 var))
            (dget_le_maxDomainSize csp var)
        have hNBeq : (nodeBound csp (unassignedCount csp A) : Int) =
            1 + (maxDomainSize csp : Int) *
              (nodeBound csp (unassignedCount csp A - 1) : Int) := by
          rw [nodeBound_eq_of_pos csp _ hupos]
          push_cast
          ring
        have hmul : ((orderValues cfg csp var A D).length : Int) *
              (nodeBound csp (unassignedCount csp A - 1) : Int) ≤
            (maxDomainSize csp : Int) *
              (nodeBound csp (unassignedCount csp A - 1) : Int) := by
          apply mul_le_mul_of_nonneg_right
          · exact_mod_cast hvl
          · exact Int.ofNat_nonneg _
        rw [hNBeq] at hbud
        linarith

/-- C3: completeness without budget. If a model satisfying the data-model
invariants of §3 has a satisfying assignment, and the node budget is set
beyond what the search can ever consume (`nodeBound`, a bound depending
only on the model, covers every "unbounded" budget choice), then `solve`
returns an assignment — under the default configuration and under every
other built-in combination of heuristics and inference strategies. -/
theorem solve_complete (cfg : SolverConfig) (csp : CSPModel)
    (prev : SolverStats) (hwf : WellFormed csp) (S : Assignment)
    (hS : IsSolution csp S)
    (hbudget : (nodeBound csp csp.vars.length : Int) < cfg.maxNodes) :
    ∃ A, (solve cfg csp prev).result = some A := by
  obtain ⟨hnodup, hcon, hdom, hndc⟩ := hwf
  have hStotal : ∀ v ∈ csp.vars, ∃ sv, dlookup S v = some sv := by
    intro v hv
    obtain ⟨c, _, hlook⟩ := hS.1 v hv
    exact ⟨c, hlook⟩
  have hSvalid := hS.2
  have hcopy : copyDomains csp = csp.domains := List.map_id csp.domains
  have hSD0 : SolutionInDomains csp S (copyDomains csp) := by
    rw [hcopy]
    intro v hv
    obtain ⟨c, hcmem, hlook⟩ := hS.1 v hv
    exact ⟨c, hlook, hcmem⟩
  have hD0 : DomEvolve csp.domains (copyDomains csp) := by
    rw [hcopy]
    exact domEvolve_refl _
  have hu0 : unassignedCount csp [] = csp.vars.length := by
    unfold unassignedCount
    simp [dcontains, dlookup]
  obtain ⟨sol, D2, st2, hrun⟩ := backtrackF_complete cfg csp S hnodup hndc
    hcon hStotal hSvalid (unassignedCount csp [] + 1) [] (copyDomains csp) {}
    (by intro k hk; cases hk)
    (by simp [KeysNodup, keysOf])
    (by intro v c h; simp [dlookup] at h)
    hSD0 hD0 (le_refl _)
    (by rw [hu0]; simpa using hbudget)
  obtain ⟨Dout, st1, hbt, hstats⟩ := solve_destruct cfg csp prev
  rw [hrun] at hbt
  injection hbt with h1
  injection h1 with hres _
  exact ⟨sol, hres.symm⟩

/-- Witness for C3: the triangle with three colors is well formed and has
a concrete satisfying assignment; the default node budget (100000) is
beyond the triangle's node bound, and `solve` indeed returns a result. -/
theorem solve_complete_witness :
    WellFormed (triangle ["Red", "Green", "Blue"]) ∧
    IsSolution (triangle ["Red", "Green", "Blue"])
      [("A", "Red"), ("B", "Green"), ("C", "Blue")] ∧
    (nodeBound (triangle ["Red", "Green", "Blue"])
        (triangle ["Red", "Green", "Blue"]).vars.length : Int) <
      ({} : SolverConfig).maxNodes ∧
    ∃ A, (solve {} (triangle ["Red", "Green", "Blue"]) {}).result = some A := by
  refine ⟨by decide, by decide, by decide, ?_⟩
  exact solve_complete {} (triangle ["Red", "Green", "Blue"]) {} (by decide)
    [("A", "Red"), ("B", "Green"), ("C", "Blue")] (by decide) (by decide)

end MapColoring
